import Mathlib

/-!
# ATC build factory, build sets, pipeline syncer, scheduler and API handlers

A shallow embedding of `scheduler/factory/build_factory.go` (plan construction and
location numbering), of `db/algorithm/build_set.go`, of `pipelines/syncer.go`, of
`scheduler/scheduler.go`, of the handlers `api/authserver/list_auth_methods.go`,
`api/authserver/get_auth_token.go` and `api/buildserver/create.go`, and a model of the
timeout step of `exec` written from the specification.

Conventions of the embedding:

* Code that acts on collaborators (the database, the logger, processes, the engine)
  is a function from what the collaborators answer to the value returned together with
  the list of calls made, in program order.  An interface is the record of its
  methods, each a function of its arguments.

* Go pointers that the code only tests against `nil` and dereferences are `Option`s;
  plan trees are trees (no node is shared), so in-place updates through a pointer
  become functions that return the updated value.
* Go `uint` location counters: `uint.populatePlanLocations bits` and its companions
  carry the arithmetic of a `uint` of `bits` bits, every sum reduced modulo `2 ^ bits`;
  `populatePlanLocations` and `populateLocations` are the same code with unbounded
  sums.  The two agree whenever the numbering fits in the machine word
  (`populatePlanLocations_uint_eq`, `populateLocations_uint_eq`).  `populateLocations`
  counts from 1 and a step uses up at most two ids, so no sum the code forms exceeds
  twice the number of steps of the plan plus two: the numbering of a plan that fits in
  memory fits in the machine word.
* The declarations of `atc.PlanConfig`, `atc.Plan`, `atc.Location` and of the plan
  payloads live in the root package, outside the translated files.  Their fields
  are those the translated code reads or writes.
-/

namespace ATC

/-! ## Data model -/

/-- Modelled from the spec: the params of a step, `atc.Params`, declared in the root
package outside the translated files; a string-keyed map that the factory carries
through unchanged. -/
abbrev Params := List (String × String)

/-- Modelled from the spec: the source of a resource, `atc.Source`, declared in the root
package outside the translated files; a string-keyed map that the factory carries
through unchanged. -/
abbrev Source := List (String × String)

/-- Modelled from the spec: the worker tags of a step, `atc.Tags`, declared in the root
package outside the translated files; carried through unchanged. -/
abbrev Tags := List String

/-- Modelled from the spec: a resource version, `db.Version` and `atc.Version`, declared
outside the translated files: an opaque identity of an artifact state, a string-keyed
map in Go; `none` is the nil map. -/
abbrev Version := Option (List (String × String))

/-- Modelled from the spec: the inline configuration of a task, `atc.TaskConfig`, declared
in the root package outside the translated files; carried through unchanged. -/
abbrev TaskConfig := List (String × String)

/-- Modelled from the spec: the legacy `conditions` of a step, `atc.Conditions`, declared
in the root package outside the translated files; the factory only tests the pointer
to it against nil. -/
abbrev Conditions := List String

/-- Modelled from the spec: the location `{id, parent_id, parallel_group, serial_group,
hook}` of a step, `atc.Location`, declared in the root package outside the translated
files; the field names are those the factory uses, the numbers are Go `uint`s. -/
structure Location where
  ID : Nat := 0
  ParentID : Nat := 0
  ParallelGroup : Nat := 0
  SerialGroup : Nat := 0
  Hook : String := ""
deriving DecidableEq, Repr

/-- Modelled from the spec: a resource, named and typed, `atc.ResourceConfig`, declared
in the root package outside the translated files; with the fields the factory reads. -/
structure ResourceConfig where
  Name : String := ""
  Type_ : String := ""
  Source : ATC.Source := []
deriving DecidableEq, Repr

/-- The resource table `atc.ResourceConfigs`.  The type and its `Lookup` method are
declared in the root package outside the translated files; the factory only calls
`Lookup`, so the table is the lookup function it is given. -/
structure ResourceConfigs where
  Lookup : String → ResourceConfig × Bool

/-- Modelled from the spec: an input of the triggering build, `db.BuildInput`, declared
outside the translated files; with the fields the factory reads. -/
structure BuildInput where
  Name : String
  Version : ATC.Version
deriving DecidableEq, Repr

/-- Modelled from the spec: the fields of a step configuration, `atc.PlanConfig`, that
hold no nested step.  The struct is declared in the root package outside the
translated files; the fields are those the factory reads or writes.  A Go string is
unset when it is empty, a pointer when it is nil. -/
structure StepAttrs where
  Get : String := ""
  Put : String := ""
  Resource : String := ""
  Task : String := ""
  TaskConfigPath : String := ""
  TaskConfig : Option ATC.TaskConfig := none
  Privileged : Bool := false
  Params : ATC.Params := []
  GetParams : ATC.Params := []
  Tags : ATC.Tags := []
  Conditions : Option ATC.Conditions := none
  Timeout : String := ""
  Location : Option ATC.Location := none
deriving DecidableEq, Repr

/-- Modelled from the spec: a step of a job plan, `atc.PlanConfig` (get, put, task, try,
aggregate, do, with success, failure and ensure hooks), declared in the root package
outside the translated files: its scalar fields, then the nested steps `Do`,
`Aggregate` (pointers to sequences) and `Try`, `Success`, `Failure`, `Ensure` (pointers
to steps). -/
inductive PlanConfig where
  | mk (attrs : StepAttrs) (Do Aggregate : Option (List PlanConfig))
      (Try Success Failure Ensure : Option PlanConfig)
deriving Repr

/-- A sequence of steps, `atc.PlanSequence`. -/
abbrev PlanSequence := List PlanConfig

namespace PlanConfig

/-- Scalar fields of a step. -/
def attrs : PlanConfig → StepAttrs
  | mk a _ _ _ _ _ _ => a

/-- Field `Do`. -/
def Do : PlanConfig → Option PlanSequence
  | mk _ d _ _ _ _ _ => d

/-- Field `Aggregate`. -/
def Aggregate : PlanConfig → Option PlanSequence
  | mk _ _ ag _ _ _ _ => ag

/-- Field `Try`. -/
def Try : PlanConfig → Option PlanConfig
  | mk _ _ _ t _ _ _ => t

/-- Field `Success`. -/
def Success : PlanConfig → Option PlanConfig
  | mk _ _ _ _ s _ _ => s

/-- Field `Failure`. -/
def Failure : PlanConfig → Option PlanConfig
  | mk _ _ _ _ _ f _ => f

/-- Field `Ensure`. -/
def Ensure : PlanConfig → Option PlanConfig
  | mk _ _ _ _ _ _ e => e

end PlanConfig

/-- Modelled from the spec: the payload of a `Get` plan node, `atc.GetPlan`, declared in
the root package outside the translated files; with the fields the factory writes. -/
structure GetPlan where
  Type_ : String
  Name : String
  Resource : String
  Pipeline : String
  Source : ATC.Source
  Params : ATC.Params
  Version : ATC.Version
  Tags : ATC.Tags
deriving DecidableEq, Repr

/-- Modelled from the spec: the payload of a `Put` plan node, `atc.PutPlan`, declared in
the root package outside the translated files; with the fields the factory writes. -/
structure PutPlan where
  Type_ : String
  Name : String
  Resource : String
  Pipeline : String
  Source : ATC.Source
  Params : ATC.Params
  Tags : ATC.Tags
deriving DecidableEq, Repr

/-- Modelled from the spec: the payload of a `DependentGet` plan node,
`atc.DependentGetPlan`, declared in the root package outside the translated files; with
the fields the factory writes. -/
structure DependentGetPlan where
  Type_ : String
  Name : String
  Resource : String
  Pipeline : String
  Params : ATC.Params
  Tags : ATC.Tags
  Source : ATC.Source
deriving DecidableEq, Repr

/-- Modelled from the spec: the payload of a `Task` plan node, `atc.TaskPlan`, declared in
the root package outside the translated files; with the fields the factory writes. -/
structure TaskPlan where
  Name : String
  Privileged : Bool
  Config : Option ATC.TaskConfig
  ConfigPath : String
  Tags : ATC.Tags
deriving DecidableEq, Repr

/-- Modelled from the spec: the fields of a plan node, `atc.Plan`, that hold no sub-plan.
The struct is declared in the root package outside the translated files; the fields
are those the factory reads or writes. -/
structure PlanLeaf where
  Location : Option ATC.Location := none
  Get : Option GetPlan := none
  Put : Option PutPlan := none
  DependentGet : Option DependentGetPlan := none
  Task : Option TaskPlan := none
deriving DecidableEq, Repr

/-- Modelled from the spec: a node of the executable plan, `atc.Plan`, declared in the
root package outside the translated files.  The specification presents it as the
variants `Get | Put | DependentGet | Task | Aggregate | OnSuccess | OnFailure | Ensure |
Try | Timeout`; the factory uses it as a struct of pointers, one for each variant, next
to the location, and that is what this record is.  `OnSuccess`, `OnFailure` and `Ensure`
hold the pair `(Step, Next)`, `Try` holds its `Step`, `Timeout` holds
`(Duration, Step)`. -/
inductive Plan where
  | mk (leaf : PlanLeaf) (Aggregate : Option (List Plan))
      (OnSuccess OnFailure Ensure : Option (Plan × Plan))
      (Try : Option Plan) (Timeout : Option (String × Plan))
deriving Repr

namespace Plan

/-- The zero value `atc.Plan{}`. -/
def empty : Plan := mk {} none none none none none none

/-- Scalar fields of a plan node. -/
def leaf : Plan → PlanLeaf
  | mk l _ _ _ _ _ _ => l

/-- Field `Location`. -/
def Location (p : Plan) : Option ATC.Location := p.leaf.Location

/-- Field `OnSuccess`. -/
def OnSuccess : Plan → Option (Plan × Plan)
  | mk _ _ os _ _ _ _ => os

/-- Go's `plan == atc.Plan{}`: every pointer field is nil. -/
def isEmpty : Plan → Bool
  | mk l none none none none none none =>
      l.Location.isNone && l.Get.isNone && l.Put.isNone && l.DependentGet.isNone
        && l.Task.isNone
  | _ => false

/-- Assignment `plan.Location = loc`. -/
def setLocation : Plan → Option ATC.Location → Plan
  | mk l ag os ofl en tr tm, loc => mk { l with Location := loc } ag os ofl en tr tm

/-- Assignment `plan.OnSuccess.Next = next` (no effect on a nil `OnSuccess`). -/
def setOnSuccessNext : Plan → Plan → Plan
  | mk l ag (some (step, _)) ofl en tr tm, next => mk l ag (some (step, next)) ofl en tr tm
  | p, _ => p

/-- A plan holding only a location and leaf parts. -/
def ofLeaf (l : PlanLeaf) : Plan := mk l none none none none none none

/-- Literal `atc.Plan{OnSuccess: &atc.OnSuccessPlan{Step: step, Next: next}}`. -/
def onSuccess (step next : Plan) : Plan := mk {} none (some (step, next)) none none none none

/-- Literal `atc.Plan{OnFailure: &atc.OnFailurePlan{Step: step, Next: next}}`. -/
def onFailure (step next : Plan) : Plan := mk {} none none (some (step, next)) none none none

/-- Literal `atc.Plan{Ensure: &atc.EnsurePlan{Step: step, Next: next}}`. -/
def ensure (step next : Plan) : Plan := mk {} none none none (some (step, next)) none none

/-- Literal `atc.Plan{Location: loc, Try: &atc.TryPlan{Step: step}}`. -/
def try_ (loc : Option ATC.Location) (step : Plan) : Plan :=
  mk { Location := loc } none none none none (some step) none

/-- Literal `atc.Plan{Location: loc, Aggregate: &steps}`. -/
def aggregate (loc : Option ATC.Location) (steps : List Plan) : Plan :=
  mk { Location := loc } (some steps) none none none none none

/-- Literal `atc.Plan{Timeout: &atc.TimeoutPlan{Duration: d, Step: step}}`. -/
def timeout (d : String) (step : Plan) : Plan :=
  mk {} none none none none none (some (d, step))

end Plan

/-! ## `BuildFactory`: rejecting conditionals -/

mutual

/-- Method `doesAnyStepMatch`: the loop over the sequence. -/
def doesAnyStepMatch (predicate : PlanConfig → Bool) : PlanSequence → Bool
  | [] => false
  | planStep :: rest =>
      if doesStepMatch predicate planStep then true
      else doesAnyStepMatch predicate rest

/-- The body of the loop of `doesAnyStepMatch` at one step: it follows `Aggregate`,
then `Do`, then tests the step itself. -/
def doesStepMatch (predicate : PlanConfig → Bool) : PlanConfig → Bool
  | PlanConfig.mk a d ag t s f e =>
      if (match ag with
          | some steps => doesAnyStepMatch predicate steps
          | none => false) then true
      else if (match d with
          | some steps => doesAnyStepMatch predicate steps
          | none => false) then true
      else predicate (PlanConfig.mk a d ag t s f e)

end

/-- Method `hasConditionals`. -/
def hasConditionals (planSequence : PlanSequence) : Bool :=
  doesAnyStepMatch (fun step => step.attrs.Conditions.isSome) planSequence

/-! ## `BuildFactory`: location numbering -/

/-- What the `switch` of `populatePlanLocations` leaves behind: the updated fields of
the step and the local variables `stepCount` and `parentID`. -/
structure Switched where
  attrs : StepAttrs
  Do : Option PlanSequence
  Aggregate : Option PlanSequence
  Try : Option PlanConfig
  stepCount : Nat
  parentID : Nat

mutual

/-- Function `populatePlanLocations`: returns the step with its locations filled in
and the number of ids the step used up.  The sums are unbounded here;
`uint.populatePlanLocations` below forms them in the arithmetic of Go's `uint`. -/
def populatePlanLocations : PlanConfig → Location → PlanConfig × Nat
  | PlanConfig.mk a d ag t s f e, location =>
      let sw : Switched :=
        if a.Put ≠ "" then
          -- offset by one for the dependent get that will be added
          ⟨{ a with Location := some location }, d, ag, t, 0 + 1, location.ID⟩
        else
          match d, t, ag with
          | some children, _, _ =>
              let serialGroup := location.ID + 1
              let location1 : Location :=
                if location.SerialGroup ≠ 0 then
                  { location with ParentID := location.SerialGroup }
                else location
              let r := populateChildren
                (fun child stepCount =>
                  { ID := location1.ID + stepCount + 1
                    ParentID := location1.ParentID
                    ParallelGroup := location1.ParallelGroup
                    SerialGroup := serialGroup
                    Hook := if child.Do.isNone then location1.Hook else "" })
                children (0 + 1)
              ⟨a, some r.1, ag, t, r.2, serialGroup⟩
          | none, some child, _ =>
              let childLocation : Location :=
                { ID := location.ID + 0 + 1
                  ParentID := location.ParentID
                  ParallelGroup := 0
                  Hook := location.Hook }
              let r := populatePlanLocations child childLocation
              ⟨a, d, ag, some r.1, 0 + r.2, location.ID⟩
          | none, none, some children =>
              let parallelGroup := location.ID + 1
              let location1 : Location :=
                if location.ParallelGroup ≠ 0 then
                  { location with ParentID := location.ParallelGroup }
                else location
              let r := populateChildren
                (fun child stepCount =>
                  { ID := location1.ID + stepCount + 1
                    ParentID := location1.ParentID
                    ParallelGroup := parallelGroup
                    SerialGroup := location1.SerialGroup
                    Hook :=
                      if child.Aggregate.isNone && child.Do.isNone then location1.Hook
                      else "" })
                children (0 + 1)
              ⟨a, d, some r.1, t, r.2, parallelGroup⟩
          | none, none, none =>
              ⟨{ a with Location := some location }, d, ag, t, 0, location.ID⟩
      let rf := populateHook f location.ID sw.stepCount sw.parentID "failure"
      let rs := populateHook s location.ID rf.2 sw.parentID "success"
      let re := populateHook e location.ID rs.2 sw.parentID "ensure"
      (PlanConfig.mk sw.attrs sw.Do sw.Aggregate sw.Try rs.1 rf.1 re.1, re.2 + 1)

/-- The loop `for i := 0; i < len(children); i++` that the `Do` case and the
`Aggregate` case of `populatePlanLocations` run over their children:
`childLocation child stepCount` is the location literal the case builds for `child` at
the running `stepCount`; the result holds the updated children and the final count. -/
def populateChildren (childLocation : PlanConfig → Nat → Location) :
    PlanSequence → Nat → PlanSequence × Nat
  | [], stepCount => ([], stepCount)
  | child :: rest, stepCount =>
      let r := populatePlanLocations child (childLocation child stepCount)
      let rs := populateChildren childLocation rest (stepCount + r.2)
      (r.1 :: rs.1, rs.2)

/-- One of the three hook blocks that close `populatePlanLocations`: the first argument
is the step under `Failure`, `Success` or `Ensure`, `locationID` is `location.ID`. -/
def populateHook : Option PlanConfig → Nat → Nat → Nat → String → Option PlanConfig × Nat
  | none, _, stepCount, _, _ => (none, stepCount)
  | some child, locationID, stepCount, parentID, hookName =>
      let childLocation : Location :=
        { ID := locationID + stepCount + 1
          ParentID := parentID
          ParallelGroup := 0
          Hook := hookName }
      let r := populatePlanLocations child childLocation
      (some r.1, stepCount + r.2)

end

/-- The loop of `populateLocations`, from the running `stepCount`. -/
def populateLocationsFrom : PlanSequence → Nat → PlanSequence
  | [], _ => []
  | plan :: rest, stepCount =>
      let location : Location := { ID := stepCount, ParentID := 0, ParallelGroup := 0 }
      let r := populatePlanLocations plan location
      r.1 :: populateLocationsFrom rest (stepCount + r.2)

/-- Function `populateLocations`. -/
def populateLocations (planSequence : PlanSequence) : PlanSequence :=
  populateLocationsFrom planSequence 1

/-! ## `BuildFactory`: location numbering in machine arithmetic -/

/-- Addition of two Go `uint` values on a platform whose `uint` is `bits` wide (32 or
64): the sum wraps around at `2 ^ bits`. -/
def uint.add (bits x y : Nat) : Nat := (x + y) % 2 ^ bits

mutual

/-- Function `populatePlanLocations` with the arithmetic of Go's `uint`, `bits` wide:
every sum the code forms is reduced modulo `2 ^ bits`.  `ATC.populatePlanLocations` is
the same function with unbounded sums; the two agree on a tree whose numbering fits
in the machine word. -/
def uint.populatePlanLocations (bits : Nat) : PlanConfig → Location → PlanConfig × Nat
  | PlanConfig.mk a d ag t s f e, location =>
      let sw : Switched :=
        if a.Put ≠ "" then
          -- offset by one for the dependent get that will be added
          ⟨{ a with Location := some location }, d, ag, t, uint.add bits 0 1, location.ID⟩
        else
          match d, t, ag with
          | some children, _, _ =>
              let serialGroup := uint.add bits location.ID 1
              let location1 : Location :=
                if location.SerialGroup ≠ 0 then
                  { location with ParentID := location.SerialGroup }
                else location
              let r := uint.populateChildren bits
                (fun child stepCount =>
                  { ID := uint.add bits (uint.add bits location1.ID stepCount) 1
                    ParentID := location1.ParentID
                    ParallelGroup := location1.ParallelGroup
                    SerialGroup := serialGroup
                    Hook := if child.Do.isNone then location1.Hook else "" })
                children (uint.add bits 0 1)
              ⟨a, some r.1, ag, t, r.2, serialGroup⟩
          | none, some child, _ =>
              let childLocation : Location :=
                { ID := uint.add bits (uint.add bits location.ID 0) 1
                  ParentID := location.ParentID
                  ParallelGroup := 0
                  Hook := location.Hook }
              let r := uint.populatePlanLocations bits child childLocation
              ⟨a, d, ag, some r.1, uint.add bits 0 r.2, location.ID⟩
          | none, none, some children =>
              let parallelGroup := uint.add bits location.ID 1
              let location1 : Location :=
                if location.ParallelGroup ≠ 0 then
                  { location with ParentID := location.ParallelGroup }
                else location
              let r := uint.populateChildren bits
                (fun child stepCount =>
                  { ID := uint.add bits (uint.add bits location1.ID stepCount) 1
                    ParentID := location1.ParentID
                    ParallelGroup := parallelGroup
                    SerialGroup := location1.SerialGroup
                    Hook :=
                      if child.Aggregate.isNone && child.Do.isNone then location1.Hook
                      else "" })
                children (uint.add bits 0 1)
              ⟨a, d, some r.1, t, r.2, parallelGroup⟩
          | none, none, none =>
              ⟨{ a with Location := some location }, d, ag, t, 0, location.ID⟩
      let rf := uint.populateHook bits f location.ID sw.stepCount sw.parentID "failure"
      let rs := uint.populateHook bits s location.ID rf.2 sw.parentID "success"
      let re := uint.populateHook bits e location.ID rs.2 sw.parentID "ensure"
      (PlanConfig.mk sw.attrs sw.Do sw.Aggregate sw.Try rs.1 rf.1 re.1, uint.add bits re.2 1)

/-- The children loop of the `Do` case and the `Aggregate` case, with the arithmetic of
Go's `uint`. -/
def uint.populateChildren (bits : Nat) (childLocation : PlanConfig → Nat → Location) :
    PlanSequence → Nat → PlanSequence × Nat
  | [], stepCount => ([], stepCount)
  | child :: rest, stepCount =>
      let r := uint.populatePlanLocations bits child (childLocation child stepCount)
      let rs := uint.populateChildren bits childLocation rest (uint.add bits stepCount r.2)
      (r.1 :: rs.1, rs.2)

/-- One of the three hook blocks, with the arithmetic of Go's `uint`. -/
def uint.populateHook (bits : Nat) :
    Option PlanConfig → Nat → Nat → Nat → String → Option PlanConfig × Nat
  | none, _, stepCount, _, _ => (none, stepCount)
  | some child, locationID, stepCount, parentID, hookName =>
      let childLocation : Location :=
        { ID := uint.add bits (uint.add bits locationID stepCount) 1
          ParentID := parentID
          ParallelGroup := 0
          Hook := hookName }
      let r := uint.populatePlanLocations bits child childLocation
      (some r.1, uint.add bits stepCount r.2)

end

/-- The loop of `populateLocations` with the arithmetic of Go's `uint`, from the
running `stepCount`. -/
def uint.populateLocationsFrom (bits : Nat) : PlanSequence → Nat → PlanSequence
  | [], _ => []
  | plan :: rest, stepCount =>
      let location : Location := { ID := stepCount, ParentID := 0, ParallelGroup := 0 }
      let r := uint.populatePlanLocations bits plan location
      r.1 :: uint.populateLocationsFrom bits rest (uint.add bits stepCount r.2)

/-- Function `populateLocations` with the arithmetic of Go's `uint`. -/
def uint.populateLocations (bits : Nat) (planSequence : PlanSequence) : PlanSequence :=
  uint.populateLocationsFrom bits planSequence 1

/-! ## `BuildFactory`: plan construction -/

/-- The factory `BuildFactory`. -/
structure BuildFactory where
  PipelineName : String

/-- Modelled from the spec: a job, a named plan of steps, `atc.JobConfig`, declared in the
root package outside the translated files; with the fields the factory reads. -/
structure JobConfig where
  Name : String := ""
  Plan : PlanSequence := []

/-- The loop over `inputs` in the `Get` case of `constructPlanFromConfig`: the version
of the first input called `name`, the nil version when there is none. -/
def inputVersion (name : String) : List BuildInput → Version
  | [] => none
  | input :: rest => if input.Name = name then input.Version else inputVersion name rest

/-- The `Put` case of `constructPlanFromConfig`. -/
def constructPut (factory : BuildFactory) (resources : ResourceConfigs) (a : StepAttrs) : Plan :=
  let logicalName := a.Put
  let resourceName := if a.Resource = "" then logicalName else a.Resource
  let resource := (resources.Lookup resourceName).1
  let putPlan : PutPlan :=
    { Type_ := resource.Type_
      Name := logicalName
      Pipeline := factory.PipelineName
      Resource := resourceName
      Source := resource.Source
      Params := a.Params
      Tags := a.Tags }
  let dependentGetPlan : DependentGetPlan :=
    { Type_ := resource.Type_
      Name := logicalName
      Pipeline := factory.PipelineName
      Resource := resourceName
      Params := a.GetParams
      Tags := a.Tags
      Source := resource.Source }
  let stepLocation : Location :=
    match a.Location with
    | some l =>
        { ID := l.ID
          Hook := l.Hook
          SerialGroup := l.SerialGroup
          ParallelGroup := if l.ParallelGroup ≠ 0 then l.ParallelGroup else 0
          ParentID := if l.ParallelGroup ≠ 0 then 0 else l.ParentID }
    | none => {}
  let nextLocation : Location :=
    match a.Location with
    | some _ => { ID := stepLocation.ID + 1, ParentID := stepLocation.ID }
    | none => {}
  Plan.onSuccess
    (Plan.ofLeaf { Location := some stepLocation, Put := some putPlan })
    (Plan.ofLeaf { Location := some nextLocation, DependentGet := some dependentGetPlan })

/-- The `atc.GetPlan` literal of the `Get` case of `constructPlanFromConfig`. -/
def constructGetPlan (factory : BuildFactory) (resources : ResourceConfigs)
    (inputs : List BuildInput) (a : StepAttrs) : GetPlan :=
  let resourceName := if a.Resource = "" then a.Get else a.Resource
  let resource := (resources.Lookup resourceName).1
  let name := a.Get
  let version := inputVersion name inputs
  { Type_ := resource.Type_
    Name := name
    Pipeline := factory.PipelineName
    Resource := resourceName
    Source := resource.Source
    Params := a.Params
    Version := version
    Tags := a.Tags }

/-- The `Get` case of `constructPlanFromConfig`. -/
def constructGet (factory : BuildFactory) (resources : ResourceConfigs)
    (inputs : List BuildInput) (a : StepAttrs) : Plan :=
  Plan.ofLeaf
    { Location := a.Location
      Get := some (constructGetPlan factory resources inputs a) }

/-- The `Task` case of `constructPlanFromConfig`. -/
def constructTask (a : StepAttrs) : Plan :=
  Plan.ofLeaf
    { Location := a.Location
      Task := some
        { Name := a.Task
          Privileged := a.Privileged
          Config := a.TaskConfig
          ConfigPath := a.TaskConfigPath
          Tags := a.Tags } }

mutual

/-- Method `constructPlanHookBasedPlan`. -/
def constructPlanHookBasedPlan (factory : BuildFactory) (resources : ResourceConfigs)
    (inputs : List BuildInput) : PlanSequence → Plan
  | [] => Plan.empty
  | step :: rest =>
      let plan := constructPlanFromConfig factory resources inputs step true
      match rest with
      | [] => plan
      | _ :: _ =>
          if (match plan.OnSuccess with
              | some (_, next) => next.isEmpty
              | none => false) then
            plan.setOnSuccessNext (constructPlanHookBasedPlan factory resources inputs rest)
          else
            Plan.onSuccess plan (constructPlanHookBasedPlan factory resources inputs rest)

/-- Method `constructPlanSequenceBasedPlan`, as the loop from the running `plan`: every
step is built with `hasHooks = false` and the last one built is kept. -/
def constructPlanSequenceBasedLoop (factory : BuildFactory) (resources : ResourceConfigs)
    (inputs : List BuildInput) : PlanSequence → Plan → Plan
  | [], plan => plan
  | step :: rest, _ =>
      constructPlanSequenceBasedLoop factory resources inputs rest
        (constructPlanFromConfig factory resources inputs step false)

/-- The loop of the `Aggregate` case of `constructPlanFromConfig`. -/
def constructAggregate (factory : BuildFactory) (resources : ResourceConfigs)
    (inputs : List BuildInput) : PlanSequence → Bool → List Plan
  | [], _ => []
  | step :: rest, hasHooks =>
      constructPlanFromConfig factory resources inputs step hasHooks
        :: constructAggregate factory resources inputs rest hasHooks

/-- Method `constructPlanFromConfig`. -/
def constructPlanFromConfig (factory : BuildFactory) (resources : ResourceConfigs)
    (inputs : List BuildInput) : PlanConfig → Bool → Plan
  | PlanConfig.mk a d ag t s f e, hasHooks =>
      let plan : Plan :=
        match d with
        | some steps =>
            let plan :=
              if hasHooks then constructPlanHookBasedPlan factory resources inputs steps
              else constructPlanSequenceBasedLoop factory resources inputs steps Plan.empty
            if plan.Location.isNone then plan.setLocation a.Location else plan
        | none =>
            if a.Put ≠ "" then constructPut factory resources a
            else if a.Get ≠ "" then constructGet factory resources inputs a
            else if a.Task ≠ "" then constructTask a
            else
              match t, ag with
              | some step, _ =>
                  Plan.try_ a.Location
                    (constructPlanFromConfig factory resources inputs step hasHooks)
              | none, some steps =>
                  Plan.aggregate a.Location
                    (constructAggregate factory resources inputs steps hasHooks)
              | none, none => Plan.empty
      let plan := if a.Timeout ≠ "" then Plan.timeout a.Timeout plan else plan
      ensureIfPresent factory resources inputs e
        (successIfPresent factory resources inputs s
          (failureIfPresent factory resources inputs f plan hasHooks) hasHooks) hasHooks

/-- Method `successIfPresent`, on the `Success` field of the step and the plan so far. -/
def successIfPresent (factory : BuildFactory) (resources : ResourceConfigs)
    (inputs : List BuildInput) : Option PlanConfig → Plan → Bool → Plan
  | none, plan, _ => plan
  | some step, plan, hasHooks =>
      Plan.onSuccess plan (constructPlanFromConfig factory resources inputs step hasHooks)

/-- Method `failureIfPresent`, on the `Failure` field of the step and the plan so far. -/
def failureIfPresent (factory : BuildFactory) (resources : ResourceConfigs)
    (inputs : List BuildInput) : Option PlanConfig → Plan → Bool → Plan
  | none, plan, _ => plan
  | some step, plan, hasHooks =>
      Plan.onFailure plan (constructPlanFromConfig factory resources inputs step hasHooks)

/-- Method `ensureIfPresent`, on the `Ensure` field of the step and the plan so far. -/
def ensureIfPresent (factory : BuildFactory) (resources : ResourceConfigs)
    (inputs : List BuildInput) : Option PlanConfig → Plan → Bool → Plan
  | none, plan, _ => plan
  | some step, plan, hasHooks =>
      Plan.ensure plan (constructPlanFromConfig factory resources inputs step hasHooks)

end

/-- Method `constructPlanSequenceBasedPlan`. -/
def constructPlanSequenceBasedPlan (factory : BuildFactory) (resources : ResourceConfigs)
    (inputs : List BuildInput) (planSequence : PlanSequence) : Plan :=
  constructPlanSequenceBasedLoop factory resources inputs planSequence Plan.empty

/-- The error `Create` returns for a plan with conditionals. -/
def conditionalsError : String :=
  "Conditionals are no longer supported in build plans. Use success/failure hooks instead."

/-- Method `Create`: the plan and the error (`none` is the nil error). -/
def Create (factory : BuildFactory) (job : JobConfig) (resources : ResourceConfigs)
    (inputs : List BuildInput) : Plan × Option String :=
  if hasConditionals job.Plan then (Plan.empty, some conditionalsError)
  else
    (constructPlanHookBasedPlan factory resources inputs (populateLocations job.Plan), none)

/-! ## Build sets -/

/-- Type `BuildSet`, a Go map from build ids to the empty struct: a finite set of keys. -/
abbrev BuildSet := Finset Int

namespace BuildSet

/-- Method `Contains`. -/
def Contains (set : BuildSet) (buildID : Int) : Bool := decide (buildID ∈ set)

/-- Method `Union`: every key of either set is stored in the new set. -/
def Union (set otherSet : BuildSet) : BuildSet := set ∪ otherSet

/-- Method `Intersect`: the keys of `set` that are found in `otherSet`. -/
def Intersect (set otherSet : BuildSet) : BuildSet := set.filter (fun key => key ∈ otherSet)

/-- Method `Equal`: the lengths are compared first, then every key of `set` is looked
up in `otherSet`. -/
def Equal (set otherSet : BuildSet) : Bool :=
  if set.card ≠ otherSet.card then false
  else decide (∀ x ∈ set, otherSet.Contains x = true)

end BuildSet

/-! ## Definitions used to state the properties -/

namespace PlanConfig

/-- How many of the six step kinds `get`, `put`, `task`, `try`, `aggregate`, `do` the
step sets. -/
def kindCount : PlanConfig → Nat
  | mk a d ag t _ _ _ =>
      (if a.Get ≠ "" then 1 else 0) + (if a.Put ≠ "" then 1 else 0)
        + (if a.Task ≠ "" then 1 else 0) + (if t.isSome then 1 else 0)
        + (if ag.isSome then 1 else 0) + (if d.isSome then 1 else 0)

/-- A get, put or task step: the step sets exactly one kind and it is none of `do`,
`try`, `aggregate`. -/
def isGetPutOrTask (pc : PlanConfig) : Prop :=
  pc.kindCount = 1 ∧ pc.Do = none ∧ pc.Try = none ∧ pc.Aggregate = none

/-- The steps directly under a step, in the order of the pre-order walk: the nested
`do`, `try` or `aggregate` children, then the failure, success and ensure hooks. -/
def kids : PlanConfig → List PlanConfig
  | mk _ d ag t s f e =>
      d.getD [] ++ t.toList ++ ag.getD [] ++ f.toList ++ s.toList ++ e.toList

mutual

/-- All steps of the tree under a step, the step itself first, in pre-order. -/
def steps : PlanConfig → List PlanConfig
  | mk a d ag t s f e =>
      mk a d ag t s f e ::
        ((match d with
          | some children => stepsSeq children
          | none => [])
        ++ (match t with
          | some child => steps child
          | none => [])
        ++ (match ag with
          | some children => stepsSeq children
          | none => [])
        ++ (match f with
          | some child => steps child
          | none => [])
        ++ (match s with
          | some child => steps child
          | none => [])
        ++ (match e with
          | some child => steps child
          | none => []))

/-- All steps of the trees under a sequence, in pre-order. -/
def stepsSeq : List PlanConfig → List PlanConfig
  | [] => []
  | child :: rest => steps child ++ stepsSeq rest

end

/-- The location ids of the plan nodes that `constructPlanFromConfig` builds for the
step itself: a put yields the put node and its dependent get, a get or a task one
node (none when the step has no location). -/
def ownIds : PlanConfig → List Nat
  | mk a d _ _ _ _ _ =>
      if d.isSome then []
      else if a.Put ≠ "" then
        match a.Location with
        | some l => [l.ID, l.ID + 1]
        | none => [0, 0]
      else if a.Get ≠ "" ∨ a.Task ≠ "" then
        match a.Location with
        | some l => [l.ID]
        | none => []
      else []

/-- The location ids a located step tree holds, in pre-order. -/
def configIds (pc : PlanConfig) : List Nat := (steps pc).flatMap ownIds

/-- The ids `populatePlanLocations` uses up for the step itself: two for a put (the
put and its dependent get), for a do and for an aggregate (the step and its group),
one otherwise. -/
def ownCount (pc : PlanConfig) : Nat :=
  if pc.attrs.Put ≠ "" ∨ pc.Do.isSome ∨ pc.Aggregate.isSome then 2 else 1

/-- The ids the whole tree under a step uses up. -/
def idCount (pc : PlanConfig) : Nat := ((steps pc).map ownCount).sum

/-- The resource a put step writes to: `Resource`, or the put name when it is empty. -/
def putResource (pc : PlanConfig) : String :=
  if pc.attrs.Resource = "" then pc.attrs.Put else pc.attrs.Resource

end PlanConfig

namespace PlanSequence

/-- Every step of the plan tree is exactly one of get, put, task, try, aggregate, do. -/
def wellKinded (l : PlanSequence) : Prop := ∀ st ∈ PlanConfig.stepsSeq l, st.kindCount = 1

/-- No step of the plan tree has the legacy `conditions` field. -/
def noConditions (l : PlanSequence) : Prop :=
  ∀ st ∈ PlanConfig.stepsSeq l, st.attrs.Conditions = none

/-- The put steps of the plan tree, in pre-order. -/
def putSteps (l : PlanSequence) : List PlanConfig :=
  (PlanConfig.stepsSeq l).filter (fun st => decide (st.attrs.Put ≠ ""))

/-- Number of do, aggregate (two ids each) and try (one id) steps, weighted by the ids
each of them uses up without giving them to a plan node. -/
def skippedIds (l : PlanSequence) : Nat :=
  ((PlanConfig.stepsSeq l).map (fun st =>
    if st.Do.isSome ∨ st.Aggregate.isSome then 2 else if st.Try.isSome then 1 else 0)).sum

end PlanSequence

namespace Plan

mutual

/-- All nodes of a plan, the node itself first, each `Step` before its `Next`. -/
def nodes : Plan → List Plan
  | mk l ag os ofl en tr tm =>
      mk l ag os ofl en tr tm ::
        ((match ag with
          | some ps => nodesList ps
          | none => [])
        ++ (match ofl with
          | some (step, next) => nodes step ++ nodes next
          | none => [])
        ++ (match en with
          | some (step, next) => nodes step ++ nodes next
          | none => [])
        ++ (match tr with
          | some step => nodes step
          | none => [])
        ++ (match tm with
          | some (_, step) => nodes step
          | none => [])
        ++ (match os with
          | some (step, next) => nodes step ++ nodes next
          | none => []))

/-- All nodes of a list of plans. -/
def nodesList : List Plan → List Plan
  | [] => []
  | p :: ps => nodes p ++ nodesList ps

end

/-- The location id a node carries when it is a get, put, dependent-get or task node. -/
def ownLocationIds (p : Plan) : List Nat :=
  if p.leaf.Get.isSome ∨ p.leaf.Put.isSome ∨ p.leaf.DependentGet.isSome ∨ p.leaf.Task.isSome then
    match p.leaf.Location with
    | some l => [l.ID]
    | none => []
  else []

/-- The location ids carried by the get, put, dependent-get and task nodes of a plan,
in pre-order. -/
def locationIds (p : Plan) : List Nat := (nodes p).flatMap ownLocationIds

end Plan

/-- A node of the form `OnSuccess{Step: Put, Next: DependentGet}`: the two payloads and
the locations of the two sides. -/
structure PutNode where
  put : PutPlan
  get : DependentGetPlan
  putLocation : Option Location
  getLocation : Option Location

/-- The put expansion a node is, if it is one. -/
def Plan.putNodeOf (p : Plan) : Option PutNode :=
  match p.OnSuccess with
  | some (step, next) =>
      match step.leaf.Put, next.leaf.DependentGet with
      | some put, some get => some ⟨put, get, step.leaf.Location, next.leaf.Location⟩
      | _, _ => none
  | none => none

/-- The put expansions of a plan, in pre-order. -/
def Plan.putNodes (p : Plan) : List PutNode :=
  (Plan.nodes p).flatMap (fun node => node.putNodeOf.toList)

/-- The location the `Do` case of `populatePlanLocations` builds for `child` at the
running `stepCount`, from the location of the do step as it was passed in. -/
def doChildLocation (location : Location) (child : PlanConfig) (stepCount : Nat) : Location :=
  { ID := location.ID + stepCount + 1
    ParentID := if location.SerialGroup ≠ 0 then location.SerialGroup else location.ParentID
    ParallelGroup := location.ParallelGroup
    SerialGroup := location.ID + 1
    Hook := if child.Do.isNone then location.Hook else "" }

/-- The location the `Aggregate` case of `populatePlanLocations` builds for `child` at
the running `stepCount`, from the location of the aggregate step as it was passed in. -/
def aggregateChildLocation (location : Location) (child : PlanConfig) (stepCount : Nat) :
    Location :=
  { ID := location.ID + stepCount + 1
    ParentID :=
      if location.ParallelGroup ≠ 0 then location.ParallelGroup else location.ParentID
    ParallelGroup := location.ID + 1
    SerialGroup := location.SerialGroup
    Hook := if child.Aggregate.isNone && child.Do.isNone then location.Hook else "" }

/-- The location the `Try` case of `populatePlanLocations` builds for the child. -/
def tryChildLocation (location : Location) : Location :=
  { ID := location.ID + 0 + 1
    ParentID := location.ParentID
    ParallelGroup := 0
    Hook := location.Hook }

/-- What `populatePlanLocations` leaves untouched in a step: its scalar fields but the
location, and which of `Do`, `Try`, `Aggregate` it has. -/
def PlanConfig.header (pc : PlanConfig) : StepAttrs × Bool × Bool × Bool :=
  ({ pc.attrs with Location := none }, pc.Do.isSome, pc.Try.isSome, pc.Aggregate.isSome)

/-- A step that is none of do, try, aggregate has a location. -/
def PlanConfig.located (pc : PlanConfig) : Prop :=
  pc.Do = none → pc.Try = none → pc.Aggregate = none → pc.attrs.Location.isSome = true

/-- The ids of the list strictly increase and lie in `[lo, hi)`. -/
def IdsWithin (lo hi : Nat) (l : List Nat) : Prop :=
  l.Pairwise (fun x y => x < y) ∧ ∀ x ∈ l, lo ≤ x ∧ x < hi

/-- The steps `L'` are the steps `L` with locations filled in: nothing else changed,
every get, put and task step has a location, and the ids of `L'` strictly increase
within `[lo, hi)`. -/
def Populated (L L' : List PlanConfig) (lo hi : Nat) : Prop :=
  L'.map PlanConfig.header = L.map PlanConfig.header
    ∧ (∀ st ∈ L', st.located)
    ∧ IdsWithin lo hi (L'.flatMap PlanConfig.ownIds)

/-- What the numbering of one step tree achieves, from any location. -/
def PopulatesWell (c : PlanConfig) : Prop :=
  ∀ loc : Location, (∀ st ∈ PlanConfig.steps c, st.kindCount = 1) →
    (populatePlanLocations c loc).2 = c.idCount
      ∧ Populated (PlanConfig.steps c) (PlanConfig.steps (populatePlanLocations c loc).1)
          loc.ID (loc.ID + c.idCount)

/-- The three hook blocks and the `return` of `populatePlanLocations`, run from what the
`switch` left behind. -/
def populateHooks (sw : Switched) (s f e : Option PlanConfig) (locationID : Nat) :
    PlanConfig × Nat :=
  let rf := populateHook f locationID sw.stepCount sw.parentID "failure"
  let rs := populateHook s locationID rf.2 sw.parentID "success"
  let re := populateHook e locationID rs.2 sw.parentID "ensure"
  (PlanConfig.mk sw.attrs sw.Do sw.Aggregate sw.Try rs.1 rf.1 re.1, re.2 + 1)

/-- The three hook blocks and the `return` of `populatePlanLocations`, with the
arithmetic of Go's `uint`, run from what the `switch` left behind. -/
def uint.populateHooks (bits : Nat) (sw : Switched) (s f e : Option PlanConfig)
    (locationID : Nat) : PlanConfig × Nat :=
  let rf := uint.populateHook bits f locationID sw.stepCount sw.parentID "failure"
  let rs := uint.populateHook bits s locationID rf.2 sw.parentID "success"
  let re := uint.populateHook bits e locationID rs.2 sw.parentID "ensure"
  (PlanConfig.mk sw.attrs sw.Do sw.Aggregate sw.Try rs.1 rf.1 re.1, uint.add bits re.2 1)

/-- The numbering of the tree `pc` from `loc` fits in a `uint` of `bits` bits: with the
count `N` that the numbering returns in unbounded arithmetic, `loc.ID + N` is below
`2 ^ bits`, so that no sum the code forms wraps around. -/
def uint.Fits (bits : Nat) (pc : PlanConfig) (loc : Location) : Prop :=
  loc.ID + (ATC.populatePlanLocations pc loc).2 < 2 ^ bits

/-- The location the `Do` case builds for `child` at the running `stepCount`, with the
arithmetic of Go's `uint`. -/
def uint.doChildLocation (bits : Nat) (location : Location) (child : PlanConfig)
    (stepCount : Nat) : Location :=
  { ID := uint.add bits (uint.add bits location.ID stepCount) 1
    ParentID := if location.SerialGroup ≠ 0 then location.SerialGroup else location.ParentID
    ParallelGroup := location.ParallelGroup
    SerialGroup := uint.add bits location.ID 1
    Hook := if child.Do.isNone then location.Hook else "" }

/-- The location the `Aggregate` case builds for `child` at the running `stepCount`,
with the arithmetic of Go's `uint`. -/
def uint.aggregateChildLocation (bits : Nat) (location : Location) (child : PlanConfig)
    (stepCount : Nat) : Location :=
  { ID := uint.add bits (uint.add bits location.ID stepCount) 1
    ParentID :=
      if location.ParallelGroup ≠ 0 then location.ParallelGroup else location.ParentID
    ParallelGroup := uint.add bits location.ID 1
    SerialGroup := location.SerialGroup
    Hook := if child.Aggregate.isNone && child.Do.isNone then location.Hook else "" }

/-- The location the `Try` case builds for the child, with the arithmetic of Go's
`uint`. -/
def uint.tryChildLocation (bits : Nat) (location : Location) : Location :=
  { ID := uint.add bits (uint.add bits location.ID 0) 1
    ParentID := location.ParentID
    ParallelGroup := 0
    Hook := location.Hook }

/-- What a walk over the nodes of a plan may collect with `g` so that the sequencing
and hook nodes themselves add nothing: `g` is empty on the empty plan and on the
`OnFailure`, `Ensure`, `Try`, `Aggregate`, `Timeout` nodes, empty on an `OnSuccess` node
whose `Next` is no dependent get, blind to the `Next` of an `OnSuccess` part as long as
that is no dependent get, and blind to the location of a node that is no leaf. -/
structure Collects {α : Type} (g : Plan → List α) : Prop where
  empty : g Plan.empty = []
  onFailure : ∀ p q, g (Plan.onFailure p q) = []
  ensure : ∀ p q, g (Plan.ensure p q) = []
  try_ : ∀ loc p, g (Plan.try_ loc p) = []
  aggregate : ∀ loc ps, g (Plan.aggregate loc ps) = []
  timeout : ∀ d p, g (Plan.timeout d p) = []
  onSuccess : ∀ p q, q.leaf.DependentGet = none → g (Plan.onSuccess p q) = []
  link : ∀ l ag step ofl en tr tm r, r.leaf.DependentGet = none →
    g (Plan.mk l ag (some (step, r)) ofl en tr tm)
      = g (Plan.mk l ag (some (step, Plan.empty)) ofl en tr tm)
  setLocation : ∀ p loc, p.leaf.Get = none → p.leaf.Put = none → p.leaf.DependentGet = none →
    p.leaf.Task = none → g (p.setLocation loc) = g p

/-- What `g` collects on the nodes `constructPlanFromConfig` builds for the step itself
(its children and hooks apart). -/
def ownOf {α : Type} (g : Plan → List α) (factory : BuildFactory)
    (resources : ResourceConfigs) (inputs : List BuildInput) : PlanConfig → List α
  | PlanConfig.mk a d _ _ _ _ _ =>
      if d.isSome then []
      else if a.Put ≠ "" then (Plan.nodes (constructPut factory resources a)).flatMap g
      else if a.Get ≠ "" then g (constructGet factory resources inputs a)
      else if a.Task ≠ "" then g (constructTask a)
      else []

/-- The top node of a plan is no bare put and no dependent get, and if it has no
location it is no get and no task either. -/
def Plan.topOK (p : Plan) : Prop :=
  p.leaf.Put = none ∧ p.leaf.DependentGet = none
    ∧ (p.leaf.Location = none → p.leaf.Get = none ∧ p.leaf.Task = none)

/-- What the plan built for a located step tree promises: its top node is fine and `g`
collects on the plan what it collects step by step. -/
def BuildsWell {α : Type} (g : Plan → List α) (factory : BuildFactory)
    (resources : ResourceConfigs) (inputs : List BuildInput) (c : PlanConfig) : Prop :=
  (∀ st ∈ PlanConfig.steps c, st.kindCount = 1) → (∀ st ∈ PlanConfig.steps c, st.located) →
    (constructPlanFromConfig factory resources inputs c true).topOK
    ∧ (Plan.nodes (constructPlanFromConfig factory resources inputs c true)).flatMap g
        = (PlanConfig.steps c).flatMap (ownOf g factory resources inputs)

/-! ## Specification-side definitions -/

/-- The right-leaning chain `OnSuccess{p1, OnSuccess{p2, ... pn}}` of the sequencing
rule, written from the specification: the empty plan for no plans, `p1` for one. -/
def rightLeaningChain : List Plan → Plan
  | [] => Plan.empty
  | [p] => p
  | p :: q :: rest => Plan.onSuccess p (rightLeaningChain (q :: rest))

/-- A get or task step that carries no hooks and no timeout: `constructPlanFromConfig`
reaches its `Get` or `Task` case and wraps nothing around the result. -/
def PlanConfig.isPlainGetOrTask : PlanConfig → Prop
  | PlanConfig.mk a d _ _ s f e =>
      d = none ∧ a.Put = "" ∧ (a.Get ≠ "" ∨ a.Task ≠ "") ∧ a.Timeout = ""
        ∧ s = none ∧ f = none ∧ e = none

/-- The version of the first input called `name`, written from the specification with
the list library: nil when no input has that name. -/
def firstInputVersion (name : String) (inputs : List BuildInput) : Version :=
  match inputs.find? (fun input => input.Name = name) with
  | some input => input.Version
  | none => none

/-- A resource table that knows no resource, for concrete evaluations. -/
def noResources : ResourceConfigs := ⟨fun _ => ({}, false)⟩

/-- A step that only runs the task `name`. -/
def taskStep (name : String) : PlanConfig :=
  PlanConfig.mk { Task := name } none none none none none none

/-- A step that only gets `name`. -/
def getStep (name : String) : PlanConfig :=
  PlanConfig.mk { Get := name } none none none none none none

/-- A step that only puts `name`. -/
def putStep (name : String) : PlanConfig :=
  PlanConfig.mk { Put := name } none none none none none none

/-- A step that only runs `children` in sequence. -/
def doStep (children : PlanSequence) : PlanConfig :=
  PlanConfig.mk {} (some children) none none none none none

/-- A step that only runs `children` in parallel. -/
def aggregateStep (children : PlanSequence) : PlanConfig :=
  PlanConfig.mk {} none (some children) none none none none

/-- A step that only tries `child`. -/
def tryStep (child : PlanConfig) : PlanConfig :=
  PlanConfig.mk {} none none (some child) none none none

/-- A task step written with the legacy `conditions` field. -/
def conditionalTask : PlanConfig :=
  PlanConfig.mk { Task := "unit", Conditions := some ["success"] } none none none none none none

/-! ## Pipeline syncer (`pipelines/syncer.go`) -/

namespace pipelines

/-- Modelled from the spec: type `db.SavedPipeline`, declared outside the translated
files; a pipeline row with its database id, its name and its paused flag. -/
structure SavedPipeline where
  ID : Int
  Paused : Bool
  Name : String := ""
deriving DecidableEq, Repr

/-- Type `runningProcess`: an `ifrit.Process` together with its `Exited` channel. A
process is identified by the number `ifrit.Invoke` gave it (the count of processes
invoked before it); the channel is the one `process.Wait()` returned, so it belongs to
the same process. -/
structure runningProcess where
  Process : Nat
deriving DecidableEq, Repr

/-- What one call of `Sync` does to its collaborators, in program order: log lines,
a successful receive on the `Exited` channel of a process, `Process.Signal(os.Interrupt)`,
`syncherDB.ResetBuildPreparationsWithPipelinePaused(id)`, and
`ifrit.Invoke(pipelineRunnerFactory(pipelineDBFactory.Build(pipeline)))`. -/
inductive Event where
  | Log (level message : String)
  | Exited (id : Int) (process : Nat)
  | Signal (id : Int) (process : Nat)
  | ResetBuildPreparationsWithPipelinePaused (id : Int)
  | Invoke (pipeline : SavedPipeline) (process : Nat)
deriving DecidableEq, Repr

/-- Type `Syncer`. The field `runningPipelines` is the Go map from pipeline id to
`runningProcess` (a list of entries with distinct keys); `invoked` counts the
processes `ifrit.Invoke` has returned so far, so that every new process is a new one.
The logger, the database and the two factories are collaborators: their answers
are the `Answers` of a call and the calls made on them are the `Event`s. -/
structure Syncer where
  runningPipelines : AList (fun _ : Int => runningProcess)
  invoked : Nat

/-- What the collaborators answer during one call of `Sync`: the result of
`GetAllPipelines`, for every process whether a receive on its `Exited` channel
succeeds (the process has exited), the result of
`ResetBuildPreparationsWithPipelinePaused`, and the order in which `range` visits the
entries of the running map, which Go leaves open: some rearrangement of the entries. -/
structure Answers where
  GetAllPipelines : List SavedPipeline × Option String
  Exited : Nat → Bool
  ResetBuildPreparationsWithPipelinePaused : Int → Option String
  Range : (entries : List (Sigma fun _ : Int => runningProcess)) →
    { visited : List (Sigma fun _ : Int => runningProcess) // visited.Perm entries }

/-- Function `NewSyncer`: no pipeline is running. -/
def NewSyncer : Syncer := { runningPipelines := ∅, invoked := 0 }

namespace Syncer

/-- Method `removePipeline`: `delete(syncer.runningPipelines, pipelineID)`. -/
def removePipeline (syncer : Syncer) (pipelineID : Int) : Syncer :=
  { syncer with runningPipelines := syncer.runningPipelines.erase pipelineID }

/-- Method `isPipelineRunning`. -/
def isPipelineRunning (syncer : Syncer) (pipelineID : Int) : Bool :=
  (syncer.runningPipelines.lookup pipelineID).isSome

/-- The inner loop of `Sync` that sets `found`: paused pipelines are skipped, and a
pipeline with the id sets the flag. -/
def findPipeline (id : Int) : List SavedPipeline → Bool → Bool
  | [], found => found
  | pipeline :: rest, found =>
    if pipeline.Paused then findPipeline id rest found
    else if pipeline.ID = id then findPipeline id rest true
    else findPipeline id rest found

/-- The first loop of `Sync`, over the entries of `runningPipelines` as they are at
loop entry, in the order `range` visits them (the loop body deletes only the key it
is visiting, so the entries still to be visited stay in the map). -/
def stopLoop (answers : Answers) (pipelines : List SavedPipeline) :
    List (Sigma fun _ : Int => runningProcess) → Syncer → Syncer × List Event
  | [], syncer => (syncer, [])
  | ⟨id, runningPipeline⟩ :: rest, syncer =>
    let exited :=
      if answers.Exited runningPipeline.Process then
        (syncer.removePipeline id,
          [Event.Exited id runningPipeline.Process, Event.Log "debug" "pipeline-exited"])
      else (syncer, [])
    let found := findPipeline id pipelines false
    let stopped :=
      if !found then
        (exited.1.removePipeline id,
          [Event.Log "debug" "stopping-pipeline",
           Event.Signal id runningPipeline.Process,
           Event.ResetBuildPreparationsWithPipelinePaused id]
          ++ (match answers.ResetBuildPreparationsWithPipelinePaused id with
              | some _ => [Event.Log "error" "updating-build-preps-stopping-pipeline"]
              | none => []))
      else (exited.1, [])
    let next := stopLoop answers pipelines rest stopped.1
    (next.1, exited.2 ++ stopped.2 ++ next.2)

/-- The second loop of `Sync`: every pipeline that is neither paused nor running gets
a new process, stored under its id. -/
def startLoop : List SavedPipeline → Syncer → Syncer × List Event
  | [], syncer => (syncer, [])
  | pipeline :: rest, syncer =>
    if pipeline.Paused || syncer.isPipelineRunning pipeline.ID then
      startLoop rest syncer
    else
      let process := syncer.invoked
      let started : Syncer :=
        { runningPipelines :=
            syncer.runningPipelines.insert pipeline.ID { Process := process },
          invoked := syncer.invoked + 1 }
      let next := startLoop rest started
      (next.1, [Event.Log "debug" "starting-pipeline", Event.Invoke pipeline process]
        ++ next.2)

/-- Method `Sync`. -/
def Sync (syncer : Syncer) (answers : Answers) : Syncer × List Event :=
  match answers.GetAllPipelines with
  | (_, some _) => (syncer, [Event.Log "error" "failed-to-get-pipelines"])
  | (pipelines, none) =>
    let stopped :=
      stopLoop answers pipelines (answers.Range syncer.runningPipelines.entries).1 syncer
    let started := startLoop pipelines stopped.1
    (started.1, stopped.2 ++ started.2)

/-- The events of a sequence of `Sync` calls, one list per call. -/
def runSyncs : Syncer → List Answers → List (List Event)
  | _, [] => []
  | syncer, answers :: rest =>
    (syncer.Sync answers).2 :: runSyncs (syncer.Sync answers).1 rest

/-- The syncer after a sequence of `Sync` calls. -/
def afterSyncs : Syncer → List Answers → Syncer
  | syncer, [] => syncer
  | syncer, answers :: rest => afterSyncs (syncer.Sync answers).1 rest

end Syncer

/-- The ids under which `runningPipelines` holds a process. -/
def Syncer.runningIds (syncer : Syncer) : Finset Int :=
  syncer.runningPipelines.keys.toFinset

/-- The ids of the unpaused pipelines of a list. -/
def unpausedIds (pipelines : List SavedPipeline) : Finset Int :=
  ((pipelines.filter (fun pipeline => !pipeline.Paused)).map SavedPipeline.ID).toFinset

end pipelines

/-! ## Pipeline syncer: definitions used to state the properties -/

namespace pipelines

/-- What the first loop of `Sync` does for one entry of the running map. -/
def stopEvents (answers : Answers) (pipelines : List SavedPipeline)
    (e : Sigma fun _ : Int => runningProcess) : List Event :=
  (if answers.Exited e.2.Process then
      [Event.Exited e.1 e.2.Process, Event.Log "debug" "pipeline-exited"]
    else [])
  ++ (if Syncer.findPipeline e.1 pipelines false then []
      else [Event.Log "debug" "stopping-pipeline",
            Event.Signal e.1 e.2.Process,
            Event.ResetBuildPreparationsWithPipelinePaused e.1]
        ++ (match answers.ResetBuildPreparationsWithPipelinePaused e.1 with
            | some _ => [Event.Log "error" "updating-build-preps-stopping-pipeline"]
            | none => []))


/-- Example: an unpaused pipeline with id 1. -/
def examplePipeline : SavedPipeline := { ID := 1, Paused := false }

/-- Example: the same pipeline, paused. -/
def examplePausedPipeline : SavedPipeline := { ID := 1, Paused := true }

/-- Example answers: `GetAllPipelines` returns the list, no process has exited,
`ResetBuildPreparationsWithPipelinePaused` succeeds, and the running map is visited in
the order of its entries. -/
def quietAnswers (pipelines : List SavedPipeline) : Answers :=
  { GetAllPipelines := (pipelines, none),
    Exited := fun _ => false,
    ResetBuildPreparationsWithPipelinePaused := fun _ => none,
    Range := fun entries => ⟨entries, List.Perm.refl entries⟩ }

/-- Example: three calls of `Sync` between which the pipeline is paused and then
unpaused, while no process exits. -/
def pauseThenUnpause : List Answers :=
  [quietAnswers [examplePipeline], quietAnswers [examplePausedPipeline],
   quietAnswers [examplePipeline]]

/-- The specification's wording of "never two runners for one pipeline": whenever a
call of `Sync` starts a process for a pipeline id, every process an earlier call started
for that id has exited by then, that is, at that call or an earlier one a receive on
its `Exited` channel would succeed. -/
def StartsOnlyAfterExit (syncer : Syncer) (calls : List Answers) : Prop :=
  ∀ (j k : Nat) (evj evk : List Event) (p' p : SavedPipeline) (process' process : Nat),
    j < k →
    (Syncer.runSyncs syncer calls)[j]? = some evj → Event.Invoke p' process' ∈ evj →
    (Syncer.runSyncs syncer calls)[k]? = some evk → Event.Invoke p process ∈ evk →
    p.ID = p'.ID →
    ∃ i, i ≤ k ∧ ∃ answers, calls[i]? = some answers ∧ answers.Exited process' = true

end pipelines

/-! ## Scheduler (`scheduler/scheduler.go`): collaborators -/

/-- A Go `error` value; `nil` is `none` of `Option Error`. -/
abbrev Error := String

/-- Modelled from the spec: type `atc.ResourceTypes`, declared in the root package
outside the translated files; the scheduler only hands it to the build factory. -/
abbrev ResourceTypes := List (String × String)

namespace db

/-- Modelled from the spec: type `db.Build`, declared outside the translated files; a
build row, with the field the scheduler reads. -/
structure Build where
  ID : Int
deriving DecidableEq, Repr

/-- Modelled from the spec: type `db.Status`, declared outside the translated files;
the status of a build, with the values the build JSON lists.  The scheduler names
`db.StatusErrored` only. -/
inductive Status where
  | pending | started | succeeded | failed | errored | aborted
deriving DecidableEq, Repr

/-- Modelled from the spec: type `db.BuildPreparation`, declared outside the translated
files; the scheduler only hands it to the job service. -/
structure BuildPreparation where
  BuildID : Int
deriving DecidableEq, Repr

/-- Modelled from the spec: type `db.Lease`, declared outside the translated files; the
scheduler only calls its method `Break`. -/
structure Lease where
  BuildID : Int
deriving DecidableEq, Repr

end db

namespace algorithm

/-- Modelled from the spec: type `algorithm.VersionsDB`, declared outside the translated
files; the scheduler only hands a pointer to it (possibly nil) to its collaborators. -/
structure VersionsDB where
  ResourceVersions : List (Int × Int)
deriving DecidableEq, Repr

end algorithm

namespace config

/-- Modelled from the spec: type `config.JobInput`, declared outside the translated
files; an input of a job, with its name, its resource, its `passed` constraint and
its `trigger` flag. -/
structure JobInput where
  Name : String
  Resource : String := ""
  Passed : List String := []
  Trigger : Bool
deriving DecidableEq, Repr

end config

namespace engine

/-- Modelled from the spec: the interface `engine.Build`, declared outside the
translated files; the build the engine created, on which the scheduler calls
`Resume`. -/
structure Build where
  ID : Int
deriving DecidableEq, Repr

end engine

namespace scheduler

/-- What the scheduler does to its collaborators, in program order: the calls on the
logger (level and message), on `PipelineDB`, on `BuildsDB`, on the lease, on the job
service, on the build factory, on the engine and on the engine's build, with their
arguments (the logger argument left out). `Resume` is the `go createdBuild.Resume`
statement. -/
inductive Call where
  | Log (level message : String)
  | GetLatestInputVersions (versions : Option algorithm.VersionsDB) (job : String)
      (inputs : List config.JobInput)
  | GetJobBuildForInputs (job : String) (inputs : List BuildInput)
  | CreateJobBuildForCandidateInputs (job : String)
  | CreateJobBuild (job : String)
  | GetNextPendingBuild (job : String)
  | NewJobService (job : JobConfig)
  | LeaseBuildScheduling (buildID : Int) (seconds : Nat)
  | LeaseBreak (lease : db.Lease)
  | GetBuildPreparation (buildID : Int)
  | CanBuildBeScheduled (build : db.Build) (buildPrep : db.BuildPreparation)
      (versions : Option algorithm.VersionsDB)
  | UpdateBuildToScheduled (buildID : Int)
  | FactoryCreate (job : JobConfig) (resources : ResourceConfigs)
      (resourceTypes : ResourceTypes) (inputs : List BuildInput)
  | FinishBuild (buildID : Int) (status : db.Status)
  | ErrorBuild (buildID : Int) (err : Error)
  | EngineCreateBuild (build : db.Build) (plan : Plan)
  | Resume (createdBuild : engine.Build)

/-- Interface `PipelineDB` (with the method of `JobServiceDB` the scheduler calls): what
each method returns for its arguments. Within one call of the scheduler functions
below every method is called at most once, so a function of the arguments is as
general as a database with state. -/
structure PipelineDB where
  GetLatestInputVersions : Option algorithm.VersionsDB → String → List config.JobInput →
    List BuildInput × Bool × Option Error
  CreateJobBuild : String → db.Build × Option Error
  CreateJobBuildForCandidateInputs : String → db.Build × Bool × Option Error
  UpdateBuildToScheduled : Int → Bool × Option Error
  GetJobBuildForInputs : String → List BuildInput → db.Build × Bool × Option Error
  GetNextPendingBuild : String → db.Build × Bool × Option Error

/-- Interface `BuildsDB`. -/
structure BuildsDB where
  LeaseBuildScheduling : Int → Nat → db.Lease × Bool × Option Error
  ErrorBuild : Int → Error → Option Error
  FinishBuild : Int → db.Status → Option Error
  GetBuildPreparation : Int → db.BuildPreparation × Bool × Option Error

/-- Interface `BuildFactory` of the scheduler package. -/
structure BuildFactory where
  Create : JobConfig → ResourceConfigs → ResourceTypes → List BuildInput → Plan × Option Error

/-- Modelled from the spec: the interface `engine.Engine`, declared outside the
translated files, with the method the scheduler calls; the created build may be
nil. -/
structure Engine where
  CreateBuild : db.Build → Plan → Option engine.Build × Option Error

/-- Interface `Scanner`. -/
structure Scanner where
  Scan : String → Option Error

/-- Modelled from the spec: the interface `JobService`, declared in a file of the package
that is not among the translated ones, with the method the scheduler calls: the
inputs of the build, whether it can be scheduled, the reason, and an error. -/
structure JobService where
  CanBuildBeScheduled : db.Build → db.BuildPreparation → Option algorithm.VersionsDB →
    List BuildInput × Bool × String × Option Error

/-- Type `Scheduler`. -/
structure Scheduler where
  PipelineDB : PipelineDB
  BuildsDB : BuildsDB
  Factory : BuildFactory
  Engine : Engine
  Scanner : Scanner

/-- The two functions of other files that `BuildLatestInputs` calls, `config.JobInputs`
and `NewJobService(job, s.PipelineDB, s.Scanner)`, taken as parameters with the
signatures of their call sites. -/
structure Helpers where
  JobInputs : JobConfig → List config.JobInput
  NewJobService : JobConfig → JobService × Option Error

namespace Scheduler

/-- Method `updateBuildToScheduled`. -/
def updateBuildToScheduled (s : Scheduler) (canBuildBeScheduled : Bool) (buildID : Int)
    (_reason : String) : Bool × List Call :=
  if canBuildBeScheduled then
    match s.PipelineDB.UpdateBuildToScheduled buildID with
    | (_, some _) =>
      (false, [Call.UpdateBuildToScheduled buildID,
               Call.Log "error" "failed-to-update-build-to-scheduled"])
    | (false, none) =>
      (false, [Call.UpdateBuildToScheduled buildID,
               Call.Log "debug" "unable-to-update-build-to-scheduled"])
    | (true, none) => (true, [Call.UpdateBuildToScheduled buildID])
  else (false, [Call.Log "debug" "build-could-not-be-scheduled"])

/-- The part of `ScheduleAndResumePendingBuild` that runs while the lease is held, from
`GetBuildPreparation` to the return. -/
def scheduleWithLease (s : Scheduler) (versions : Option algorithm.VersionsDB)
    (build : db.Build) (job : JobConfig) (resources : ResourceConfigs)
    (resourceTypes : ResourceTypes) (jobService : JobService) :
    Option engine.Build × List Call :=
  match s.BuildsDB.GetBuildPreparation build.ID with
  | (_, _, some _) =>
    (none, [Call.GetBuildPreparation build.ID, Call.Log "error" "failed-to-get-build-prep"])
  | (_, false, none) =>
    (none, [Call.GetBuildPreparation build.ID, Call.Log "debug" "failed-to-find-build-prep"])
  | (buildPrep, true, none) =>
    match jobService.CanBuildBeScheduled build buildPrep versions with
    | (_, _, reason, some err) =>
      (none, [Call.GetBuildPreparation build.ID,
              Call.CanBuildBeScheduled build buildPrep versions,
              Call.Log "error" "failed-to-schedule-build"]
        ++ (if reason = "failed-to-scan" then
              Call.ErrorBuild build.ID err ::
                (match s.BuildsDB.ErrorBuild build.ID err with
                 | some _ => [Call.Log "error" "failed-to-mark-build-as-errored"]
                 | none => [])
            else []))
    | (inputs, canBuildBeScheduled, reason, none) =>
      let updated := s.updateBuildToScheduled canBuildBeScheduled build.ID reason
      let before := [Call.GetBuildPreparation build.ID,
                     Call.CanBuildBeScheduled build buildPrep versions] ++ updated.2
      if !updated.1 then (none, before)
      else
        match s.Factory.Create job resources resourceTypes inputs with
        | (_, some _) =>
          (none, before
            ++ [Call.FactoryCreate job resources resourceTypes inputs,
                Call.FinishBuild build.ID db.Status.errored]
            ++ (match s.BuildsDB.FinishBuild build.ID db.Status.errored with
                | some _ => [Call.Log "error" "failed-to-mark-build-as-errored"]
                | none => []))
        | (plan, none) =>
          match s.Engine.CreateBuild build plan with
          | (_, some _) =>
            (none, before
              ++ [Call.FactoryCreate job resources resourceTypes inputs,
                  Call.EngineCreateBuild build plan,
                  Call.Log "error" "failed-to-create-build"])
          | (none, none) =>
            (none, before
              ++ [Call.FactoryCreate job resources resourceTypes inputs,
                  Call.EngineCreateBuild build plan])
          | (some createdBuild, none) =>
            (some createdBuild, before
              ++ [Call.FactoryCreate job resources resourceTypes inputs,
                  Call.EngineCreateBuild build plan,
                  Call.Log "info" "building",
                  Call.Resume createdBuild])

/-- Method `ScheduleAndResumePendingBuild`: the created build (nil when none) and the
calls made. The deferred `lease.Break()` runs when the function returns, after the
rest. -/
def ScheduleAndResumePendingBuild (s : Scheduler) (versions : Option algorithm.VersionsDB)
    (build : db.Build) (job : JobConfig) (resources : ResourceConfigs)
    (resourceTypes : ResourceTypes) (jobService : JobService) :
    Option engine.Build × List Call :=
  match s.BuildsDB.LeaseBuildScheduling build.ID 10 with
  | (_, _, some _) =>
    (none, [Call.LeaseBuildScheduling build.ID 10, Call.Log "error" "failed-to-get-lease"])
  | (_, false, none) => (none, [Call.LeaseBuildScheduling build.ID 10])
  | (lease, true, none) =>
    let body := s.scheduleWithLease versions build job resources resourceTypes jobService
    (body.1, [Call.LeaseBuildScheduling build.ID 10] ++ body.2 ++ [Call.LeaseBreak lease])

/-- The inner loop of `BuildLatestInputs` over the job inputs: the first job input with
the name decides, by its `Trigger` flag, whether the resolved input is checked. -/
def isTriggered (name : String) : List config.JobInput → Bool
  | [] => false
  | ji :: rest => if ji.Name = name then ji.Trigger else isTriggered name rest

/-- The outer loop of `BuildLatestInputs` that fills `checkInputs`. -/
def collectCheckInputs (inputs : List config.JobInput) :
    List BuildInput → List BuildInput → List BuildInput
  | [], checkInputs => checkInputs
  | input :: rest, checkInputs =>
    if isTriggered input.Name inputs then
      collectCheckInputs inputs rest (checkInputs ++ [input])
    else collectCheckInputs inputs rest checkInputs

/-- Method `BuildLatestInputs`: the returned error and the calls made. -/
def BuildLatestInputs (s : Scheduler) (helpers : Helpers)
    (versions : Option algorithm.VersionsDB) (job : JobConfig) (resources : ResourceConfigs)
    (resourceTypes : ResourceTypes) : Option Error × List Call :=
  let inputs := helpers.JobInputs job
  if inputs.length = 0 then (none, [])
  else
    match s.PipelineDB.GetLatestInputVersions versions job.Name inputs with
    | (_, _, some err) =>
      (some err, [Call.GetLatestInputVersions versions job.Name inputs,
                  Call.Log "error" "failed-to-get-latest-input-versions"])
    | (_, false, none) =>
      (none, [Call.GetLatestInputVersions versions job.Name inputs,
              Call.Log "debug" "no-input-versions-available"])
    | (latestInputs, true, none) =>
      let checkInputs := collectCheckInputs inputs latestInputs []
      if checkInputs.length = 0 then
        (none, [Call.GetLatestInputVersions versions job.Name inputs,
                Call.Log "debug" "no-triggered-input-versions"])
      else
        match s.PipelineDB.GetJobBuildForInputs job.Name checkInputs with
        | (_, _, some err) =>
          (some err, [Call.GetLatestInputVersions versions job.Name inputs,
                      Call.GetJobBuildForInputs job.Name checkInputs,
                      Call.Log "error" "could-not-determine-if-inputs-are-already-used"])
        | (_, true, none) =>
          (none, [Call.GetLatestInputVersions versions job.Name inputs,
                  Call.GetJobBuildForInputs job.Name checkInputs,
                  Call.Log "debug" "build-already-exists-for-inputs"])
        | (_, false, none) =>
          let before := [Call.GetLatestInputVersions versions job.Name inputs,
                         Call.GetJobBuildForInputs job.Name checkInputs,
                         Call.CreateJobBuildForCandidateInputs job.Name]
          match s.PipelineDB.CreateJobBuildForCandidateInputs job.Name with
          | (_, _, some err) => (some err, before ++ [Call.Log "error" "failed-to-create-build"])
          | (_, false, none) =>
            (none, before
              ++ [Call.Log "debug" "waiting-for-existing-build-to-determine-inputs"])
          | (build, true, none) =>
            match helpers.NewJobService job with
            | (_, some _) =>
              (none, before
                ++ [Call.Log "debug" "created-build", Call.NewJobService job,
                    Call.Log "error" "failed-to-get-job-service"])
            | (jobService, none) =>
              (none, before
                ++ [Call.Log "debug" "created-build", Call.NewJobService job]
                ++ (s.ScheduleAndResumePendingBuild versions build job resources
                      resourceTypes jobService).2)

end Scheduler

end scheduler

/-! ## Scheduler: definitions used to state the properties -/

namespace scheduler

namespace Call

/-- A call of `BuildsDB.FinishBuild`. -/
def isFinishBuild : Call → Bool
  | FinishBuild _ _ => true
  | _ => false

/-- A call of `BuildsDB.ErrorBuild`. -/
def isErrorBuild : Call → Bool
  | ErrorBuild _ _ => true
  | _ => false

/-- A call of `Engine.CreateBuild`. -/
def isEngineCreateBuild : Call → Bool
  | EngineCreateBuild _ _ => true
  | _ => false

/-- A call of `Factory.Create`. -/
def isFactoryCreate : Call → Bool
  | FactoryCreate _ _ _ _ => true
  | _ => false

/-- A call of `PipelineDB.UpdateBuildToScheduled`. -/
def isUpdateBuildToScheduled : Call → Bool
  | UpdateBuildToScheduled _ => true
  | _ => false

/-- A call of `PipelineDB.CreateJobBuildForCandidateInputs`. -/
def isCreateJobBuildForCandidateInputs : Call → Bool
  | CreateJobBuildForCandidateInputs _ => true
  | _ => false

/-- A call of `BuildsDB.LeaseBuildScheduling`, the first thing
`ScheduleAndResumePendingBuild` does. -/
def isLeaseBuildScheduling : Call → Bool
  | LeaseBuildScheduling _ _ => true
  | _ => false

/-- A call of `PipelineDB.GetJobBuildForInputs`. -/
def isGetJobBuildForInputs : Call → Bool
  | GetJobBuildForInputs _ _ => true
  | _ => false

/-- A call of `JobService.CanBuildBeScheduled`. -/
def isCanBuildBeScheduled : Call → Bool
  | CanBuildBeScheduled _ _ _ => true
  | _ => false

end Call

/-- In a list of calls, no call with property `q` comes before the first call with
property `p`: every `q` call is made after a `p` call. -/
def onlyAfter (p q : Call → Bool) : List Call → Bool
  | [] => true
  | c :: rest => if p c then true else (!q c && onlyAfter p q rest)

/-- Example collaborators: every build that is asked about exists and can be
scheduled, and nothing fails, except what the arguments say: the error and the reason
of `CanBuildBeScheduled`, whether `UpdateBuildToScheduled` updates, and the error of
`Factory.Create`. -/
def exampleScheduler (updated : Bool) (createErr : Option Error) : Scheduler :=
  { PipelineDB :=
      { GetLatestInputVersions := fun _ _ _ => ([{ Name := "some-input", Version := none }], true, none),
        CreateJobBuild := fun _ => ({ ID := 42 }, none),
        CreateJobBuildForCandidateInputs := fun _ => ({ ID := 42 }, true, none),
        UpdateBuildToScheduled := fun _ => (updated, none),
        GetJobBuildForInputs := fun _ _ => ({ ID := 0 }, false, none),
        GetNextPendingBuild := fun _ => ({ ID := 42 }, true, none) },
    BuildsDB :=
      { LeaseBuildScheduling := fun id _ => ({ BuildID := id }, true, none),
        ErrorBuild := fun _ _ => none,
        FinishBuild := fun _ _ => none,
        GetBuildPreparation := fun id => ({ BuildID := id }, true, none) },
    Factory := { Create := fun _ _ _ _ => (Plan.empty, createErr) },
    Engine := { CreateBuild := fun build _ => (some { ID := build.ID }, none) },
    Scanner := { Scan := fun _ => none } }

/-- Example job service: the build has no inputs; the arguments say whether it can be
scheduled, the reason and the error. -/
def exampleJobService (canBuildBeScheduled : Bool) (reason : String) (err : Option Error) :
    JobService :=
  { CanBuildBeScheduled := fun _ _ _ => ([], canBuildBeScheduled, reason, err) }

/-- Example: build 42. -/
def exampleBuild : db.Build := { ID := 42 }

/-- Example: a job with no steps. -/
def exampleJob : JobConfig := { Name := "some-job", Plan := [] }

/-- Example helpers: the job has one input, with the given `trigger` flag, and the job
service is `exampleJobService true "" none`. -/
def exampleHelpers (trigger : Bool) : Helpers :=
  { JobInputs := fun _ => [{ Name := "some-input", Trigger := trigger }],
    NewJobService := fun _ => (exampleJobService true "" none, none) }

/-- Example resources: no resource is configured. -/
def exampleResources : ResourceConfigs :=
  { Lookup := fun _ => ({ Name := "", Type_ := "", Source := [] }, false) }

end scheduler

/-! ## Build sets: the loops of `Union` and `Intersect` -/

namespace BuildSet

/-- The maps `Union` and `Intersect` have in hand while they run: the receiver, the
argument, and the new map they fill and return. -/
structure Maps where
  set : BuildSet
  otherSet : BuildSet
  result : BuildSet

/-- The loop `for buildID := range ... { newSet[buildID] = struct{}{} }` of `Union`, over
the keys in the order `range` yields them. -/
def fill : List Int → Maps → Maps
  | [], maps => maps
  | buildID :: rest, maps => fill rest { maps with result := insert buildID maps.result }

/-- Method `Union` as it runs: a new empty map is filled from the keys of the receiver
and then from the keys of the argument. -/
def UnionLoops (set otherSet : BuildSet) (keys otherKeys : List Int) : Maps :=
  fill otherKeys (fill keys { set := set, otherSet := otherSet, result := ∅ })

/-- The loop of `Intersect`, over the keys of the receiver in the order `range` yields
them: a key found in the argument is stored in the new map. -/
def keep : List Int → Maps → Maps
  | [], maps => maps
  | key :: rest, maps =>
    if maps.otherSet.Contains key then keep rest { maps with result := insert key maps.result }
    else keep rest maps

/-- Method `Intersect` as it runs. -/
def IntersectLoop (set otherSet : BuildSet) (keys : List Int) : Maps :=
  keep keys { set := set, otherSet := otherSet, result := ∅ }

end BuildSet

/-! ## Hook nesting: specification-side definition -/

/-- A hook wrapper, written from the specification: an absent hook leaves the plan as
it is, a present hook puts the plan and the hook's plan into the hook's node. -/
def wrapHook (node : Plan → Plan → Plan) : Option Plan → Plan → Plan
  | none, plan => plan
  | some next, plan => node plan next

/-! ## Scheduler: manual trigger -/

namespace scheduler

/-- Interface `Waiter`: the `sync.WaitGroup` the scheduler hands back, with the number
of goroutines it waits for. -/
structure Waiter where
  goroutines : Nat
deriving DecidableEq, Repr

/-- What `TriggerImmediately` returns (build, waiter, error), the calls it makes itself
before it returns, and the goroutines it starts with `go`, each given by the calls its
body makes. -/
structure Triggered where
  Build : db.Build
  Waiter : Option Waiter
  Err : Option Error
  Calls : List Call
  Spawned : List (List Call)

namespace Scheduler

/-- Method `TriggerImmediately`. The zero build `db.Build{}` has id 0; the goroutine
calls `ScheduleAndResumePendingBuild` with a nil `versions`. -/
def TriggerImmediately (s : Scheduler) (helpers : Helpers) (job : JobConfig)
    (resources : ResourceConfigs) (resourceTypes : ResourceTypes) : Triggered :=
  match s.PipelineDB.CreateJobBuild job.Name with
  | (_, some err) =>
    { Build := { ID := 0 }, Waiter := none, Err := some err,
      Calls := [Call.CreateJobBuild job.Name, Call.Log "error" "failed-to-create-build"],
      Spawned := [] }
  | (build, none) =>
    match helpers.NewJobService job with
    | (_, some err) =>
      { Build := { ID := 0 }, Waiter := none, Err := some err,
        Calls := [Call.CreateJobBuild job.Name, Call.NewJobService job],
        Spawned := [] }
    | (jobService, none) =>
      { Build := build, Waiter := some { goroutines := 1 }, Err := none,
        Calls := [Call.CreateJobBuild job.Name, Call.NewJobService job],
        Spawned := [(s.ScheduleAndResumePendingBuild none build job resources resourceTypes
                      jobService).2] }

end Scheduler

namespace Call

/-- A call of `lease.Break`. -/
def isLeaseBreak : Call → Bool
  | LeaseBreak _ => true
  | _ => false

/-- A call of `BuildsDB.GetBuildPreparation`. -/
def isGetBuildPreparation : Call → Bool
  | GetBuildPreparation _ => true
  | _ => false

/-- A call of `PipelineDB.GetLatestInputVersions`. -/
def isGetLatestInputVersions : Call → Bool
  | GetLatestInputVersions _ _ _ => true
  | _ => false

/-- A call of `PipelineDB.CreateJobBuild`. -/
def isCreateJobBuild : Call → Bool
  | CreateJobBuild _ => true
  | _ => false

/-- A call on the logger. -/
def isLog : Call → Bool
  | Log _ _ => true
  | _ => false

end Call

/-- Example collaborators: as `exampleScheduler true none`, without the lease: the
arguments say whether the lease call fails. -/
def contendedScheduler (err : Option Error) : Scheduler :=
  { exampleScheduler true none with
    BuildsDB :=
      { (exampleScheduler true none).BuildsDB with
        LeaseBuildScheduling := fun id _ => ({ BuildID := id }, false, err) } }

/-- Example helpers whose `NewJobService` fails. -/
def failingHelpers : Helpers :=
  { JobInputs := fun _ => [],
    NewJobService := fun _ => (exampleJobService true "" none, some "no such job") }

end scheduler

/-! ## Teams (`db/team.go`) and HTTP responses -/

namespace db

/-- Type `db.BasicAuth`. -/
structure BasicAuth where
  BasicAuthUsername : String := ""
  BasicAuthPassword : String := ""
deriving DecidableEq, Repr

/-- Type `db.GitHubTeam`. -/
structure GitHubTeam where
  OrganizationName : String := ""
  TeamName : String := ""
deriving DecidableEq, Repr

/-- Type `db.GithubAuth`. -/
structure GithubAuth where
  ClientID : String := ""
  ClientSecret : String := ""
  Organizations : List String := []
  Teams : List GitHubTeam := []
  Users : List String := []
deriving DecidableEq, Repr

/-- Type `db.Team`; the embedded structs are fields. -/
structure Team where
  Name : String := ""
  BasicAuth : db.BasicAuth := {}
  GithubAuth : db.GithubAuth := {}
deriving DecidableEq, Repr

/-- Type `db.SavedTeam`; the embedded `Team` is a field. -/
structure SavedTeam where
  ID : Int := 0
  Team : db.Team := {}
deriving DecidableEq, Repr

end db

/-- Modelled from the spec: the constant `atc.DefaultTeamName`, declared in the root
package outside the translated files; the handlers only pass it on. -/
def DefaultTeamName : String := "main"

namespace http

/-- Go's `http.StatusOK`. -/
def StatusOK : Nat := 200

/-- Go's `http.StatusCreated`. -/
def StatusCreated : Nat := 201

/-- Go's `http.StatusBadRequest`. -/
def StatusBadRequest : Nat := 400

/-- Go's `http.StatusUnauthorized`. -/
def StatusUnauthorized : Nat := 401

/-- Go's `http.StatusNotFound`. -/
def StatusNotFound : Nat := 404

/-- Go's `http.StatusInternalServerError`. -/
def StatusInternalServerError : Nat := 500

/-- What a handler does, in program order, to the logger, to the response writer (with
bodies of type `β` handed to the JSON encoder) and to its collaborators (calls of type
`γ`). -/
inductive Effect (β γ : Type) where
  | Log (level message : String)
  | WriteHeader (status : Nat)
  | SetHeader (key value : String)
  | Encode (body : β)
  | Call (call : γ)
deriving DecidableEq, Repr

/-- A run of a handler: what it did, and whether it ended in a run-time panic (then
the server drops the connection and no response is sent) instead of returning. -/
structure Handled (β γ : Type) where
  effects : List (Effect β γ)
  panicked : Bool
deriving DecidableEq, Repr

/-- The status line of the response a list of effects produces: the status of the
first `WriteHeader`; 200 when the body is written first, or nothing is written. -/
def statusOf {β γ : Type} : List (Effect β γ) → Nat
  | [] => StatusOK
  | Effect.WriteHeader status :: _ => status
  | Effect.Encode _ :: _ => StatusOK
  | _ :: rest => statusOf rest

/-- The bodies handed to the JSON encoder. -/
def bodiesOf {β γ : Type} : List (Effect β γ) → List β
  | [] => []
  | Effect.Encode body :: rest => body :: bodiesOf rest
  | _ :: rest => bodiesOf rest

/-- The calls made on collaborators. -/
def callsOf {β γ : Type} : List (Effect β γ) → List γ
  | [] => []
  | Effect.Call call :: rest => call :: callsOf rest
  | _ :: rest => callsOf rest

/-- The status of the response the client gets: none when the handler panicked. -/
def Handled.status {β γ : Type} (h : Handled β γ) : Option Nat :=
  if h.panicked then none else some (statusOf h.effects)

end http

/-! ## Auth server (`api/authserver`) -/

namespace authserver

/-- Modelled from the spec: type `atc.AuthMethod`, declared in the root package outside
the translated files, with the fields the handler fills. -/
structure AuthMethod where
  Type_ : String
  DisplayName : String
  AuthURL : String
deriving DecidableEq, Repr

/-- Modelled from the spec: the constant `atc.AuthTypeBasic`, declared in the root
package outside the translated files; the value the API writes. -/
def AuthTypeBasic : String := "basic"

/-- Modelled from the spec: the constant `atc.AuthTypeOAuth`, declared in the root
package outside the translated files; the value the API writes. -/
def AuthTypeOAuth : String := "oauth"

/-- Constant `BasicAuthDisplayName`. -/
def BasicAuthDisplayName : String := "Basic Auth"

/-- Modelled from the spec: type `atc.AuthToken`, declared in the root package outside
the translated files. -/
structure AuthToken where
  Type_ : String := ""
  Value : String := ""
deriving DecidableEq, Repr

/-- Modelled from the spec: the constant `auth.TokenTypeBearer`, declared outside the
translated files. -/
def TokenTypeBearer : String := "Bearer"

/-- Constant `tokenDuration`, 24 hours, in seconds. -/
def tokenDuration : Nat := 24 * 3600

/-- Modelled from the spec: the interface `provider.Provider`, declared outside the
translated files, with the method the handler calls. -/
structure Provider where
  DisplayName : String
deriving DecidableEq, Repr

/-- Type `Server`, as what its collaborators answer: the team database, the provider
factory (the providers map as the list of its entries in the order `range` yields
them), the two route tables, the token generator and the clock (in seconds). -/
structure Server where
  externalURL : String
  GetTeamByName : String → db.SavedTeam × Bool × Option Error
  GetProviders : String → List (String × Provider) × Option Error
  OAuthBeginPath : String → String × Option Error
  BasicAuthPath : String × Option Error
  GenerateToken : Nat → String → Int → String × String × Option Error
  Now : Nat

/-- What the auth handlers write: the list of methods or a token. -/
inductive Body where
  | Methods (methods : List AuthMethod)
  | Token (token : AuthToken)
deriving DecidableEq, Repr

/-- The auth handlers' list of effects; calls on collaborators are not recorded. -/
abbrev Handled := http.Handled Body Unit

/-- Method `byTypeAndName.Less`, on the two elements at the indices. Strings compare as
in Go, byte by byte, which for UTF-8 is character by character. -/
def Less (mi mj : AuthMethod) : Bool :=
  if mi.Type_ = AuthTypeBasic ∧ mj.Type_ = AuthTypeOAuth then false
  else if mi.Type_ = AuthTypeOAuth ∧ mj.Type_ = AuthTypeBasic then true
  else decide (mi.DisplayName < mj.DisplayName)

/-- The loop of `ListAuthMethods` over the providers: the methods so far, or none
when a path cannot be created. -/
def oauthMethods (s : Server) : List (String × Provider) → List AuthMethod →
    Option (List AuthMethod)
  | [], methods => some methods
  | (name, provider) :: rest, methods =>
    match s.OAuthBeginPath name with
    | (_, some _) => none
    | (path, none) =>
      oauthMethods s rest
        (methods ++ [{ Type_ := AuthTypeOAuth, DisplayName := provider.DisplayName,
                       AuthURL := s.externalURL ++ path }])

/-- The part of `ListAuthMethods` before `sort.Sort`: the status written on failure,
or the slice `methods`. -/
def collectMethods (s : Server) : Except Nat (List AuthMethod) :=
  match s.GetTeamByName DefaultTeamName with
  | (_, _, some _) => Except.error http.StatusInternalServerError
  | (_, false, none) => Except.error http.StatusNotFound
  | (team, true, none) =>
    match s.GetProviders DefaultTeamName with
    | (_, some _) => Except.error http.StatusInternalServerError
    | (providers, none) =>
      match oauthMethods s providers [] with
      | none => Except.error http.StatusInternalServerError
      | some methods =>
        if team.Team.BasicAuth.BasicAuthPassword ≠ "" then
          match s.BasicAuthPath with
          | (_, some _) => Except.error http.StatusInternalServerError
          | (path, none) =>
            Except.ok (methods ++ [{ Type_ := AuthTypeBasic,
                                     DisplayName := BasicAuthDisplayName,
                                     AuthURL := s.externalURL ++ path }])
        else Except.ok methods

/-- Method `ListAuthMethods`. The library routine `sort.Sort`, called on
`byTypeAndName(methods)`, is given by `sorted`, what it leaves in the slice. -/
def ListAuthMethods (s : Server) (sorted : List AuthMethod → List AuthMethod) : Handled :=
  match collectMethods s with
  | Except.error status => { effects := [http.Effect.WriteHeader status], panicked := false }
  | Except.ok methods =>
    { effects := [http.Effect.SetHeader "Content-Type" "application/json",
                  http.Effect.Encode (Body.Methods (sorted methods))],
      panicked := false }

/-- The scan of `strings.SplitN(s, " ", 2)` for the first space (character 32): the
characters before it and after it, none when there is no space. -/
def cutAtSpace : List Char → Option (List Char × List Char)
  | [] => none
  | c :: rest =>
    if c = Char.ofNat 32 then some ([], rest)
    else
      match cutAtSpace rest with
      | none => none
      | some (before, after) => some (c :: before, after)

/-- Go's `strings.SplitN(s, " ", 2)`: the string itself when it has no space (also when
it is empty), else the part before the first space and the part after it. -/
def SplitN2 (s : String) : List String :=
  match cutAtSpace s.toList with
  | none => [s]
  | some (before, after) => [String.mk before, String.mk after]

/-- Go's `strings.ToLower`, on the letters A to Z; the handler compares the result with
the lower-cased "Bearer", and no character outside A to Z is lower-cased by Go to one of
its letters. -/
def ToLower (s : String) : String := String.mk (s.toList.map Char.toLower)

/-- Method `GetAuthToken`, on the value of the `Authorization` header. After the
malformed-header branch, which does not return, the handler goes on; indexing
`authSegs` out of range is a run-time panic. -/
def GetAuthToken (s : Server) (authorization : String) : Handled :=
  let authSegs := SplitN2 authorization
  let malformed : List (http.Effect Body Unit) :=
    if authSegs.length ≠ 2 then
      [http.Effect.Log "debug" "malformed-authorization-header",
       http.Effect.WriteHeader http.StatusBadRequest]
    else []
  match authSegs[0]? with
  | none => { effects := malformed, panicked := true }
  | some tokenType =>
    if ToLower tokenType = ToLower TokenTypeBearer then
      match authSegs[1]? with
      | none => { effects := malformed, panicked := true }
      | some tokenValue =>
        { effects := malformed
            ++ [http.Effect.SetHeader "Content-Type" "application/json",
                http.Effect.Encode (Body.Token { Type_ := tokenType, Value := tokenValue })],
          panicked := false }
    else
      match s.GetTeamByName DefaultTeamName with
      | (_, _, some _) =>
        { effects := malformed
            ++ [http.Effect.Log "error" "get-team-by-name",
                http.Effect.WriteHeader http.StatusInternalServerError],
          panicked := false }
      | (_, false, none) =>
        { effects := malformed
            ++ [http.Effect.Log "info" "cannot-find-team-by-name",
                http.Effect.WriteHeader http.StatusUnauthorized],
          panicked := false }
      | (team, true, none) =>
        match s.GenerateToken (s.Now + tokenDuration) team.Team.Name team.ID with
        | (_, _, some _) =>
          { effects := malformed
              ++ [http.Effect.Log "error" "generate-token",
                  http.Effect.WriteHeader http.StatusInternalServerError],
            panicked := false }
        | (tokenType, tokenValue, none) =>
          { effects := malformed
              ++ [http.Effect.SetHeader "Content-Type" "application/json",
                  http.Effect.Encode (Body.Token { Type_ := tokenType, Value := tokenValue })],
            panicked := false }

end authserver

/-! ## Build server (`api/buildserver/create.go`) -/

namespace buildserver

/-- The calls of `CreateBuild` on its collaborators: the team database, the build
database, the engine, and the `go engineBuild.Resume` statement. -/
inductive Call where
  | GetTeamByName (name : String)
  | CreateOneOffBuild (teamID : Int)
  | EngineCreateBuild (build : db.Build) (plan : Plan)
  | Resume (engineBuild : engine.Build)

/-- Type `Server`, as what its collaborators answer. In this handler `GetTeamByName`
returns a team and an error. -/
structure Server where
  GetTeamByName : String → db.SavedTeam × Option Error
  CreateOneOffBuild : Int → db.Build × Option Error
  EngineCreateBuild : db.Build → Plan → Option engine.Build × Option Error

/-- The handler's list of effects; the body it encodes is `present.Build(build)`, given
by the build. -/
abbrev Handled := http.Handled db.Build Call

/-- Method `CreateBuild`, on what `json.NewDecoder(r.Body).Decode(&plan)` made of the
request body: the plan and the error. The error of `GetTeamByName` is overwritten by
that of `CreateOneOffBuild` before it is read. Calling `Resume` on a nil `engineBuild`
is a run-time panic. -/
def CreateBuild (s : Server) (decoded : Plan × Option Error) : Handled :=
  match decoded with
  | (_, some _) =>
    { effects := [http.Effect.Log "info" "malformed-request",
                  http.Effect.WriteHeader http.StatusBadRequest],
      panicked := false }
  | (plan, none) =>
    let team := (s.GetTeamByName DefaultTeamName).1
    match s.CreateOneOffBuild team.ID with
    | (_, some _) =>
      { effects := [http.Effect.Call (Call.GetTeamByName DefaultTeamName),
                    http.Effect.Call (Call.CreateOneOffBuild team.ID),
                    http.Effect.Log "error" "failed-to-create-one-off-build",
                    http.Effect.WriteHeader http.StatusInternalServerError],
        panicked := false }
    | (build, none) =>
      match s.EngineCreateBuild build plan with
      | (_, some _) =>
        { effects := [http.Effect.Call (Call.GetTeamByName DefaultTeamName),
                      http.Effect.Call (Call.CreateOneOffBuild team.ID),
                      http.Effect.Call (Call.EngineCreateBuild build plan),
                      http.Effect.Log "error" "failed-to-start-build",
                      http.Effect.WriteHeader http.StatusInternalServerError],
          panicked := false }
      | (none, none) =>
        { effects := [http.Effect.Call (Call.GetTeamByName DefaultTeamName),
                      http.Effect.Call (Call.CreateOneOffBuild team.ID),
                      http.Effect.Call (Call.EngineCreateBuild build plan)],
          panicked := true }
      | (some engineBuild, none) =>
        { effects := [http.Effect.Call (Call.GetTeamByName DefaultTeamName),
                      http.Effect.Call (Call.CreateOneOffBuild team.ID),
                      http.Effect.Call (Call.EngineCreateBuild build plan),
                      http.Effect.Call (Call.Resume engineBuild),
                      http.Effect.WriteHeader http.StatusCreated,
                      http.Effect.Encode build],
          panicked := false }

/-- A call of `CreateOneOffBuild`. -/
def Call.isCreateOneOffBuild : Call → Bool
  | Call.CreateOneOffBuild _ => true
  | _ => false

/-- Example server: `GetTeamByName` fails and returns the zero team, a build is
created for team 0 and the engine takes it. -/
def exampleServer : Server :=
  { GetTeamByName := fun _ => ({}, some "no teams table"),
    CreateOneOffBuild := fun _ => ({ ID := 7 }, none),
    EngineCreateBuild := fun build _ => (some { ID := build.ID }, none) }

end buildserver

/-! ## HTTP handlers: examples -/

namespace authserver

/-- Example: the default team, with basic auth configured. -/
def exampleTeam : db.SavedTeam :=
  { ID := 0,
    Team := { Name := "main",
              BasicAuth := { BasicAuthUsername := "user", BasicAuthPassword := "password" } } }

/-- Example server: the team is found, two OAuth providers are configured (the map
yields the second one first), the routes resolve and a token can be generated. -/
def exampleServer : Server :=
  { externalURL := "https://example.com",
    GetTeamByName := fun _ => (exampleTeam, true, none),
    GetProviders := fun _ =>
      ([("oauth-provider-2", { DisplayName := "OAuth Provider 2" }),
        ("oauth-provider-1", { DisplayName := "OAuth Provider 1" })], none),
    OAuthBeginPath := fun name => ("/auth/" ++ name, none),
    BasicAuthPath := ("/login/basic", none),
    GenerateToken := fun _ _ _ => ("Bearer", "some-token", none),
    Now := 0 }

/-- Example of what `sort.Sort` may do: insertion sort by `Less`. -/
def exampleSort (methods : List AuthMethod) : List AuthMethod :=
  methods.insertionSort (fun a b => Less b a = false)

end authserver

/-! ## Timeout step (`exec`), modelled from the specification -/

namespace exec

/-- Go's `os.Signal` values the steps exchange. -/
inductive Signal where
  | Interrupt
  | Kill
deriving DecidableEq, Repr

/-- Modelled from the spec: what the timeout step's `Run` meets while the child step
`a` runs, in the order it meets it: the injected clock is advanced by some amount, a
signal arrives on the step's own signal channel, the child's `Run` returns with an
error or nil. The step itself, `exec/timeout_step.go`, is outside the translated files;
its test is among them. -/
inductive TimeoutEvent where
  | ClockAdvanced (amount : Nat)
  | Signalled (signal : Signal)
  | ChildReturned (err : Option Error)
deriving DecidableEq, Repr

/-- Modelled from the spec: the state of a running timeout step: how far the injected
clock has advanced since `Run` began, whether the timeout has tripped, and the signals
sent to the child so far, in order. -/
structure TimeoutState where
  elapsed : Nat
  timedOut : Bool
  sent : List Signal
deriving DecidableEq, Repr

/-- Modelled from the spec: "if wall time via injected clock exceeds `d`, signal
`interrupt`"; the timer of the test's clock fires as soon as the clock has advanced by
the duration, so a clock advanced by exactly `d` trips the timeout ("`Timeout("1h",
child)` with a fake clock advanced by 1h inside `child.Run` delivers `os.Interrupt`"). -/
def TimeoutState.fire (d : Nat) (state : TimeoutState) : TimeoutState :=
  if !state.timedOut && decide (d ≤ state.elapsed) then
    { state with timedOut := true, sent := state.sent ++ [Signal.Interrupt] }
  else state

/-- Modelled from the spec: what `Run` of a timeout step returns together with the
state it ends in; `returned` is none while the child has not returned. -/
structure TimeoutRun where
  returned : Option (Option Error)
  state : TimeoutState
deriving DecidableEq, Repr

/-- Modelled from the spec: the loop of `Run` of `Timeout(d, a)` over the events: the
clock advancing may trip the timeout ("signal `interrupt`"), a signal is forwarded to
the child ("timeout: forward"), and when the child returns the step returns: nil when
the timeout has tripped ("step returns nil error"), else what the child returned. -/
def timeoutLoop (d : Nat) : List TimeoutEvent → TimeoutState → TimeoutRun
  | [], state => { returned := none, state := state }
  | TimeoutEvent.ClockAdvanced amount :: rest, state =>
    timeoutLoop d rest (TimeoutState.fire d { state with elapsed := state.elapsed + amount })
  | TimeoutEvent.Signalled signal :: rest, state =>
    timeoutLoop d rest { state with sent := state.sent ++ [signal] }
  | TimeoutEvent.ChildReturned err :: _, state =>
    { returned := some (if state.timedOut then none else err), state := state }

/-- Modelled from the spec: `Run` of `Timeout(d, a)`: "Invalid `d` → immediate error from
`Run`"; for a valid duration the timer is started, which fires at once when the
duration is zero, and the child is run. The duration string is given by what
`time.ParseDuration` makes of it. -/
def TimeoutRunStep (duration : Option Nat) (events : List TimeoutEvent) : TimeoutRun :=
  match duration with
  | none =>
    { returned := some (some "invalid duration"),
      state := { elapsed := 0, timedOut := false, sent := [] } }
  | some d =>
    timeoutLoop d events (TimeoutState.fire d { elapsed := 0, timedOut := false, sent := [] })

/-- Modelled from the spec: `Result(&success)` of a timeout step after `Run`: "overall
success = `a`'s success iff completed within `d`, else false"; the step has the
result. -/
def TimeoutResult (run : TimeoutRun) (childSuccess : Bool) : Bool × Bool :=
  (childSuccess && !run.state.timedOut, true)

/-- By how much the events advance the clock. -/
def advanced : List TimeoutEvent → Nat
  | [] => 0
  | TimeoutEvent.ClockAdvanced amount :: rest => amount + advanced rest
  | _ :: rest => advanced rest

/-- The events are clock advances only: the child has not returned and no signal has
arrived from outside. -/
def onlyClock : List TimeoutEvent → Bool
  | [] => true
  | TimeoutEvent.ClockAdvanced _ :: rest => onlyClock rest
  | _ :: _ => false

end exec

/-! ## Rejecting conditionals -/

/-- `Create` fails with the empty plan as soon as `hasConditionals` finds a step. -/
theorem Create_of_hasConditionals (factory : BuildFactory) (job : JobConfig)
    (resources : ResourceConfigs) (inputs : List BuildInput)
    (h : hasConditionals job.Plan = true) :
    Create factory job resources inputs = (Plan.empty, some conditionalsError) := by
  simp [Create, h]

/-- C1 (the code departs from the claim): a task with `conditions` under a `try`, and a
task with `conditions` as the `on_success` hook of a task, are both accepted by
`Create`: it returns a nil error and a plan that runs the conditional task. -/
theorem Create_accepts_conditions_under_try_and_hook :
    Create ⟨"main"⟩
        { Plan := [PlanConfig.mk {} none none (some conditionalTask) none none none] }
        noResources []
      = (Plan.try_ none (Plan.ofLeaf
          { Location := some { ID := 2 }
            Task := some ⟨"unit", false, none, "", []⟩ }), none)
    ∧ Create ⟨"main"⟩
        { Plan := [PlanConfig.mk { Task := "build" } none none none (some conditionalTask)
            none none] }
        noResources []
      = (Plan.onSuccess
          (Plan.ofLeaf
            { Location := some { ID := 1 }
              Task := some ⟨"build", false, none, "", []⟩ })
          (Plan.ofLeaf
            { Location := some { ID := 2, ParentID := 1, Hook := "success" }
              Task := some ⟨"unit", false, none, "", []⟩ }), none) := by
  constructor <;> rfl

/-! ## Sequencing -/

/-- The plan of a plain get or task step has no `OnSuccess` part. -/
theorem constructPlanFromConfig_plain (factory : BuildFactory) (resources : ResourceConfigs)
    (inputs : List BuildInput) :
    ∀ (step : PlanConfig), step.isPlainGetOrTask →
      (constructPlanFromConfig factory resources inputs step true).OnSuccess = none
  | PlanConfig.mk a d ag t s f e => by
      rintro ⟨rfl, hput, hk, hto, rfl, rfl, rfl⟩
      unfold constructPlanFromConfig
      simp only [failureIfPresent, successIfPresent, ensureIfPresent]
      simp [hput, hto]
      by_cases hg : a.Get = ""
      · have ht : a.Task ≠ "" := by tauto
        simp [hg, ht, constructTask, Plan.ofLeaf, Plan.OnSuccess]
      · simp [hg, constructGet, Plan.ofLeaf, Plan.OnSuccess]

/-- C2: a sequence of get or task steps without hooks and without timeout compiles to
the right-leaning chain of `OnSuccess` nodes over the plans of the single steps (the
plan of the step itself for one step, the empty plan for none). -/
theorem constructPlanHookBasedPlan_chain (factory : BuildFactory)
    (resources : ResourceConfigs) (inputs : List BuildInput) (steps : PlanSequence)
    (h : ∀ step ∈ steps, step.isPlainGetOrTask) :
    constructPlanHookBasedPlan factory resources inputs steps
      = rightLeaningChain
          (steps.map (fun step => constructPlanFromConfig factory resources inputs step true)) := by
  induction steps with
  | nil => simp [constructPlanHookBasedPlan, rightLeaningChain]
  | cons step rest ih =>
      have hs := constructPlanFromConfig_plain factory resources inputs step
        (h step (List.mem_cons_self _ _))
      have ih := ih (fun x hx => h x (List.mem_cons_of_mem _ hx))
      cases rest with
      | nil => simp [constructPlanHookBasedPlan, rightLeaningChain]
      | cons q rest =>
          unfold constructPlanHookBasedPlan
          simp only [hs, List.map_cons, rightLeaningChain]
          simp only [List.map_cons] at ih
          simp [ih]

/-- Witness of C2 on the sequence get, task, task. -/
theorem constructPlanHookBasedPlan_chain_witness :
    (∀ step ∈ [getStep "repo", taskStep "unit", taskStep "deploy"], step.isPlainGetOrTask)
    ∧ constructPlanHookBasedPlan ⟨"main"⟩ noResources []
        [getStep "repo", taskStep "unit", taskStep "deploy"]
      = rightLeaningChain
          ([getStep "repo", taskStep "unit", taskStep "deploy"].map
            (fun step => constructPlanFromConfig ⟨"main"⟩ noResources [] step true)) :=
  have h : ∀ step ∈ [getStep "repo", taskStep "unit", taskStep "deploy"],
      step.isPlainGetOrTask := by
    simp [getStep, taskStep, PlanConfig.isPlainGetOrTask]
  ⟨h, constructPlanHookBasedPlan_chain ⟨"main"⟩ noResources [] _ h⟩

/-! ## Get version pinning -/

/-- The loop of the `Get` case finds what the list library finds. -/
theorem inputVersion_eq_first (name : String) (inputs : List BuildInput) :
    inputVersion name inputs = firstInputVersion name inputs := by
  induction inputs with
  | nil => rfl
  | cons input rest ih =>
      by_cases h : input.Name = name
      · simp [inputVersion, firstInputVersion, List.find?, h]
      · simp only [inputVersion, h, if_false, ih]
        simp [firstInputVersion, List.find?, h]

/-- Inputs with another name do not change what the loop of the `Get` case finds. -/
theorem inputVersion_filter (name : String) (inputs : List BuildInput) :
    inputVersion name (inputs.filter (fun input => input.Name = name))
      = inputVersion name inputs := by
  induction inputs with
  | nil => rfl
  | cons input rest ih =>
      by_cases h : input.Name = name
      · simp [inputVersion, List.filter, h]
      · simp [inputVersion, List.filter, h, ih]

/-- C4: the plan built for a get step named `n` is the `GetPlan` leaf, under the
timeout and the hooks of the step, and the `Version` of that `GetPlan` is the version of
the first input called `n`, nil when there is none; dropping the inputs with other names
changes nothing. -/
theorem constructPlanFromConfig_get_version (factory : BuildFactory)
    (resources : ResourceConfigs) (inputs : List BuildInput) (a : StepAttrs)
    (ag : Option PlanSequence) (t s f e : Option PlanConfig) (hasHooks : Bool)
    (hput : a.Put = "") (hget : a.Get ≠ "") :
    (constructGetPlan factory resources inputs a).Name = a.Get
    ∧ (constructGetPlan factory resources inputs a).Version = firstInputVersion a.Get inputs
    ∧ (constructGetPlan factory resources inputs a).Version
        = firstInputVersion a.Get (inputs.filter (fun input => input.Name = a.Get))
    ∧ constructPlanFromConfig factory resources inputs (PlanConfig.mk a none ag t s f e)
          hasHooks
        = ensureIfPresent factory resources inputs e
            (successIfPresent factory resources inputs s
              (failureIfPresent factory resources inputs f
                (if a.Timeout ≠ "" then
                  Plan.timeout a.Timeout
                    (Plan.ofLeaf
                      { Location := a.Location
                        Get := some (constructGetPlan factory resources inputs a) })
                else
                  Plan.ofLeaf
                    { Location := a.Location
                      Get := some (constructGetPlan factory resources inputs a) })
                hasHooks) hasHooks) hasHooks := by
  refine ⟨rfl, inputVersion_eq_first _ _, ?_, ?_⟩
  · rw [← inputVersion_eq_first, inputVersion_filter]
    rfl
  · unfold constructPlanFromConfig
    simp [hput, hget, constructGet]

/-- Witness of C4: two inputs are called `repo`, the first one pins the version. -/
theorem constructPlanFromConfig_get_version_witness :
    (constructGetPlan ⟨"main"⟩ noResources
        [⟨"other", some [("ref", "a")]⟩, ⟨"repo", some [("ref", "b")]⟩, ⟨"repo", none⟩]
        { Get := "repo" }).Version = some [("ref", "b")]
    ∧ constructPlanFromConfig ⟨"main"⟩ noResources
          [⟨"other", some [("ref", "a")]⟩, ⟨"repo", some [("ref", "b")]⟩, ⟨"repo", none⟩]
          (getStep "repo") true
        = Plan.ofLeaf
            { Get := some
                { Type_ := "", Name := "repo", Resource := "repo", Pipeline := "main"
                  Source := [], Params := [], Version := some [("ref", "b")], Tags := [] } } :=
  have h := constructPlanFromConfig_get_version ⟨"main"⟩ noResources
    [⟨"other", some [("ref", "a")]⟩, ⟨"repo", some [("ref", "b")]⟩, ⟨"repo", none⟩]
    { Get := "repo" } none none none none none true rfl (by decide)
  ⟨h.2.1.trans rfl, h.2.2.2.trans rfl⟩

/-! ## Timeout and hooks -/

/-- C5 (counterexample): for the task `unit` with timeout `1h` and the on_success hook
`notify` the plan is `OnSuccess{Timeout{1h, unit}, notify}`: the hook is attached
around the `Timeout` node, and the plan is not `Timeout{1h, OnSuccess{unit, notify}}`. -/
theorem constructPlanFromConfig_timeout_inside_hook :
    constructPlanFromConfig ⟨"main"⟩ noResources []
        (PlanConfig.mk { Task := "unit", Timeout := "1h" } none none none
          (some (taskStep "notify")) none none) true
      = Plan.onSuccess
          (Plan.timeout "1h" (Plan.ofLeaf { Task := some ⟨"unit", false, none, "", []⟩ }))
          (Plan.ofLeaf { Task := some ⟨"notify", false, none, "", []⟩ })
    ∧ constructPlanFromConfig ⟨"main"⟩ noResources []
        (PlanConfig.mk { Task := "unit", Timeout := "1h" } none none none
          (some (taskStep "notify")) none none) true
      ≠ Plan.timeout "1h"
          (Plan.onSuccess (Plan.ofLeaf { Task := some ⟨"unit", false, none, "", []⟩ })
            (Plan.ofLeaf { Task := some ⟨"notify", false, none, "", []⟩ })) := by
  have h : constructPlanFromConfig ⟨"main"⟩ noResources []
        (PlanConfig.mk { Task := "unit", Timeout := "1h" } none none none
          (some (taskStep "notify")) none none) true
      = Plan.onSuccess
          (Plan.timeout "1h" (Plan.ofLeaf { Task := some ⟨"unit", false, none, "", []⟩ }))
          (Plan.ofLeaf { Task := some ⟨"notify", false, none, "", []⟩ }) := rfl
  refine ⟨h, ?_⟩
  rw [h]
  simp [Plan.onSuccess, Plan.timeout]

/-- C5 (amended): for a step with a non-empty timeout `d` the plan is the `Timeout` node
with duration `d` around the node built for the step without its hooks, and the
failure, success and ensure hooks of the step are attached, in that order, around the
`Timeout` node. -/
theorem constructPlanFromConfig_timeout (factory : BuildFactory)
    (resources : ResourceConfigs) (inputs : List BuildInput) (a : StepAttrs)
    (d ag : Option PlanSequence) (t s f e : Option PlanConfig) (hasHooks : Bool)
    (h : a.Timeout ≠ "") :
    constructPlanFromConfig factory resources inputs (PlanConfig.mk a d ag t s f e) hasHooks
      = ensureIfPresent factory resources inputs e
          (successIfPresent factory resources inputs s
            (failureIfPresent factory resources inputs f
              (Plan.timeout a.Timeout
                (constructPlanFromConfig factory resources inputs
                  (PlanConfig.mk { a with Timeout := "" } d ag t none none none) hasHooks))
              hasHooks) hasHooks) hasHooks := by
  unfold constructPlanFromConfig
  simp only [failureIfPresent, successIfPresent, ensureIfPresent]
  simp [h, constructPut, constructGet, constructGetPlan, constructTask]

/-- Witness of C5 (amended): without hooks the `Timeout` node is the whole plan. -/
theorem constructPlanFromConfig_timeout_witness :
    ({ Task := "unit", Timeout := "1h" } : StepAttrs).Timeout ≠ ""
    ∧ constructPlanFromConfig ⟨"main"⟩ noResources []
        (PlanConfig.mk { Task := "unit", Timeout := "1h" } none none none none none none) true
      = Plan.timeout "1h" (Plan.ofLeaf { Task := some ⟨"unit", false, none, "", []⟩ }) :=
  ⟨by decide,
    (constructPlanFromConfig_timeout ⟨"main"⟩ noResources []
      { Task := "unit", Timeout := "1h" } none none none none none none true
      (by decide)).trans rfl⟩

/-! ## Build sets -/

/-- Intersecting is taking the common keys. -/
theorem BuildSet.Intersect_eq_inter (a b : BuildSet) : a.Intersect b = a ∩ b := by
  ext x
  simp [BuildSet.Intersect]

/-- `Equal` holds between equal sets. -/
theorem BuildSet.Equal_self (a : BuildSet) : a.Equal a = true := by
  simp [BuildSet.Equal, BuildSet.Contains]

/-- C10: `Intersect` is commutative: `a.Intersect(b)` and `b.Intersect(a)` are `Equal`
and contain the same build ids. -/
theorem BuildSet.Intersect_comm (a b : BuildSet) :
    (a.Intersect b).Equal (b.Intersect a) = true
    ∧ ∀ x : Int, (a.Intersect b).Contains x = (b.Intersect a).Contains x := by
  have h : a.Intersect b = b.Intersect a := by
    rw [BuildSet.Intersect_eq_inter, BuildSet.Intersect_eq_inter, Finset.inter_comm]
  rw [h]
  exact ⟨BuildSet.Equal_self _, fun _ => rfl⟩

/-! ## Location numbering -/

open PlanConfig

/-- The steps under a sequence are the steps under each of its members, in order. -/
theorem PlanConfig.stepsSeq_eq (l : List PlanConfig) : stepsSeq l = l.flatMap steps := by
  induction l with
  | nil => simp [stepsSeq]
  | cons c cs ih => simp [stepsSeq, ih]

/-- The steps under an appended sequence. -/
theorem PlanConfig.stepsSeq_append (l₁ l₂ : List PlanConfig) :
    stepsSeq (l₁ ++ l₂) = stepsSeq l₁ ++ stepsSeq l₂ := by
  simp [stepsSeq_eq]

/-- The steps under a step are the step, then the steps under its direct sub-steps. -/
theorem PlanConfig.steps_eq (pc : PlanConfig) : steps pc = pc :: stepsSeq (kids pc) := by
  cases pc with
  | mk a d ag t s f e =>
    cases d <;> cases t <;> cases ag <;> cases f <;> cases s <;> cases e <;>
      (unfold steps; simp [kids, stepsSeq_append, stepsSeq])

/-- Induction over step trees: a property holds of every step if it holds of a step
whenever it holds of all its direct sub-steps. -/
theorem PlanConfig.induct {P : PlanConfig → Prop}
    (step : ∀ pc : PlanConfig, (∀ c ∈ kids pc, P c) → P pc) : ∀ pc, P pc := by
  intro pc
  refine @PlanConfig.rec P (fun ol => ∀ l, ol = some l → ∀ c ∈ l, P c)
    (fun oc => ∀ c, oc = some c → P c) (fun l => ∀ c ∈ l, P c) ?_ ?_ ?_ ?_ ?_ ?_ ?_ pc
  · intro a d ag t s f e hd hag ht hs hf he
    apply step
    intro c hc
    simp only [kids, List.mem_append, Option.mem_toList, Option.mem_def] at hc
    rcases hc with ((((hc | hc) | hc) | hc) | hc) | hc
    · cases d with
      | none => simp at hc
      | some l => exact hd l rfl c (by simpa using hc)
    · exact ht c hc
    · cases ag with
      | none => simp at hc
      | some l => exact hag l rfl c (by simpa using hc)
    · exact hf c hc
    · exact hs c hc
    · exact he c hc
  · intro l h; cases h
  · intro l ih l2 h; cases h; exact ih
  · intro c h; cases h
  · intro c ih c2 h; cases h; exact ih
  · intro c h; cases h
  · intro hd tl ih1 ih2 c hc
    rcases List.mem_cons.1 hc with h | h
    · subst h; exact ih1
    · exact ih2 c h

/-- The `Put` case of `populatePlanLocations`. -/
theorem populatePlanLocations_put (a : StepAttrs) (d ag : Option PlanSequence)
    (t s f e : Option PlanConfig) (loc : Location) (h : a.Put ≠ "") :
    populatePlanLocations (PlanConfig.mk a d ag t s f e) loc
      = populateHooks ⟨{ a with Location := some loc }, d, ag, t, 1, loc.ID⟩ s f e loc.ID := by
  rw [populatePlanLocations.eq_def]
  simp [h, populateHooks]

/-- The location literal of the `Do` loop, after the update of `ParentID`. -/
theorem doChildLocation_eq (loc : Location) : (fun (child : PlanConfig) (stepCount : Nat) =>
      ({ ID := (if loc.SerialGroup ≠ 0 then { loc with ParentID := loc.SerialGroup } else loc).ID
              + stepCount + 1
         ParentID :=
           (if loc.SerialGroup ≠ 0 then { loc with ParentID := loc.SerialGroup } else loc).ParentID
         ParallelGroup :=
           (if loc.SerialGroup ≠ 0 then { loc with ParentID := loc.SerialGroup }
             else loc).ParallelGroup
         SerialGroup := loc.ID + 1
         Hook := if child.Do.isNone then
           (if loc.SerialGroup ≠ 0 then { loc with ParentID := loc.SerialGroup } else loc).Hook
           else "" } : Location)) = doChildLocation loc := by
  funext child stepCount
  by_cases hs : loc.SerialGroup = 0 <;> simp [doChildLocation, hs]

/-- The location literal of the `Aggregate` loop, after the update of `ParentID`. -/
theorem aggregateChildLocation_eq (loc : Location) : (fun (child : PlanConfig) (stepCount : Nat) =>
      ({ ID := (if loc.ParallelGroup ≠ 0 then { loc with ParentID := loc.ParallelGroup } else loc).ID
              + stepCount + 1
         ParentID :=
           (if loc.ParallelGroup ≠ 0 then { loc with ParentID := loc.ParallelGroup } else loc).ParentID
         ParallelGroup := loc.ID + 1
         SerialGroup :=
           (if loc.ParallelGroup ≠ 0 then { loc with ParentID := loc.ParallelGroup }
             else loc).SerialGroup
         Hook := if child.Aggregate.isNone && child.Do.isNone then
           (if loc.ParallelGroup ≠ 0 then { loc with ParentID := loc.ParallelGroup } else loc).Hook
           else "" } : Location)) = aggregateChildLocation loc := by
  funext child stepCount
  by_cases hs : loc.ParallelGroup = 0 <;> simp [aggregateChildLocation, hs]

/-- The `Do` case of `populatePlanLocations`. -/
theorem populatePlanLocations_do (a : StepAttrs) (children : PlanSequence)
    (ag : Option PlanSequence) (t s f e : Option PlanConfig) (loc : Location)
    (h : a.Put = "") :
    populatePlanLocations (PlanConfig.mk a (some children) ag t s f e) loc
      = populateHooks
          ⟨a, some (populateChildren (doChildLocation loc) children 1).1, ag, t,
            (populateChildren (doChildLocation loc) children 1).2, loc.ID + 1⟩ s f e loc.ID := by
  rw [populatePlanLocations.eq_def, ← doChildLocation_eq]
  simp [h, populateHooks]

/-- The `Try` case of `populatePlanLocations`. -/
theorem populatePlanLocations_try (a : StepAttrs) (child : PlanConfig)
    (ag : Option PlanSequence) (s f e : Option PlanConfig) (loc : Location)
    (h : a.Put = "") :
    populatePlanLocations (PlanConfig.mk a none ag (some child) s f e) loc
      = populateHooks
          ⟨a, none, ag, some (populatePlanLocations child (tryChildLocation loc)).1,
            (populatePlanLocations child (tryChildLocation loc)).2, loc.ID⟩ s f e loc.ID := by
  rw [populatePlanLocations.eq_def]
  simp [h, populateHooks, tryChildLocation]

/-- The `Aggregate` case of `populatePlanLocations`. -/
theorem populatePlanLocations_aggregate (a : StepAttrs) (children : PlanSequence)
    (s f e : Option PlanConfig) (loc : Location)
    (h : a.Put = "") :
    populatePlanLocations (PlanConfig.mk a none (some children) none s f e) loc
      = populateHooks
          ⟨a, none, some (populateChildren (aggregateChildLocation loc) children 1).1, none,
            (populateChildren (aggregateChildLocation loc) children 1).2, loc.ID + 1⟩ s f e loc.ID := by
  rw [populatePlanLocations.eq_def, ← aggregateChildLocation_eq]
  simp [h, populateHooks]

/-- The default case of `populatePlanLocations`. -/
theorem populatePlanLocations_default (a : StepAttrs) 
    (s f e : Option PlanConfig) (loc : Location)
    (h : a.Put = "") :
    populatePlanLocations (PlanConfig.mk a none none none s f e) loc
      = populateHooks ⟨{ a with Location := some loc }, none, none, none, 0, loc.ID⟩ s f e loc.ID := by
  rw [populatePlanLocations.eq_def]
  simp [h, populateHooks]
/-- The children loop on no children. -/
theorem populateChildren_nil (cl : PlanConfig → Nat → Location) (sc : Nat) :
    populateChildren cl [] sc = ([], sc) := by
  rw [populateChildren.eq_def]

/-- One round of the children loop. -/
theorem populateChildren_cons (cl : PlanConfig → Nat → Location) (c : PlanConfig)
    (rest : PlanSequence) (sc : Nat) :
    populateChildren cl (c :: rest) sc
      = ((populatePlanLocations c (cl c sc)).1
            :: (populateChildren cl rest (sc + (populatePlanLocations c (cl c sc)).2)).1,
          (populateChildren cl rest (sc + (populatePlanLocations c (cl c sc)).2)).2) := by
  rw [populateChildren.eq_def]

/-- A hook block on a nil hook. -/
theorem populateHook_none (id sc pid : Nat) (name : String) :
    populateHook none id sc pid name = (none, sc) := by
  rw [populateHook.eq_def]

/-- A hook block on a hook. -/
theorem populateHook_some (c : PlanConfig) (id sc pid : Nat) (name : String) :
    populateHook (some c) id sc pid name
      = (some (populatePlanLocations c ⟨id + sc + 1, pid, 0, 0, name⟩).1,
          sc + (populatePlanLocations c ⟨id + sc + 1, pid, 0, 0, name⟩).2) := by
  rw [populateHook.eq_def]

/-- A step that sets exactly one kind is a put, a do, a try, an aggregate, or a get or task. -/
theorem PlanConfig.kindCount_cases (a : StepAttrs) (d ag : Option PlanSequence)
    (t s f e : Option PlanConfig) (h : (PlanConfig.mk a d ag t s f e).kindCount = 1) :
    (a.Put ≠ "" ∧ d = none ∧ t = none ∧ ag = none ∧ a.Get = "" ∧ a.Task = "")
    ∨ (a.Put = "" ∧ (∃ cs, d = some cs) ∧ t = none ∧ ag = none ∧ a.Get = "" ∧ a.Task = "")
    ∨ (a.Put = "" ∧ d = none ∧ (∃ c, t = some c) ∧ ag = none ∧ a.Get = "" ∧ a.Task = "")
    ∨ (a.Put = "" ∧ d = none ∧ t = none ∧ (∃ cs, ag = some cs) ∧ a.Get = "" ∧ a.Task = "")
    ∨ (a.Put = "" ∧ d = none ∧ t = none ∧ ag = none ∧ (a.Get ≠ "" ∨ a.Task ≠ "")) := by
  unfold kindCount at h
  by_cases h1 : a.Get = "" <;> by_cases h2 : a.Put = "" <;> by_cases h3 : a.Task = "" <;>
    cases d <;> cases t <;> cases ag <;> simp_all

/-- No ids lie within any bounds. -/
theorem idsWithin_nil (lo hi : Nat) : IdsWithin lo hi [] := by
  simp [IdsWithin]

/-- Ids within `[a, b)` followed by ids within `[b, c)` are ids within `[a, c)`. -/
theorem idsWithin_append {a b c : Nat} {l₁ l₂ : List Nat} (h₁ : IdsWithin a b l₁)
    (h₂ : IdsWithin b c l₂) (hab : a ≤ b) (hbc : b ≤ c) : IdsWithin a c (l₁ ++ l₂) := by
  refine ⟨List.pairwise_append.2 ⟨h₁.1, h₂.1, ?_⟩, ?_⟩
  · intro x hx y hy
    have := (h₁.2 x hx).2
    have := (h₂.2 y hy).1
    omega
  · intro x hx
    rcases List.mem_append.1 hx with hx | hx
    · have := h₁.2 x hx; omega
    · have := h₂.2 x hx; omega

/-- The bounds of `IdsWithin` may be widened. -/
theorem idsWithin_mono {a b a' b' : Nat} {l : List Nat} (h : IdsWithin a b l)
    (ha : a' ≤ a) (hb : b ≤ b') : IdsWithin a' b' l :=
  ⟨h.1, fun x hx => by have := h.2 x hx; omega⟩

/-- No steps are populated within any bounds. -/
theorem populated_nil (lo hi : Nat) : Populated [] [] lo hi := by
  simp [Populated, idsWithin_nil]

/-- Steps populated within `[a, b)` followed by steps populated within `[b, c)`. -/
theorem populated_append {a b c : Nat} {L₁ L₁' L₂ L₂' : List PlanConfig}
    (h₁ : Populated L₁ L₁' a b) (h₂ : Populated L₂ L₂' b c) (hab : a ≤ b) (hbc : b ≤ c) :
    Populated (L₁ ++ L₂) (L₁' ++ L₂') a c := by
  refine ⟨?_, ?_, ?_⟩
  · rw [List.map_append, List.map_append, h₁.1, h₂.1]
  · intro st hst
    rcases List.mem_append.1 hst with h | h
    · exact h₁.2.1 st h
    · exact h₂.2.1 st h
  · rw [List.flatMap_append]
    exact idsWithin_append h₁.2.2 h₂.2.2 hab hbc

/-- The bounds of `Populated` may be widened. -/
theorem populated_mono {a b a' b' : Nat} {L L' : List PlanConfig} (h : Populated L L' a b)
    (ha : a' ≤ a) (hb : b ≤ b') : Populated L L' a' b' :=
  ⟨h.1, h.2.1, idsWithin_mono h.2.2 ha hb⟩

/-- A single step that kept its header, has its location and has its ids in bounds. -/
theorem populated_single {lo hi : Nat} {c c' : PlanConfig} (hh : c'.header = c.header)
    (hl : c'.located) (hi' : IdsWithin lo hi c'.ownIds) : Populated [c] [c'] lo hi := by
  refine ⟨by simp [hh], by simpa using hl, by simpa using hi'⟩

/-- The ids used up by the steps under a sequence, member by member. -/
theorem PlanConfig.sum_ownCount_stepsSeq (l : List PlanConfig) :
    ((stepsSeq l).map ownCount).sum = (l.map idCount).sum := by
  induction l with
  | nil => simp [stepsSeq]
  | cons c cs ih => simp [stepsSeq, idCount, ih]

/-- The ids a step tree uses up: those of the step and those of its direct sub-steps. -/
theorem PlanConfig.idCount_eq (pc : PlanConfig) :
    pc.idCount = pc.ownCount + ((kids pc).map idCount).sum := by
  rw [← sum_ownCount_stepsSeq]
  simp [idCount, steps_eq]


/-- The children loop numbers the children one after the other: it returns the running
count plus the ids the children use up, and the children are populated from the id
`base + stepCount` on, when each child is (`base` is the offset of the location
literal). -/
theorem populateChildren_populated (cl : PlanConfig → Nat → Location) (base : Nat)
    (hcl : ∀ c sc, (cl c sc).ID = base + sc) :
    ∀ (children : PlanSequence) (sc : Nat), (∀ c ∈ children, PopulatesWell c) →
      (∀ st ∈ stepsSeq children, st.kindCount = 1) →
      (populateChildren cl children sc).2 = sc + (children.map idCount).sum
        ∧ Populated (stepsSeq children) (stepsSeq (populateChildren cl children sc).1)
            (base + sc) (base + sc + (children.map idCount).sum) := by
  intro children
  induction children with
  | nil =>
      intro sc _ _
      simp [populateChildren_nil, stepsSeq, populated_nil]
  | cons c rest ih =>
      intro sc hP hk
      have hc := hP c (List.mem_cons_self _ _) (cl c sc)
        (fun st hst => hk st (by simp [stepsSeq, hst]))
      have hrest := ih (sc + c.idCount) (fun x hx => hP x (List.mem_cons_of_mem _ hx))
        (fun st hst => hk st (by simp [stepsSeq, hst]))
      rw [populateChildren_cons, hc.1]
      refine ⟨by simp [hrest.1]; omega, ?_⟩
      simp only [stepsSeq, List.map_cons, List.sum_cons]
      have h1 := hc.2
      rw [hcl] at h1
      have h2 := hrest.2
      exact populated_append h1 (populated_mono h2 (by omega) (by omega)) (by omega) (by omega)

/-- A hook block numbers the hook from `locationID + stepCount + 1` on. -/
theorem populateHook_populated (h : Option PlanConfig) (id sc pid : Nat) (name : String)
    (hP : ∀ c ∈ h.toList, PopulatesWell c)
    (hk : ∀ st ∈ stepsSeq h.toList, st.kindCount = 1) :
    (populateHook h id sc pid name).2 = sc + (h.toList.map idCount).sum
      ∧ Populated (stepsSeq h.toList) (stepsSeq (populateHook h id sc pid name).1.toList)
          (id + sc + 1) (id + sc + 1 + (h.toList.map idCount).sum) := by
  cases h with
  | none => simp [populateHook_none, stepsSeq, populated_nil]
  | some c =>
      have hc := hP c (by simp) ⟨id + sc + 1, pid, 0, 0, name⟩
        (fun st hst => hk st (by simp [stepsSeq, hst]))
      rw [populateHook_some, hc.1]
      refine ⟨by simp, ?_⟩
      simpa [stepsSeq] using hc.2


/-- The three hook blocks after the `switch`: if the switch kept the header of the step,
gave a leaf step its location, numbered the step itself within `[id, m)` and its
children within `[m, id + stepCount + 1)`, then the whole tree is populated within
`[id, id + idCount)` and `idCount` is the count returned. -/
theorem populateHooks_assemble (a : StepAttrs) (d ag : Option PlanSequence)
    (t s f e : Option PlanConfig) (sw : Switched) (id m : Nat)
    (hhdr : (PlanConfig.mk sw.attrs sw.Do sw.Aggregate sw.Try none none none).header
      = (PlanConfig.mk a d ag t s f e).header)
    (hloc : (PlanConfig.mk sw.attrs sw.Do sw.Aggregate sw.Try none none none).located)
    (hown : IdsWithin id m (PlanConfig.mk sw.attrs sw.Do sw.Aggregate sw.Try none none none).ownIds)
    (hm : id ≤ m ∧ m ≤ id + sw.stepCount + 1)
    (hD : Populated (stepsSeq (d.getD [] ++ t.toList ++ ag.getD []))
      (stepsSeq (sw.Do.getD [] ++ sw.Try.toList ++ sw.Aggregate.getD []))
      m (id + sw.stepCount + 1))
    (hcount : sw.stepCount + 1 = (PlanConfig.mk a d ag t s f e).ownCount
      + ((d.getD [] ++ t.toList ++ ag.getD []).map idCount).sum)
    (hP : ∀ c ∈ f.toList ++ s.toList ++ e.toList, PopulatesWell c)
    (hk : ∀ st ∈ stepsSeq (f.toList ++ s.toList ++ e.toList), st.kindCount = 1) :
    (populateHooks sw s f e id).2 = (PlanConfig.mk a d ag t s f e).idCount
      ∧ Populated (steps (PlanConfig.mk a d ag t s f e))
          (steps (populateHooks sw s f e id).1) id
          (id + (PlanConfig.mk a d ag t s f e).idCount) := by
  have hf := populateHook_populated f id sw.stepCount sw.parentID "failure"
    (fun c hc => hP c (by simp at hc ⊢; tauto))
    (fun st hst => hk st (by simp only [stepsSeq_append, List.mem_append]; tauto))
  have hs := populateHook_populated s id
    (populateHook f id sw.stepCount sw.parentID "failure").2 sw.parentID "success"
    (fun c hc => hP c (by simp at hc ⊢; tauto))
    (fun st hst => hk st (by simp only [stepsSeq_append, List.mem_append]; tauto))
  have he := populateHook_populated e id
    (populateHook s id (populateHook f id sw.stepCount sw.parentID "failure").2
      sw.parentID "success").2 sw.parentID "ensure"
    (fun c hc => hP c (by simp at hc ⊢; tauto))
    (fun st hst => hk st (by simp only [stepsSeq_append, List.mem_append]; tauto))
  rw [hf.1] at hs he
  rw [hs.1] at he
  have hidc : (PlanConfig.mk a d ag t s f e).idCount
      = sw.stepCount + 1 + (f.toList.map idCount).sum + (s.toList.map idCount).sum
        + (e.toList.map idCount).sum := by
    rw [idCount_eq, hcount]
    simp only [kids, List.map_append, List.sum_append]
    omega
  have hval : (populateHooks sw s f e id).2 = sw.stepCount + (f.toList.map idCount).sum
      + (s.toList.map idCount).sum + (e.toList.map idCount).sum + 1 := by
    simp only [populateHooks]
    rw [hf.1, hs.1, he.1]
  refine ⟨by rw [hval, hidc]; omega, ?_⟩
  rw [steps_eq, steps_eq]
  have hkids : kids (populateHooks sw s f e id).1
      = (sw.Do.getD [] ++ sw.Try.toList ++ sw.Aggregate.getD [])
        ++ ((populateHook f id sw.stepCount sw.parentID "failure").1.toList
          ++ (populateHook s id (populateHook f id sw.stepCount sw.parentID "failure").2
              sw.parentID "success").1.toList
          ++ (populateHook e id
              (populateHook s id (populateHook f id sw.stepCount sw.parentID "failure").2
                sw.parentID "success").2 sw.parentID "ensure").1.toList) := by
    simp [populateHooks, kids]
  have hkids0 : kids (PlanConfig.mk a d ag t s f e)
      = (d.getD [] ++ t.toList ++ ag.getD []) ++ (f.toList ++ s.toList ++ e.toList) := by
    simp [kids]
  rw [hkids, hkids0, hf.1, hs.1]
  simp only [stepsSeq_append, List.append_assoc]
  have htop : Populated [PlanConfig.mk a d ag t s f e] [(populateHooks sw s f e id).1] id m := by
    refine populated_single ?_ ?_ ?_
    · simpa [populateHooks, header, PlanConfig.attrs, PlanConfig.Do, PlanConfig.Try,
        PlanConfig.Aggregate] using hhdr
    · simpa [populateHooks, located, PlanConfig.attrs, PlanConfig.Do, PlanConfig.Try,
        PlanConfig.Aggregate] using hloc
    · simpa [populateHooks, ownIds] using hown
  have hhooks := populated_append
    (populated_append hf.2 (populated_mono hs.2 (by omega) (Nat.le_refl _)) (by omega) (by omega))
    (populated_mono he.2 (by omega) (Nat.le_refl _)) (by omega) (by omega)
  have hall := populated_append (populated_append htop hD hm.1 hm.2) hhooks (by omega) (by omega)
  simp only [stepsSeq_append, List.append_assoc, List.singleton_append, List.cons_append]
    at hall
  rw [hidc]
  exact populated_mono hall (Nat.le_refl _) (by omega)


/-- What `populatePlanLocations` achieves on every step tree whose steps are each of
exactly one kind: it returns the number of ids the tree uses up, changes nothing but
locations, gives every get, put and task step a location, and the ids of the tree
strictly increase in pre-order within `[n, n + N)`. -/
theorem populatePlanLocations_populatesWell : ∀ pc : PlanConfig, PopulatesWell pc := by
  apply PlanConfig.induct
  intro pc ih
  cases pc with
  | mk a d ag t s f e =>
  intro loc hk
  have hk0 : (PlanConfig.mk a d ag t s f e).kindCount = 1 :=
    hk _ (by rw [steps_eq]; exact List.mem_cons_self _ _)
  have hkk : ∀ st ∈ stepsSeq (kids (PlanConfig.mk a d ag t s f e)), st.kindCount = 1 :=
    fun st hst => hk st (by rw [steps_eq]; exact List.mem_cons_of_mem _ hst)
  have hkids : kids (PlanConfig.mk a d ag t s f e)
      = (d.getD [] ++ t.toList ++ ag.getD []) ++ (f.toList ++ s.toList ++ e.toList) := by
    simp [kids]
  rw [hkids] at ih hkk
  have hPh : ∀ c ∈ f.toList ++ s.toList ++ e.toList, PopulatesWell c :=
    fun c hc => ih c (List.mem_append_right _ hc)
  have hkh : ∀ st ∈ stepsSeq (f.toList ++ s.toList ++ e.toList), st.kindCount = 1 :=
    fun st hst => hkk st (by rw [stepsSeq_append]; exact List.mem_append_right _ hst)
  have hPd : ∀ c ∈ d.getD [] ++ t.toList ++ ag.getD [], PopulatesWell c :=
    fun c hc => ih c (List.mem_append_left _ hc)
  have hkd : ∀ st ∈ stepsSeq (d.getD [] ++ t.toList ++ ag.getD []), st.kindCount = 1 :=
    fun st hst => hkk st (by rw [stepsSeq_append]; exact List.mem_append_left _ hst)
  rcases kindCount_cases a d ag t s f e hk0 with
    ⟨hput, rfl, rfl, rfl, _, _⟩ | ⟨hput, ⟨cs, rfl⟩, rfl, rfl, _, _⟩
    | ⟨hput, rfl, ⟨c, rfl⟩, rfl, hget, htask⟩ | ⟨hput, rfl, rfl, ⟨cs, rfl⟩, hget, htask⟩
    | ⟨hput, rfl, rfl, rfl, hgt⟩
  · rw [populatePlanLocations_put _ _ _ _ _ _ _ _ hput]
    refine populateHooks_assemble a none none none s f e _ loc.ID (loc.ID + 2)
      ?_ ?_ ?_ ?_ ?_ ?_ hPh hkh
    · simp [header, PlanConfig.attrs, PlanConfig.Do, PlanConfig.Try, PlanConfig.Aggregate]
    · simp [located, PlanConfig.attrs]
    · simp [ownIds, hput, IdsWithin]
    · simp
    · simpa [stepsSeq] using populated_nil _ _
    · simp [ownCount, hput, PlanConfig.attrs]
  · have hc := populateChildren_populated (doChildLocation loc) (loc.ID + 1)
      (fun c sc => by simp [doChildLocation]; omega) cs 1
      (fun c hc => hPd c (by simp [hc])) (fun st hst => hkd st (by simpa using hst))
    rw [populatePlanLocations_do _ _ _ _ _ _ _ _ hput]
    refine populateHooks_assemble a (some cs) none none s f e _ loc.ID (loc.ID + 2)
      ?_ ?_ ?_ ?_ ?_ ?_ hPh hkh
    · simp [header, PlanConfig.attrs, PlanConfig.Do, PlanConfig.Try, PlanConfig.Aggregate]
    · simp [located, PlanConfig.Do]
    · simp [ownIds, IdsWithin]
    · simp [hc.1]
    · simp only [Option.getD_some, Option.toList_none, Option.getD_none, List.append_nil, hc.1]
      exact populated_mono hc.2 (by omega) (by omega)
    · simp [ownCount, PlanConfig.Do, hc.1]; omega
  · have hc := hPd c (by simp) (tryChildLocation loc) (fun st hst => hkd st (by simp [stepsSeq, hst]))
    rw [populatePlanLocations_try _ _ _ _ _ _ _ hput]
    refine populateHooks_assemble a none none (some c) s f e _ loc.ID (loc.ID + 1)
      ?_ ?_ ?_ ?_ ?_ ?_ hPh hkh
    · simp [header, PlanConfig.attrs, PlanConfig.Do, PlanConfig.Try, PlanConfig.Aggregate]
    · simp [located, PlanConfig.Try]
    · simp [ownIds, IdsWithin, hput, hget, htask]
    · simp
    · simp only [Option.getD_some, Option.toList_none, Option.getD_none, List.append_nil, hc.1]
      have h2 := hc.2
      simp [tryChildLocation] at h2
      simpa [stepsSeq] using populated_mono h2 (by omega) (by omega)
    · simp [ownCount, PlanConfig.Do, hc.1, hput, PlanConfig.attrs, PlanConfig.Aggregate]; omega
  · have hc := populateChildren_populated (aggregateChildLocation loc) (loc.ID + 1)
      (fun c sc => by simp [aggregateChildLocation]; omega) cs 1
      (fun c hc => hPd c (by simp [hc])) (fun st hst => hkd st (by simpa using hst))
    rw [populatePlanLocations_aggregate _ _ _ _ _ _ hput]
    refine populateHooks_assemble a none (some cs) none s f e _ loc.ID (loc.ID + 2)
      ?_ ?_ ?_ ?_ ?_ ?_ hPh hkh
    · simp [header, PlanConfig.attrs, PlanConfig.Do, PlanConfig.Try, PlanConfig.Aggregate]
    · simp [located, PlanConfig.Aggregate]
    · simp [ownIds, IdsWithin, hput, hget, htask]
    · simp [hc.1]
    · simp only [Option.getD_some, Option.toList_none, Option.getD_none, List.append_nil,
        List.nil_append, hc.1]
      exact populated_mono hc.2 (by omega) (by omega)
    · simp [ownCount, PlanConfig.Aggregate, hc.1]; omega
  · rw [populatePlanLocations_default _ _ _ _ _ hput]
    refine populateHooks_assemble a none none none s f e _ loc.ID (loc.ID + 1)
      ?_ ?_ ?_ ?_ ?_ ?_ hPh hkh
    · simp [header, PlanConfig.attrs, PlanConfig.Do, PlanConfig.Try, PlanConfig.Aggregate]
    · simp [located, PlanConfig.attrs]
    · have h2 : ¬a.Get = "" ∨ ¬a.Task = "" := hgt
      simp [ownIds, hput, IdsWithin, h2]
    · simp
    · simpa [stepsSeq] using populated_nil _ _
    · simp [ownCount, hput, PlanConfig.attrs, PlanConfig.Do, PlanConfig.Aggregate]

/-! ## Location numbering in machine arithmetic -/


/-- A sum below `2 ^ bits` does not wrap. -/
theorem uint.add_eq {bits x y : Nat} (h : x + y < 2 ^ bits) : uint.add bits x y = x + y :=
  Nat.mod_eq_of_lt h

/-- A hook block does not lower the running count. -/
theorem populateHook_le (h : Option PlanConfig) (id sc pid : Nat) (name : String) :
    sc ≤ (populateHook h id sc pid name).2 := by
  cases h with
  | none => rw [populateHook_none]
  | some c => rw [populateHook_some]; exact Nat.le_add_right _ _

/-- The children loop does not lower the running count. -/
theorem populateChildren_le (cl : PlanConfig → Nat → Location) :
    ∀ (children : PlanSequence) (sc : Nat), sc ≤ (populateChildren cl children sc).2 := by
  intro children
  induction children with
  | nil => intro sc; rw [populateChildren_nil]
  | cons c rest ih =>
      intro sc
      rw [populateChildren_cons]
      exact le_trans (Nat.le_add_right _ _) (ih _)

/-- The count returned is above the count the `switch` left behind. -/
theorem populateHooks_le (sw : Switched) (s f e : Option PlanConfig) (id : Nat) :
    sw.stepCount + 1 ≤ (populateHooks sw s f e id).2 := by
  have h1 := populateHook_le f id sw.stepCount sw.parentID "failure"
  have h2 := populateHook_le s id (populateHook f id sw.stepCount sw.parentID "failure").2
    sw.parentID "success"
  have h3 := populateHook_le e id
    (populateHook s id (populateHook f id sw.stepCount sw.parentID "failure").2
      sw.parentID "success").2 sw.parentID "ensure"
  simp only [populateHooks]
  omega

/-- A hook block in machine arithmetic is the hook block in unbounded arithmetic when
the ids of the hook stay below `2 ^ bits`. -/
theorem populateHook_uint_eq (bits : Nat) (h : Option PlanConfig)
    (ih : ∀ c, h = some c → ∀ loc : Location, uint.Fits bits c loc →
      uint.populatePlanLocations bits c loc = populatePlanLocations c loc)
    (id sc pid : Nat) (name : String)
    (hfit : id + (populateHook h id sc pid name).2 + 1 < 2 ^ bits) :
    uint.populateHook bits h id sc pid name = populateHook h id sc pid name := by
  cases h with
  | none => rw [uint.populateHook.eq_def, populateHook_none]
  | some c =>
      rw [populateHook_some] at hfit
      simp only at hfit
      have e1 : uint.add bits (uint.add bits id sc) 1 = id + sc + 1 := by
        rw [uint.add_eq (show id + sc < 2 ^ bits by omega), uint.add_eq (by omega)]
      have e2 := ih c rfl ⟨id + sc + 1, pid, 0, 0, name⟩ (by unfold uint.Fits; simp only; omega)
      rw [uint.populateHook.eq_def, populateHook_some]
      simp only [e1, e2]
      rw [uint.add_eq (by omega)]

/-- The three hook blocks in machine arithmetic. -/
theorem populateHooks_uint_eq (bits : Nat) (sw : Switched) (s f e : Option PlanConfig)
    (ih : ∀ c, (f = some c ∨ s = some c ∨ e = some c) → ∀ loc : Location,
      uint.Fits bits c loc →
      uint.populatePlanLocations bits c loc = populatePlanLocations c loc)
    (id : Nat) (hfit : id + (populateHooks sw s f e id).2 < 2 ^ bits) :
    uint.populateHooks bits sw s f e id = populateHooks sw s f e id := by
  have h1 := populateHook_le f id sw.stepCount sw.parentID "failure"
  have h2 := populateHook_le s id (populateHook f id sw.stepCount sw.parentID "failure").2
    sw.parentID "success"
  have h3 := populateHook_le e id
    (populateHook s id (populateHook f id sw.stepCount sw.parentID "failure").2
      sw.parentID "success").2 sw.parentID "ensure"
  simp only [populateHooks] at hfit
  have ef := populateHook_uint_eq bits f (fun c hc => ih c (Or.inl hc)) id sw.stepCount
    sw.parentID "failure" (by omega)
  have es := populateHook_uint_eq bits s (fun c hc => ih c (Or.inr (Or.inl hc))) id
    (populateHook f id sw.stepCount sw.parentID "failure").2 sw.parentID "success" (by omega)
  have ee := populateHook_uint_eq bits e (fun c hc => ih c (Or.inr (Or.inr hc))) id
    (populateHook s id (populateHook f id sw.stepCount sw.parentID "failure").2
      sw.parentID "success").2 sw.parentID "ensure" (by omega)
  simp only [uint.populateHooks, populateHooks, ef, es, ee]
  rw [uint.add_eq (by omega)]

/-- The children loop in machine arithmetic is the loop in unbounded arithmetic when
the ids of the children stay below `2 ^ bits`. -/
theorem populateChildren_uint_eq (bits : Nat) (cl clw : PlanConfig → Nat → Location)
    (base : Nat) (hid : ∀ c k, (cl c k).ID = base + k + 1)
    (hcl : ∀ c k, base + k + 1 < 2 ^ bits → clw c k = cl c k) :
    ∀ (children : PlanSequence),
      (∀ c ∈ children, ∀ loc : Location, uint.Fits bits c loc →
        uint.populatePlanLocations bits c loc = populatePlanLocations c loc) →
      ∀ sc : Nat, base + (populateChildren cl children sc).2 + 1 < 2 ^ bits →
        uint.populateChildren bits clw children sc = populateChildren cl children sc := by
  intro children
  induction children with
  | nil =>
      intro _ sc _
      rw [uint.populateChildren.eq_def, populateChildren_nil]
  | cons c rest ihrest =>
      intro ih sc hfit
      rw [populateChildren_cons] at hfit
      simp only at hfit
      have hle := populateChildren_le cl rest (sc + (populatePlanLocations c (cl c sc)).2)
      have e1 := hcl c sc (by omega)
      have e2 := ih c (List.mem_cons_self _ _) (cl c sc)
        (by unfold uint.Fits; rw [hid]; omega)
      have e3 := ihrest (fun x hx => ih x (List.mem_cons_of_mem _ hx))
        (sc + (populatePlanLocations c (cl c sc)).2) hfit
      rw [uint.populateChildren.eq_def, populateChildren_cons]
      simp only [e1, e2]
      rw [uint.add_eq (by omega), e3]

/-- The `Put` case in machine arithmetic. -/
theorem populatePlanLocations_uint_put (bits : Nat) (a : StepAttrs)
    (d ag : Option PlanSequence) (t s f e : Option PlanConfig) (loc : Location)
    (h : a.Put ≠ "") :
    uint.populatePlanLocations bits (PlanConfig.mk a d ag t s f e) loc
      = uint.populateHooks bits
          ⟨{ a with Location := some loc }, d, ag, t, uint.add bits 0 1, loc.ID⟩ s f e
          loc.ID := by
  rw [uint.populatePlanLocations.eq_def]
  simp [h, uint.populateHooks]

/-- The location literal of the `Do` loop in machine arithmetic, after the update of
`ParentID`. -/
theorem doChildLocation_uint_eq (bits : Nat) (loc : Location) :
    (fun (child : PlanConfig) (stepCount : Nat) =>
      ({ ID := uint.add bits (uint.add bits
              (if loc.SerialGroup ≠ 0 then { loc with ParentID := loc.SerialGroup }
                else loc).ID stepCount) 1
         ParentID :=
           (if loc.SerialGroup ≠ 0 then { loc with ParentID := loc.SerialGroup } else loc).ParentID
         ParallelGroup :=
           (if loc.SerialGroup ≠ 0 then { loc with ParentID := loc.SerialGroup }
             else loc).ParallelGroup
         SerialGroup := uint.add bits loc.ID 1
         Hook := if child.Do.isNone then
           (if loc.SerialGroup ≠ 0 then { loc with ParentID := loc.SerialGroup } else loc).Hook
           else "" } : Location)) = uint.doChildLocation bits loc := by
  funext child stepCount
  by_cases hs : loc.SerialGroup = 0 <;> simp [uint.doChildLocation, hs]

/-- The location literal of the `Aggregate` loop in machine arithmetic, after the update
of `ParentID`. -/
theorem aggregateChildLocation_uint_eq (bits : Nat) (loc : Location) :
    (fun (child : PlanConfig) (stepCount : Nat) =>
      ({ ID := uint.add bits (uint.add bits
              (if loc.ParallelGroup ≠ 0 then { loc with ParentID := loc.ParallelGroup }
                else loc).ID stepCount) 1
         ParentID :=
           (if loc.ParallelGroup ≠ 0 then { loc with ParentID := loc.ParallelGroup }
             else loc).ParentID
         ParallelGroup := uint.add bits loc.ID 1
         SerialGroup :=
           (if loc.ParallelGroup ≠ 0 then { loc with ParentID := loc.ParallelGroup }
             else loc).SerialGroup
         Hook := if child.Aggregate.isNone && child.Do.isNone then
           (if loc.ParallelGroup ≠ 0 then { loc with ParentID := loc.ParallelGroup }
             else loc).Hook
           else "" } : Location)) = uint.aggregateChildLocation bits loc := by
  funext child stepCount
  by_cases hs : loc.ParallelGroup = 0 <;> simp [uint.aggregateChildLocation, hs]

/-- The `Do` case in machine arithmetic. -/
theorem populatePlanLocations_uint_do (bits : Nat) (a : StepAttrs) (children : PlanSequence)
    (ag : Option PlanSequence) (t s f e : Option PlanConfig) (loc : Location)
    (h : a.Put = "") :
    uint.populatePlanLocations bits (PlanConfig.mk a (some children) ag t s f e) loc
      = uint.populateHooks bits
          ⟨a, some (uint.populateChildren bits (uint.doChildLocation bits loc) children
              (uint.add bits 0 1)).1, ag, t,
            (uint.populateChildren bits (uint.doChildLocation bits loc) children
              (uint.add bits 0 1)).2, uint.add bits loc.ID 1⟩ s f e loc.ID := by
  rw [uint.populatePlanLocations.eq_def, ← doChildLocation_uint_eq]
  simp [h, uint.populateHooks]

/-- The `Try` case in machine arithmetic. -/
theorem populatePlanLocations_uint_try (bits : Nat) (a : StepAttrs) (child : PlanConfig)
    (ag : Option PlanSequence) (s f e : Option PlanConfig) (loc : Location)
    (h : a.Put = "") :
    uint.populatePlanLocations bits (PlanConfig.mk a none ag (some child) s f e) loc
      = uint.populateHooks bits
          ⟨a, none, ag,
            some (uint.populatePlanLocations bits child (uint.tryChildLocation bits loc)).1,
            uint.add bits 0
              (uint.populatePlanLocations bits child (uint.tryChildLocation bits loc)).2,
            loc.ID⟩ s f e loc.ID := by
  rw [uint.populatePlanLocations.eq_def]
  simp [h, uint.populateHooks, uint.tryChildLocation]

/-- The `Aggregate` case in machine arithmetic. -/
theorem populatePlanLocations_uint_aggregate (bits : Nat) (a : StepAttrs)
    (children : PlanSequence) (s f e : Option PlanConfig) (loc : Location)
    (h : a.Put = "") :
    uint.populatePlanLocations bits (PlanConfig.mk a none (some children) none s f e) loc
      = uint.populateHooks bits
          ⟨a, none,
            some (uint.populateChildren bits (uint.aggregateChildLocation bits loc) children
              (uint.add bits 0 1)).1, none,
            (uint.populateChildren bits (uint.aggregateChildLocation bits loc) children
              (uint.add bits 0 1)).2, uint.add bits loc.ID 1⟩ s f e loc.ID := by
  rw [uint.populatePlanLocations.eq_def, ← aggregateChildLocation_uint_eq]
  simp [h, uint.populateHooks]

/-- The default case in machine arithmetic. -/
theorem populatePlanLocations_uint_default (bits : Nat) (a : StepAttrs)
    (s f e : Option PlanConfig) (loc : Location) (h : a.Put = "") :
    uint.populatePlanLocations bits (PlanConfig.mk a none none none s f e) loc
      = uint.populateHooks bits
          ⟨{ a with Location := some loc }, none, none, none, 0, loc.ID⟩ s f e loc.ID := by
  rw [uint.populatePlanLocations.eq_def]
  simp [h, uint.populateHooks]

/-- Numbering in machine arithmetic is numbering in unbounded arithmetic for a tree
whose numbering fits in the machine word. -/
theorem populatePlanLocations_uint_eq (bits : Nat) :
    ∀ (pc : PlanConfig) (loc : Location), uint.Fits bits pc loc →
      uint.populatePlanLocations bits pc loc = populatePlanLocations pc loc := by
  refine PlanConfig.induct ?_
  intro pc ih loc hfit
  cases pc with
  | mk a d ag t s f e =>
  unfold uint.Fits at hfit
  have ihh : ∀ c, (f = some c ∨ s = some c ∨ e = some c) → ∀ loc : Location,
      uint.Fits bits c loc →
      uint.populatePlanLocations bits c loc = populatePlanLocations c loc :=
    fun c hc => ih c (by rcases hc with h | h | h <;> simp [kids, h])
  by_cases hput : a.Put = ""
  · cases d with
    | some children =>
        rw [populatePlanLocations_do _ _ _ _ _ _ _ _ hput] at hfit ⊢
        rw [populatePlanLocations_uint_do _ _ _ _ _ _ _ _ _ hput]
        have hle := populateHooks_le
          ⟨a, some (populateChildren (doChildLocation loc) children 1).1, ag, t,
            (populateChildren (doChildLocation loc) children 1).2, loc.ID + 1⟩ s f e loc.ID
        simp only at hle
        have h1 := populateChildren_le (doChildLocation loc) children 1
        have hone : uint.add bits 0 1 = 1 := uint.add_eq (by omega)
        have hsg : uint.add bits loc.ID 1 = loc.ID + 1 := uint.add_eq (by omega)
        have hch := populateChildren_uint_eq bits (doChildLocation loc)
          (uint.doChildLocation bits loc) loc.ID (fun c k => rfl)
          (fun c k hk => by
            simp only [uint.doChildLocation, doChildLocation]
            rw [uint.add_eq (show loc.ID + k < 2 ^ bits by omega), uint.add_eq (by omega),
              uint.add_eq (show loc.ID + 1 < 2 ^ bits by omega)])
          children (fun c hc => ih c (by simp [kids, hc])) 1 (by omega)
        rw [hone, hsg, hch]
        exact populateHooks_uint_eq bits _ s f e ihh loc.ID hfit
    | none =>
      cases t with
      | some child =>
          rw [populatePlanLocations_try _ _ _ _ _ _ _ hput] at hfit ⊢
          rw [populatePlanLocations_uint_try _ _ _ _ _ _ _ _ hput]
          have hle := populateHooks_le
            ⟨a, none, ag, some (populatePlanLocations child (tryChildLocation loc)).1,
              (populatePlanLocations child (tryChildLocation loc)).2, loc.ID⟩ s f e loc.ID
          simp only at hle
          have htl : uint.tryChildLocation bits loc = tryChildLocation loc := by
            simp only [uint.tryChildLocation, tryChildLocation]
            rw [uint.add_eq (show loc.ID + 0 < 2 ^ bits by omega), uint.add_eq (by omega)]
          have hc := ih child (by simp [kids]) (tryChildLocation loc)
            (by
              have hid : (tryChildLocation loc).ID = loc.ID + 0 + 1 := rfl
              unfold uint.Fits
              rw [hid]
              omega)
          rw [htl, hc, uint.add_eq (by omega), Nat.zero_add]
          exact populateHooks_uint_eq bits _ s f e ihh loc.ID hfit
      | none =>
        cases ag with
        | some children =>
            rw [populatePlanLocations_aggregate _ _ _ _ _ _ hput] at hfit ⊢
            rw [populatePlanLocations_uint_aggregate _ _ _ _ _ _ _ hput]
            have hle := populateHooks_le
              ⟨a, none, some (populateChildren (aggregateChildLocation loc) children 1).1, none,
                (populateChildren (aggregateChildLocation loc) children 1).2, loc.ID + 1⟩
              s f e loc.ID
            simp only at hle
            have h1 := populateChildren_le (aggregateChildLocation loc) children 1
            have hone : uint.add bits 0 1 = 1 := uint.add_eq (by omega)
            have hsg : uint.add bits loc.ID 1 = loc.ID + 1 := uint.add_eq (by omega)
            have hch := populateChildren_uint_eq bits (aggregateChildLocation loc)
              (uint.aggregateChildLocation bits loc) loc.ID (fun c k => rfl)
              (fun c k hk => by
                simp only [uint.aggregateChildLocation, aggregateChildLocation]
                rw [uint.add_eq (show loc.ID + k < 2 ^ bits by omega), uint.add_eq (by omega),
                  uint.add_eq (show loc.ID + 1 < 2 ^ bits by omega)])
              children (fun c hc => ih c (by simp [kids, hc])) 1 (by omega)
            rw [hone, hsg, hch]
            exact populateHooks_uint_eq bits _ s f e ihh loc.ID hfit
        | none =>
            rw [populatePlanLocations_default _ _ _ _ _ hput] at hfit ⊢
            rw [populatePlanLocations_uint_default _ _ _ _ _ _ hput]
            exact populateHooks_uint_eq bits _ s f e ihh loc.ID hfit
  · rw [populatePlanLocations_put _ _ _ _ _ _ _ _ hput] at hfit ⊢
    rw [populatePlanLocations_uint_put _ _ _ _ _ _ _ _ _ hput]
    have hle := populateHooks_le
      ⟨{ a with Location := some loc }, d, ag, t, 1, loc.ID⟩ s f e loc.ID
    simp only at hle
    rw [uint.add_eq (show 0 + 1 < 2 ^ bits by omega)]
    exact populateHooks_uint_eq bits _ s f e ihh loc.ID hfit

/-- The loop of `populateLocations` in machine arithmetic is the loop in unbounded
arithmetic for a job plan whose numbering fits in the machine word. -/
theorem populateLocationsFrom_uint_eq (bits : Nat) :
    ∀ (l : PlanSequence) (sc : Nat), PlanSequence.wellKinded l →
      sc + (l.map idCount).sum < 2 ^ bits →
      uint.populateLocationsFrom bits l sc = populateLocationsFrom l sc := by
  intro l
  induction l with
  | nil => intro sc _ _; rfl
  | cons c rest ih =>
      intro sc hk hfit
      simp only [List.map_cons, List.sum_cons] at hfit
      have hc := populatePlanLocations_populatesWell c
        { ID := sc, ParentID := 0, ParallelGroup := 0 }
        (fun st hst => hk st (by simp [stepsSeq, hst]))
      have e1 := populatePlanLocations_uint_eq bits c
        { ID := sc, ParentID := 0, ParallelGroup := 0 }
        (by unfold uint.Fits; rw [hc.1]; simp only; omega)
      have e2 := ih (sc + c.idCount) (fun st hst => hk st (by simp [stepsSeq, hst]))
        (by omega)
      simp only [uint.populateLocationsFrom, populateLocationsFrom, e1, hc.1]
      rw [uint.add_eq (by omega), e2]

/-- Function `populateLocations` in machine arithmetic is `populateLocations` in
unbounded arithmetic for a job plan whose numbering fits in the machine word. -/
theorem populateLocations_uint_eq (bits : Nat) (l : PlanSequence)
    (hk : PlanSequence.wellKinded l) (hfit : 1 + (l.map idCount).sum < 2 ^ bits) :
    uint.populateLocations bits l = populateLocations l :=
  populateLocationsFrom_uint_eq bits l 1 hk hfit

/-- The bound on the numbering cannot be dropped: on a machine whose `uint` has 64 bits,
a task with a failure hook placed at the last id `2 ^ 64 - 1` has its hook placed at id
0, and a do step placed there has its serial group wrap to 0 and its child placed at
id 1. -/
theorem populatePlanLocations_uint_wraps :
    (uint.populatePlanLocations 64
        (PlanConfig.mk { Task := "unit" } none none none none (some (taskStep "alert")) none)
        { ID := 2 ^ 64 - 1 }).1.configIds = [2 ^ 64 - 1, 0]
    ∧ (uint.populatePlanLocations 64 (doStep [taskStep "unit"])
        { ID := 2 ^ 64 - 1 }).1.Do
        = some [PlanConfig.mk
            { Task := "unit", Location := some { ID := 1, SerialGroup := 0 } }
            none none none none none none] :=
  ⟨by decide, rfl⟩

/-! ## Plan construction: what a walk over the plan collects -/

/-- The nodes of a plan, unfolded once. -/
theorem Plan.nodes_mk (l : PlanLeaf) (ag : Option (List Plan)) (os ofl en : Option (Plan × Plan))
    (tr : Option Plan) (tm : Option (String × Plan)) :
    Plan.nodes (Plan.mk l ag os ofl en tr tm)
      = Plan.mk l ag os ofl en tr tm ::
        ((match ag with
          | some ps => Plan.nodesList ps
          | none => [])
        ++ (match ofl with
          | some (step, next) => Plan.nodes step ++ Plan.nodes next
          | none => [])
        ++ (match en with
          | some (step, next) => Plan.nodes step ++ Plan.nodes next
          | none => [])
        ++ (match tr with
          | some step => Plan.nodes step
          | none => [])
        ++ (match tm with
          | some (_, step) => Plan.nodes step
          | none => [])
        ++ (match os with
          | some (step, next) => Plan.nodes step ++ Plan.nodes next
          | none => [])) := by
  rw [Plan.nodes.eq_def]

/-- The nodes of a list of plans. -/
theorem Plan.nodesList_eq (ps : List Plan) : Plan.nodesList ps = ps.flatMap Plan.nodes := by
  induction ps with
  | nil => rw [Plan.nodesList.eq_def]; rfl
  | cons p ps ih => rw [Plan.nodesList.eq_def]; simp [ih]

/-- The comparison with `atc.Plan{}` holds of the empty plan only. -/
theorem Plan.isEmpty_iff (p : Plan) : p.isEmpty = true ↔ p = Plan.empty := by
  constructor
  · intro h
    cases p with
    | mk l ag os ofl en tr tm =>
      cases ag <;> cases os <;> cases ofl <;> cases en <;> cases tr <;> cases tm <;>
        simp [Plan.isEmpty] at h
      obtain ⟨a, b, c, d, e⟩ := l
      simp_all [Plan.empty]
  · rintro rfl
    rfl

section walk
variable {α : Type} {g : Plan → List α}

/-- A walk over the empty plan. -/
theorem Plan.flatMap_nodes_empty : (Plan.nodes Plan.empty).flatMap g = g Plan.empty := by
  simp [Plan.empty, Plan.nodes_mk]

/-- A walk over a leaf. -/
theorem Plan.flatMap_nodes_ofLeaf (l : PlanLeaf) :
    (Plan.nodes (Plan.ofLeaf l)).flatMap g = g (Plan.ofLeaf l) := by
  simp [Plan.ofLeaf, Plan.nodes_mk]

/-- A walk over an `OnSuccess` node. -/
theorem Plan.flatMap_nodes_onSuccess (p q : Plan) :
    (Plan.nodes (Plan.onSuccess p q)).flatMap g
      = g (Plan.onSuccess p q) ++ (Plan.nodes p).flatMap g ++ (Plan.nodes q).flatMap g := by
  simp [Plan.onSuccess, Plan.nodes_mk]

/-- A walk over an `OnFailure` node. -/
theorem Plan.flatMap_nodes_onFailure (p q : Plan) :
    (Plan.nodes (Plan.onFailure p q)).flatMap g
      = g (Plan.onFailure p q) ++ (Plan.nodes p).flatMap g ++ (Plan.nodes q).flatMap g := by
  simp [Plan.onFailure, Plan.nodes_mk]

/-- A walk over an `Ensure` node. -/
theorem Plan.flatMap_nodes_ensure (p q : Plan) :
    (Plan.nodes (Plan.ensure p q)).flatMap g
      = g (Plan.ensure p q) ++ (Plan.nodes p).flatMap g ++ (Plan.nodes q).flatMap g := by
  simp [Plan.ensure, Plan.nodes_mk]

/-- A walk over a `Try` node. -/
theorem Plan.flatMap_nodes_try (loc : Option ATC.Location) (p : Plan) :
    (Plan.nodes (Plan.try_ loc p)).flatMap g
      = g (Plan.try_ loc p) ++ (Plan.nodes p).flatMap g := by
  simp [Plan.try_, Plan.nodes_mk]

/-- A walk over a `Timeout` node. -/
theorem Plan.flatMap_nodes_timeout (d : String) (p : Plan) :
    (Plan.nodes (Plan.timeout d p)).flatMap g
      = g (Plan.timeout d p) ++ (Plan.nodes p).flatMap g := by
  simp [Plan.timeout, Plan.nodes_mk]

/-- A walk over an `Aggregate` node. -/
theorem Plan.flatMap_nodes_aggregate (loc : Option ATC.Location) (ps : List Plan) :
    (Plan.nodes (Plan.aggregate loc ps)).flatMap g
      = g (Plan.aggregate loc ps) ++ ps.flatMap (fun p => (Plan.nodes p).flatMap g) := by
  simp [Plan.aggregate, Plan.nodes_mk, Plan.nodesList_eq, List.flatMap_assoc]

/-- Setting the location of a node that is no leaf changes nothing in a walk. -/
theorem Plan.flatMap_nodes_setLocation (hg : Collects g) (p : Plan) (loc : Option ATC.Location)
    (h1 : p.leaf.Get = none) (h2 : p.leaf.Put = none) (h3 : p.leaf.DependentGet = none)
    (h4 : p.leaf.Task = none) :
    (Plan.nodes (p.setLocation loc)).flatMap g = (Plan.nodes p).flatMap g := by
  have h := hg.setLocation p loc h1 h2 h3 h4
  cases p with
  | mk l ag os ofl en tr tm =>
    simp only [Plan.setLocation] at h ⊢
    simp only [Plan.nodes_mk, List.flatMap_cons, h]

/-- Replacing the empty `Next` of an `OnSuccess` part by a plan appends the walk over
that plan. -/
theorem Plan.flatMap_nodes_setOnSuccessNext (hg : Collects g) (p r step next : Plan)
    (hr : r.leaf.DependentGet = none) (hos : p.OnSuccess = some (step, next))
    (hne : next.isEmpty = true) :
    (Plan.nodes (p.setOnSuccessNext r)).flatMap g
      = (Plan.nodes p).flatMap g ++ (Plan.nodes r).flatMap g := by
  rw [Plan.isEmpty_iff] at hne
  subst hne
  cases p with
  | mk l ag os ofl en tr tm =>
    simp only [Plan.OnSuccess] at hos
    subst hos
    simp only [Plan.setOnSuccessNext, Plan.nodes_mk, List.flatMap_cons, List.flatMap_append,
      hg.link l ag step ofl en tr tm r hr, Plan.flatMap_nodes_empty, hg.empty,
      List.append_nil, List.append_assoc]

end walk

section construct
variable (factory : BuildFactory) (resources : ResourceConfigs) (inputs : List BuildInput)

/-- The empty sequence compiles to the empty plan. -/
theorem constructPlanHookBasedPlan_nil :
    constructPlanHookBasedPlan factory resources inputs [] = Plan.empty := by
  rw [constructPlanHookBasedPlan.eq_def]

/-- A sequence of one step compiles to the plan of the step. -/
theorem constructPlanHookBasedPlan_single (c : PlanConfig) :
    constructPlanHookBasedPlan factory resources inputs [c]
      = constructPlanFromConfig factory resources inputs c true := by
  rw [constructPlanHookBasedPlan.eq_def]

/-- A sequence of two or more steps: the plan of the first step is linked to the plan of
the rest. -/
theorem constructPlanHookBasedPlan_cons_cons (c c2 : PlanConfig) (rest : PlanSequence) :
    constructPlanHookBasedPlan factory resources inputs (c :: c2 :: rest)
      = if (match (constructPlanFromConfig factory resources inputs c true).OnSuccess with
            | some (_, next) => next.isEmpty
            | none => false) then
          (constructPlanFromConfig factory resources inputs c true).setOnSuccessNext
            (constructPlanHookBasedPlan factory resources inputs (c2 :: rest))
        else
          Plan.onSuccess (constructPlanFromConfig factory resources inputs c true)
            (constructPlanHookBasedPlan factory resources inputs (c2 :: rest)) := by
  rw [constructPlanHookBasedPlan.eq_def]

/-- The `Aggregate` loop maps `constructPlanFromConfig` over the steps. -/
theorem constructAggregate_eq (cs : PlanSequence) (hh : Bool) :
    constructAggregate factory resources inputs cs hh
      = cs.map (fun c => constructPlanFromConfig factory resources inputs c hh) := by
  induction cs with
  | nil => rw [constructAggregate.eq_def]; rfl
  | cons c cs ih => rw [constructAggregate.eq_def]; simp [ih]

/-- The plan of a step is the plan of the step without timeout and hooks, under the
timeout, under the failure, success and ensure hooks. -/
theorem constructPlanFromConfig_eq (a : StepAttrs) (d ag : Option PlanSequence)
    (t s f e : Option PlanConfig) (hh : Bool) :
    constructPlanFromConfig factory resources inputs (PlanConfig.mk a d ag t s f e) hh
      = ensureIfPresent factory resources inputs e
          (successIfPresent factory resources inputs s
            (failureIfPresent factory resources inputs f
              (if a.Timeout ≠ "" then
                Plan.timeout a.Timeout
                  (constructPlanFromConfig factory resources inputs
                    (PlanConfig.mk { a with Timeout := "" } d ag t none none none) hh)
              else
                constructPlanFromConfig factory resources inputs
                  (PlanConfig.mk { a with Timeout := "" } d ag t none none none) hh)
              hh) hh) hh := by
  rw [constructPlanFromConfig.eq_def]
  conv_rhs => rw [constructPlanFromConfig.eq_def]
  simp only [failureIfPresent, successIfPresent, ensureIfPresent]
  simp [constructPut, constructGet, constructGetPlan, constructTask]

/-- The plan of a do step without timeout and hooks. -/
theorem constructPlanFromConfig_core_do (a : StepAttrs) (cs : PlanSequence)
    (ag : Option PlanSequence) (t : Option PlanConfig) :
    constructPlanFromConfig factory resources inputs
        (PlanConfig.mk { a with Timeout := "" } (some cs) ag t none none none) true
      = if (constructPlanHookBasedPlan factory resources inputs cs).Location.isNone then
          (constructPlanHookBasedPlan factory resources inputs cs).setLocation a.Location
        else constructPlanHookBasedPlan factory resources inputs cs := by
  rw [constructPlanFromConfig.eq_def]
  simp [failureIfPresent, successIfPresent, ensureIfPresent]

/-- The plan of a put step without timeout and hooks. -/
theorem constructPlanFromConfig_core_put (a : StepAttrs) (ag : Option PlanSequence)
    (t : Option PlanConfig) (hh : Bool) (h : a.Put ≠ "") :
    constructPlanFromConfig factory resources inputs
        (PlanConfig.mk { a with Timeout := "" } none ag t none none none) hh
      = constructPut factory resources a := by
  rw [constructPlanFromConfig.eq_def]
  simp [failureIfPresent, successIfPresent, ensureIfPresent, h, constructPut]

/-- The plan of a get step without timeout and hooks. -/
theorem constructPlanFromConfig_core_get (a : StepAttrs) (ag : Option PlanSequence)
    (t : Option PlanConfig) (hh : Bool) (h : a.Put = "") (hg : a.Get ≠ "") :
    constructPlanFromConfig factory resources inputs
        (PlanConfig.mk { a with Timeout := "" } none ag t none none none) hh
      = constructGet factory resources inputs a := by
  rw [constructPlanFromConfig.eq_def]
  simp [failureIfPresent, successIfPresent, ensureIfPresent, h, hg, constructGet,
    constructGetPlan]

/-- The plan of a task step without timeout and hooks. -/
theorem constructPlanFromConfig_core_task (a : StepAttrs) (ag : Option PlanSequence)
    (t : Option PlanConfig) (hh : Bool) (h : a.Put = "") (hg : a.Get = "")
    (ht : a.Task ≠ "") :
    constructPlanFromConfig factory resources inputs
        (PlanConfig.mk { a with Timeout := "" } none ag t none none none) hh
      = constructTask a := by
  rw [constructPlanFromConfig.eq_def]
  simp [failureIfPresent, successIfPresent, ensureIfPresent, h, hg, ht, constructTask]

/-- The plan of a try step without timeout and hooks. -/
theorem constructPlanFromConfig_core_try (a : StepAttrs) (ag : Option PlanSequence)
    (c : PlanConfig) (hh : Bool) (h : a.Put = "") (hg : a.Get = "") (ht : a.Task = "") :
    constructPlanFromConfig factory resources inputs
        (PlanConfig.mk { a with Timeout := "" } none ag (some c) none none none) hh
      = Plan.try_ a.Location (constructPlanFromConfig factory resources inputs c hh) := by
  rw [constructPlanFromConfig.eq_def]
  simp [failureIfPresent, successIfPresent, ensureIfPresent, h, hg, ht]

/-- The plan of an aggregate step without timeout and hooks. -/
theorem constructPlanFromConfig_core_aggregate (a : StepAttrs) (cs : PlanSequence)
    (hh : Bool) (h : a.Put = "") (hg : a.Get = "") (ht : a.Task = "") :
    constructPlanFromConfig factory resources inputs
        (PlanConfig.mk { a with Timeout := "" } none (some cs) none none none none) hh
      = Plan.aggregate a.Location
          (cs.map (fun c => constructPlanFromConfig factory resources inputs c hh)) := by
  rw [constructPlanFromConfig.eq_def]
  simp [failureIfPresent, successIfPresent, ensureIfPresent, h, hg, ht, constructAggregate_eq]

end construct

section builds
variable {α : Type} {g : Plan → List α}
variable (factory : BuildFactory) (resources : ResourceConfigs) (inputs : List BuildInput)

/-- A walk over the plans of the members of a sequence collects what it collects step by
step. -/
theorem flatMap_steps_of_buildsWell (cs : List PlanConfig)
    (hB : ∀ c ∈ cs, BuildsWell g factory resources inputs c)
    (hk : ∀ st ∈ stepsSeq cs, st.kindCount = 1) (hl : ∀ st ∈ stepsSeq cs, st.located) :
    cs.flatMap (fun c =>
        (Plan.nodes (constructPlanFromConfig factory resources inputs c true)).flatMap g)
      = (stepsSeq cs).flatMap (ownOf g factory resources inputs) := by
  induction cs with
  | nil => simp [stepsSeq]
  | cons c cs ih =>
      have hc := hB c (List.mem_cons_self _ _) (fun st hst => hk st (by simp [stepsSeq, hst]))
        (fun st hst => hl st (by simp [stepsSeq, hst]))
      have ih := ih (fun x hx => hB x (List.mem_cons_of_mem _ hx))
        (fun st hst => hk st (by simp [stepsSeq, hst]))
        (fun st hst => hl st (by simp [stepsSeq, hst]))
      simp [stepsSeq, hc.2, ih]

/-- A walk over the plan of a sequence collects what it collects step by step, and the
top node of that plan is fine. -/
theorem constructPlanHookBasedPlan_buildsWell (hg : Collects g) :
    ∀ cs : List PlanConfig, (∀ c ∈ cs, BuildsWell g factory resources inputs c) →
      (∀ st ∈ stepsSeq cs, st.kindCount = 1) → (∀ st ∈ stepsSeq cs, st.located) →
      (constructPlanHookBasedPlan factory resources inputs cs).topOK
        ∧ (Plan.nodes (constructPlanHookBasedPlan factory resources inputs cs)).flatMap g
            = (stepsSeq cs).flatMap (ownOf g factory resources inputs)
  | [], _, _, _ => by
      rw [constructPlanHookBasedPlan_nil]
      simp [Plan.topOK, Plan.empty, Plan.leaf, Plan.nodes_mk, stepsSeq]
      exact hg.empty
  | [c], hB, hk, hl => by
      have hc := hB c (List.mem_cons_self _ _) (fun st hst => hk st (by simp [stepsSeq, hst]))
        (fun st hst => hl st (by simp [stepsSeq, hst]))
      rw [constructPlanHookBasedPlan_single]
      simpa [stepsSeq] using hc
  | c :: c2 :: rest, hB, hk, hl => by
      have hc := hB c (List.mem_cons_self _ _) (fun st hst => hk st (by simp [stepsSeq, hst]))
        (fun st hst => hl st (by simp [stepsSeq, hst]))
      have ih := constructPlanHookBasedPlan_buildsWell hg (c2 :: rest)
        (fun x hx => hB x (List.mem_cons_of_mem _ hx))
        (fun st hst => hk st (by rw [stepsSeq]; exact List.mem_append_right _ hst))
        (fun st hst => hl st (by rw [stepsSeq]; exact List.mem_append_right _ hst))
      rw [constructPlanHookBasedPlan_cons_cons]
      rw [stepsSeq, List.flatMap_append, ← hc.2, ← ih.2]
      split
      · rename_i hcond
        cases hos : (constructPlanFromConfig factory resources inputs c true).OnSuccess with
        | none => simp [hos] at hcond
        | some sn =>
          obtain ⟨step, next⟩ := sn
          simp only [hos] at hcond
          refine ⟨?_, Plan.flatMap_nodes_setOnSuccessNext hg _ _ step next ih.1.2.1 hos hcond⟩
          have h1 := hc.1
          revert h1 hos
          cases constructPlanFromConfig factory resources inputs c true with
          | mk l ag os ofl en tr tm =>
            intro hos h1
            simp only [Plan.OnSuccess] at hos
            subst hos
            simpa [Plan.setOnSuccessNext, Plan.topOK, Plan.leaf] using h1
      · refine ⟨by simp [Plan.topOK, Plan.onSuccess, Plan.leaf], ?_⟩
        rw [Plan.flatMap_nodes_onSuccess, hg.onSuccess _ _ ih.1.2.1]
        simp

/-- A walk over a plan under its failure hook. -/
theorem failureIfPresent_buildsWell (hg : Collects g) (h : Option PlanConfig) (plan : Plan)
    (hp : plan.topOK) (hB : ∀ c ∈ h.toList, BuildsWell g factory resources inputs c)
    (hk : ∀ st ∈ stepsSeq h.toList, st.kindCount = 1)
    (hl : ∀ st ∈ stepsSeq h.toList, st.located) :
    (failureIfPresent factory resources inputs h plan true).topOK
      ∧ (Plan.nodes (failureIfPresent factory resources inputs h plan true)).flatMap g
          = (Plan.nodes plan).flatMap g
            ++ (stepsSeq h.toList).flatMap (ownOf g factory resources inputs) := by
  cases h with
  | none => simpa [failureIfPresent, stepsSeq] using hp
  | some c =>
      have hc := hB c (by simp) (fun st hst => hk st (by simp [stepsSeq, hst]))
        (fun st hst => hl st (by simp [stepsSeq, hst]))
      refine ⟨by simp [failureIfPresent, Plan.topOK, Plan.onFailure, Plan.leaf], ?_⟩
      simp [failureIfPresent, Plan.flatMap_nodes_onFailure, hg.onFailure, hc.2, stepsSeq]

/-- A walk over a plan under its success hook. -/
theorem successIfPresent_buildsWell (hg : Collects g) (h : Option PlanConfig) (plan : Plan)
    (hp : plan.topOK) (hB : ∀ c ∈ h.toList, BuildsWell g factory resources inputs c)
    (hk : ∀ st ∈ stepsSeq h.toList, st.kindCount = 1)
    (hl : ∀ st ∈ stepsSeq h.toList, st.located) :
    (successIfPresent factory resources inputs h plan true).topOK
      ∧ (Plan.nodes (successIfPresent factory resources inputs h plan true)).flatMap g
          = (Plan.nodes plan).flatMap g
            ++ (stepsSeq h.toList).flatMap (ownOf g factory resources inputs) := by
  cases h with
  | none => simpa [successIfPresent, stepsSeq] using hp
  | some c =>
      have hc := hB c (by simp) (fun st hst => hk st (by simp [stepsSeq, hst]))
        (fun st hst => hl st (by simp [stepsSeq, hst]))
      refine ⟨by simp [successIfPresent, Plan.topOK, Plan.onSuccess, Plan.leaf], ?_⟩
      simp [successIfPresent, Plan.flatMap_nodes_onSuccess, hg.onSuccess _ _ hc.1.2.1, hc.2,
        stepsSeq]

/-- A walk over a plan under its ensure hook. -/
theorem ensureIfPresent_buildsWell (hg : Collects g) (h : Option PlanConfig) (plan : Plan)
    (hp : plan.topOK) (hB : ∀ c ∈ h.toList, BuildsWell g factory resources inputs c)
    (hk : ∀ st ∈ stepsSeq h.toList, st.kindCount = 1)
    (hl : ∀ st ∈ stepsSeq h.toList, st.located) :
    (ensureIfPresent factory resources inputs h plan true).topOK
      ∧ (Plan.nodes (ensureIfPresent factory resources inputs h plan true)).flatMap g
          = (Plan.nodes plan).flatMap g
            ++ (stepsSeq h.toList).flatMap (ownOf g factory resources inputs) := by
  cases h with
  | none => simpa [ensureIfPresent, stepsSeq] using hp
  | some c =>
      have hc := hB c (by simp) (fun st hst => hk st (by simp [stepsSeq, hst]))
        (fun st hst => hl st (by simp [stepsSeq, hst]))
      refine ⟨by simp [ensureIfPresent, Plan.topOK, Plan.ensure, Plan.leaf], ?_⟩
      simp [ensureIfPresent, Plan.flatMap_nodes_ensure, hg.ensure, hc.2, stepsSeq]

end builds

/-- A walk over the plan built for a located step tree, every step of which is of exactly
one kind, collects, in the pre-order of the step tree, what it collects on the nodes
built for each single step. -/
theorem constructPlanFromConfig_buildsWell {α : Type} {g : Plan → List α} (hg : Collects g)
    (factory : BuildFactory) (resources : ResourceConfigs) (inputs : List BuildInput) :
    ∀ pc : PlanConfig, BuildsWell g factory resources inputs pc := by
  apply PlanConfig.induct
  intro pc ih
  cases pc with
  | mk a d ag t s f e =>
  intro hk hl
  have hk0 : (PlanConfig.mk a d ag t s f e).kindCount = 1 :=
    hk _ (by rw [steps_eq]; exact List.mem_cons_self _ _)
  have hl0 : (PlanConfig.mk a d ag t s f e).located :=
    hl _ (by rw [steps_eq]; exact List.mem_cons_self _ _)
  have hkids : kids (PlanConfig.mk a d ag t s f e)
      = (d.getD [] ++ t.toList ++ ag.getD []) ++ (f.toList ++ (s.toList ++ e.toList)) := by
    simp [kids]
  have hkk : ∀ st ∈ stepsSeq (kids (PlanConfig.mk a d ag t s f e)), st.kindCount = 1 :=
    fun st hst => hk st (by rw [steps_eq]; exact List.mem_cons_of_mem _ hst)
  have hll : ∀ st ∈ stepsSeq (kids (PlanConfig.mk a d ag t s f e)), st.located :=
    fun st hst => hl st (by rw [steps_eq]; exact List.mem_cons_of_mem _ hst)
  rw [steps_eq, hkids]
  rw [hkids] at ih hkk hll
  simp only [stepsSeq_append, List.mem_append] at hkk hll
  simp only [List.mem_append] at ih
  -- the node of the step itself
  have hcore : (constructPlanFromConfig factory resources inputs
        (PlanConfig.mk { a with Timeout := "" } d ag t none none none) true).topOK
      ∧ (Plan.nodes (constructPlanFromConfig factory resources inputs
          (PlanConfig.mk { a with Timeout := "" } d ag t none none none) true)).flatMap g
        = ownOf g factory resources inputs (PlanConfig.mk a d ag t s f e)
          ++ (stepsSeq (d.getD [] ++ t.toList ++ ag.getD [])).flatMap
              (ownOf g factory resources inputs) := by
    rcases kindCount_cases a d ag t s f e hk0 with
      ⟨hput, rfl, rfl, rfl, _, _⟩ | ⟨hput, ⟨cs, rfl⟩, rfl, rfl, _, _⟩
      | ⟨hput, rfl, ⟨c, rfl⟩, rfl, hget, htask⟩ | ⟨hput, rfl, rfl, ⟨cs, rfl⟩, hget, htask⟩
      | ⟨hput, rfl, rfl, rfl, hgt⟩
    · rw [constructPlanFromConfig_core_put _ _ _ _ _ _ _ hput]
      refine ⟨by simp [constructPut, Plan.topOK, Plan.onSuccess, Plan.leaf], ?_⟩
      simp [ownOf, hput, stepsSeq]
    · have hc := constructPlanHookBasedPlan_buildsWell factory resources inputs hg cs
        (fun c hc => ih c (Or.inl (by simp [hc])))
        (fun st hst => hkk st (Or.inl (by simp [stepsSeq, hst])))
        (fun st hst => hll st (Or.inl (by simp [stepsSeq, hst])))
      rw [constructPlanFromConfig_core_do]
      simp only [Option.getD_some, Option.toList_none, Option.getD_none, List.append_nil]
      have hown : ownOf g factory resources inputs (PlanConfig.mk a (some cs) none none s f e)
          = [] := by simp [ownOf]
      rw [hown, List.nil_append, ← hc.2]
      split
      · rename_i hnone
        have hnone' : (constructPlanHookBasedPlan factory resources inputs cs).leaf.Location
            = none := by simpa [Plan.Location] using hnone
        obtain ⟨h1, h2, h3⟩ := hc.1
        obtain ⟨h4, h5⟩ := h3 hnone'
        refine ⟨?_, Plan.flatMap_nodes_setLocation hg _ _ h4 h1 h2 h5⟩
        revert h1 h2 h4 h5
        cases constructPlanHookBasedPlan factory resources inputs cs with
        | mk l ag os ofl en tr tm =>
          intro h1 h2 h4 h5
          simp only [Plan.leaf] at h1 h2 h4 h5
          simp [Plan.setLocation, Plan.topOK, Plan.leaf, h1, h2, h4, h5]
      · exact ⟨hc.1, rfl⟩
    · have hc := ih c (Or.inl (by simp))
        (fun st hst => hkk st (Or.inl (by simp [stepsSeq, hst])))
        (fun st hst => hll st (Or.inl (by simp [stepsSeq, hst])))
      rw [constructPlanFromConfig_core_try _ _ _ _ _ _ _ hput hget htask]
      refine ⟨by simp [Plan.topOK, Plan.try_, Plan.leaf], ?_⟩
      simp [Plan.flatMap_nodes_try, hg.try_, hc.2, ownOf, hput, hget, htask, stepsSeq]
    · have hc := flatMap_steps_of_buildsWell factory resources inputs cs
        (fun c hc => ih c (Or.inl (by simp [hc])))
        (fun st hst => hkk st (Or.inl (by simp [stepsSeq, hst])))
        (fun st hst => hll st (Or.inl (by simp [stepsSeq, hst])))
      rw [constructPlanFromConfig_core_aggregate _ _ _ _ _ _ hput hget htask]
      refine ⟨by simp [Plan.topOK, Plan.aggregate, Plan.leaf], ?_⟩
      simp [Plan.flatMap_nodes_aggregate, hg.aggregate, List.flatMap_map, hc, ownOf, hput, hget,
        htask]
    · have hloc : a.Location.isSome = true := by
        simpa [located, PlanConfig.Do, PlanConfig.Try, PlanConfig.Aggregate, PlanConfig.attrs]
          using hl0
      by_cases hget : a.Get = ""
      · have htask : a.Task ≠ "" := by tauto
        rw [constructPlanFromConfig_core_task _ _ _ _ _ _ _ hput hget htask]
        refine ⟨?_, ?_⟩
        · cases hL : a.Location with
          | none => simp [hL] at hloc
          | some l => simp [constructTask, Plan.topOK, Plan.ofLeaf, Plan.leaf, hL]
        · simp [constructTask, Plan.flatMap_nodes_ofLeaf, ownOf, hput, hget, htask, stepsSeq]
      · rw [constructPlanFromConfig_core_get _ _ _ _ _ _ _ hput hget]
        refine ⟨?_, ?_⟩
        · cases hL : a.Location with
          | none => simp [hL] at hloc
          | some l => simp [constructGet, Plan.topOK, Plan.ofLeaf, Plan.leaf, hL]
        · simp [constructGet, Plan.flatMap_nodes_ofLeaf, ownOf, hput, hget, stepsSeq]
  -- the timeout around it
  have htime : (if a.Timeout ≠ "" then
        Plan.timeout a.Timeout (constructPlanFromConfig factory resources inputs
          (PlanConfig.mk { a with Timeout := "" } d ag t none none none) true)
      else constructPlanFromConfig factory resources inputs
          (PlanConfig.mk { a with Timeout := "" } d ag t none none none) true).topOK
      ∧ (Plan.nodes (if a.Timeout ≠ "" then
        Plan.timeout a.Timeout (constructPlanFromConfig factory resources inputs
          (PlanConfig.mk { a with Timeout := "" } d ag t none none none) true)
      else constructPlanFromConfig factory resources inputs
          (PlanConfig.mk { a with Timeout := "" } d ag t none none none) true)).flatMap g
        = ownOf g factory resources inputs (PlanConfig.mk a d ag t s f e)
          ++ (stepsSeq (d.getD [] ++ t.toList ++ ag.getD [])).flatMap
              (ownOf g factory resources inputs) := by
    split
    · refine ⟨by simp [Plan.topOK, Plan.timeout, Plan.leaf], ?_⟩
      rw [Plan.flatMap_nodes_timeout, hg.timeout, List.nil_append, hcore.2]
    · exact hcore
  -- the hooks around that
  have hf := failureIfPresent_buildsWell factory resources inputs hg f _ htime.1
    (fun c hc => ih c (Or.inr (Or.inl hc)))
    (fun st hst => hkk st (Or.inr (Or.inl hst)))
    (fun st hst => hll st (Or.inr (Or.inl hst)))
  have hs := successIfPresent_buildsWell factory resources inputs hg s _ hf.1
    (fun c hc => ih c (Or.inr (Or.inr (Or.inl hc))))
    (fun st hst => hkk st (Or.inr (Or.inr (Or.inl hst))))
    (fun st hst => hll st (Or.inr (Or.inr (Or.inl hst))))
  have he := ensureIfPresent_buildsWell factory resources inputs hg e _ hs.1
    (fun c hc => ih c (Or.inr (Or.inr (Or.inr hc))))
    (fun st hst => hkk st (Or.inr (Or.inr (Or.inr hst))))
    (fun st hst => hll st (Or.inr (Or.inr (Or.inr hst))))
  rw [constructPlanFromConfig_eq]
  refine ⟨he.1, ?_⟩
  rw [he.2, hs.2, hf.2, htime.2]
  simp only [stepsSeq_append, List.flatMap_cons, List.flatMap_append, List.append_assoc]

/-! ## Location ids of the plan `Create` returns -/

/-- The scalar fields of a node. -/
theorem Plan.leaf_mk (l : PlanLeaf) (ag : Option (List Plan)) (os ofl en : Option (Plan × Plan))
    (tr : Option Plan) (tm : Option (String × Plan)) :
    (Plan.mk l ag os ofl en tr tm).leaf = l := rfl

/-- Collecting the location ids of the leaves is a walk in the sense of `Collects`. -/
theorem collects_ownLocationIds : Collects Plan.ownLocationIds where
  empty := by simp [Plan.ownLocationIds, Plan.empty, Plan.leaf]
  onFailure := by intro p q; simp [Plan.ownLocationIds, Plan.onFailure, Plan.leaf]
  ensure := by intro p q; simp [Plan.ownLocationIds, Plan.ensure, Plan.leaf]
  try_ := by intro loc p; simp [Plan.ownLocationIds, Plan.try_, Plan.leaf]
  aggregate := by intro loc ps; simp [Plan.ownLocationIds, Plan.aggregate, Plan.leaf]
  timeout := by intro d p; simp [Plan.ownLocationIds, Plan.timeout, Plan.leaf]
  onSuccess := by intro p q _; simp [Plan.ownLocationIds, Plan.onSuccess, Plan.leaf]
  link := by intro l ag step ofl en tr tm r _; simp [Plan.ownLocationIds, Plan.leaf]
  setLocation := by
    intro p loc h1 h2 h3 h4
    cases p with
    | mk l ag os ofl en tr tm =>
      simp only [Plan.leaf] at h1 h2 h3 h4
      simp [Plan.ownLocationIds, Plan.setLocation, Plan.leaf, h1, h2, h3, h4]

/-- Collecting the put expansions is a walk in the sense of `Collects`. -/
theorem collects_putNodeOf : Collects (fun p : Plan => p.putNodeOf.toList) where
  empty := by simp [Plan.putNodeOf, Plan.empty, Plan.OnSuccess]
  onFailure := by intro p q; simp [Plan.putNodeOf, Plan.onFailure, Plan.OnSuccess]
  ensure := by intro p q; simp [Plan.putNodeOf, Plan.ensure, Plan.OnSuccess]
  try_ := by intro loc p; simp [Plan.putNodeOf, Plan.try_, Plan.OnSuccess]
  aggregate := by intro loc ps; simp [Plan.putNodeOf, Plan.aggregate, Plan.OnSuccess]
  timeout := by intro d p; simp [Plan.putNodeOf, Plan.timeout, Plan.OnSuccess]
  onSuccess := by
    intro p q hq
    simp only [Plan.putNodeOf, Plan.onSuccess, Plan.OnSuccess, hq]
    cases p.leaf.Put <;> rfl
  link := by
    intro l ag step ofl en tr tm r hr
    simp only [Plan.putNodeOf, Plan.OnSuccess, hr, Plan.empty, Plan.leaf_mk]
    cases step.leaf.Put <;> rfl
  setLocation := by
    intro p loc _ _ _ _
    cases p with
    | mk l ag os ofl en tr tm => simp [Plan.putNodeOf, Plan.setLocation, Plan.OnSuccess]

/-- The location ids on the nodes built for a single step are the ids its location gives. -/
theorem ownOf_ownLocationIds (factory : BuildFactory) (resources : ResourceConfigs)
    (inputs : List BuildInput) (st : PlanConfig) :
    ownOf Plan.ownLocationIds factory resources inputs st = st.ownIds := by
  cases st with
  | mk a d ag t s f e =>
    simp only [ownOf, ownIds]
    by_cases hd : d.isSome = true
    · simp [hd]
    · simp only [hd, if_false]
      by_cases hput : a.Put = ""
      · simp only [hput, ne_eq, not_true_eq_false, if_false]
        by_cases hget : a.Get = ""
        · by_cases htask : a.Task = ""
          · simp [hget, htask]
          · simp [hget, htask, constructTask, Plan.ownLocationIds, Plan.ofLeaf, Plan.leaf]
        · simp [hget, constructGet, Plan.ownLocationIds, Plan.ofLeaf, Plan.leaf]
      · simp only [hput, ne_eq, not_false_eq_true, if_true]
        cases hL : a.Location <;>
          simp [constructPut, hL, Plan.onSuccess, Plan.ofLeaf, Plan.nodes_mk,
            Plan.ownLocationIds, Plan.leaf]

/-- The loop of `populateLocations` is the children loop with its own location literal. -/
theorem populateLocationsFrom_eq (l : PlanSequence) (sc : Nat) :
    populateLocationsFrom l sc
      = (populateChildren (fun _ n => { ID := n, ParentID := 0, ParallelGroup := 0 }) l sc).1 := by
  induction l generalizing sc with
  | nil => simp [populateLocationsFrom, populateChildren_nil]
  | cons c rest ih => simp [populateLocationsFrom, populateChildren_cons, ih]

/-- The job plan is populated from id 1 on. -/
theorem populateLocations_populated (l : PlanSequence) (h : PlanSequence.wellKinded l) :
    Populated (stepsSeq l) (stepsSeq (populateLocations l)) 1 (1 + (l.map idCount).sum) := by
  have hc := populateChildren_populated
    (fun _ n => { ID := n, ParentID := 0, ParallelGroup := 0 }) 0 (fun c sc => by simp) l 1
    (fun c _ => populatePlanLocations_populatesWell c) h
  rw [populateLocations, populateLocationsFrom_eq]
  simpa using hc.2

/-- The number of kinds of a step depends on its header only. -/
theorem PlanConfig.kindCount_eq_of_header {st st' : PlanConfig} (h : st'.header = st.header) :
    st'.kindCount = st.kindCount := by
  cases st with
  | mk a d ag t s f e =>
  cases st' with
  | mk a' d' ag' t' s' f' e' =>
    simp only [header, PlanConfig.attrs, PlanConfig.Do, PlanConfig.Try, PlanConfig.Aggregate,
      Prod.mk.injEq] at h
    obtain ⟨h1, h2, h3, h4⟩ := h
    have hg : a'.Get = a.Get := by simpa using congrArg StepAttrs.Get h1
    have hp : a'.Put = a.Put := by simpa using congrArg StepAttrs.Put h1
    have ht : a'.Task = a.Task := by simpa using congrArg StepAttrs.Task h1
    simp only [kindCount, hg, hp, ht, h2, h3, h4]

/-- A populated plan keeps every step of exactly one kind. -/
theorem kindCount_of_populated {L L' : List PlanConfig} {lo hi : Nat}
    (h : Populated L L' lo hi) (hk : ∀ st ∈ L, st.kindCount = 1) :
    ∀ st ∈ L', st.kindCount = 1 := by
  intro st hst
  have : st.header ∈ L'.map header := List.mem_map_of_mem _ hst
  rw [h.1] at this
  obtain ⟨st0, hst0, he⟩ := List.mem_map.1 this
  rw [kindCount_eq_of_header he.symm]
  exact hk st0 hst0

/-- Without detected conditionals `Create` numbers the job plan and compiles it. -/
theorem Create_of_not_hasConditionals (factory : BuildFactory) (job : JobConfig)
    (resources : ResourceConfigs) (inputs : List BuildInput)
    (h : hasConditionals job.Plan = false) :
    Create factory job resources inputs
      = (constructPlanHookBasedPlan factory resources inputs (populateLocations job.Plan),
          none) := by
  simp [Create, h]

/-- A walk over the plan compiled from the numbered job plan. -/
theorem flatMap_nodes_populated {α : Type} {g : Plan → List α} (hg : Collects g)
    (factory : BuildFactory) (resources : ResourceConfigs) (inputs : List BuildInput)
    (l : PlanSequence) (h : PlanSequence.wellKinded l) :
    (Plan.nodes (constructPlanHookBasedPlan factory resources inputs
        (populateLocations l))).flatMap g
      = (stepsSeq (populateLocations l)).flatMap (ownOf g factory resources inputs) := by
  have hp := populateLocations_populated l h
  exact (constructPlanHookBasedPlan_buildsWell factory resources inputs hg _
    (fun c _ => constructPlanFromConfig_buildsWell hg factory resources inputs c)
    (kindCount_of_populated hp h) hp.2.1).2

/-- The location ids of the plan `Create` returns strictly increase in pre-order, from 1
on and below one plus the ids the job plan uses up. -/
theorem idsWithin_Create (factory : BuildFactory) (job : JobConfig)
    (resources : ResourceConfigs) (inputs : List BuildInput)
    (h : PlanSequence.wellKinded job.Plan) :
    IdsWithin 1 (1 + (job.Plan.map idCount).sum)
      (Create factory job resources inputs).1.locationIds := by
  cases hc : hasConditionals job.Plan with
  | true =>
      rw [Create_of_hasConditionals _ _ _ _ hc]
      simp [Plan.locationIds, Plan.empty, Plan.nodes_mk, Plan.ownLocationIds, Plan.leaf_mk,
        IdsWithin]
  | false =>
      rw [Create_of_not_hasConditionals _ _ _ _ hc]
      simp only [Plan.locationIds]
      rw [flatMap_nodes_populated collects_ownLocationIds _ _ _ _ h]
      have hfun : ownOf Plan.ownLocationIds factory resources inputs = ownIds :=
        funext (ownOf_ownLocationIds factory resources inputs)
      rw [hfun]
      exact (populateLocations_populated _ h).2.2

/-- A strictly increasing list of `k` numbers within `[lo, lo + k)` holds all of them. -/
theorem mem_iff_of_pairwise_lt_of_length {l : List Nat} (lo : Nat)
    (hs : l.Pairwise (fun x y => x < y)) (hb : ∀ x ∈ l, lo ≤ x ∧ x < lo + l.length) :
    ∀ i, i ∈ l ↔ lo ≤ i ∧ i < lo + l.length := by
  have hnd : l.Nodup := hs.imp (fun h => Nat.ne_of_lt h)
  have hsub : l.toFinset ⊆ Finset.Ico lo (lo + l.length) := by
    intro x hx
    rw [List.mem_toFinset] at hx
    simpa using hb x hx
  have hcard : (Finset.Ico lo (lo + l.length)).card ≤ l.toFinset.card := by
    rw [List.toFinset_card_of_nodup hnd]
    simp
  have heq := Finset.eq_of_subset_of_card_le hsub hcard
  intro i
  rw [← List.mem_toFinset, heq]
  simp

/-- A sum over steps that depends on the headers only. -/
theorem sum_map_eq_of_map_header {L L' : List PlanConfig} (h : L'.map header = L.map header)
    (φ : PlanConfig → Nat) (ψ : StepAttrs × Bool × Bool × Bool → Nat)
    (hφ : ∀ st, φ st = ψ st.header) : (L'.map φ).sum = (L.map φ).sum := by
  have h1 : L'.map φ = (L'.map header).map ψ := by
    rw [List.map_map]; exact List.map_congr_left (fun st _ => hφ st)
  have h2 : L.map φ = (L.map header).map ψ := by
    rw [List.map_map]; exact List.map_congr_left (fun st _ => hφ st)
  rw [h1, h2, h]

/-- The ids a step uses up itself depend on its header only. -/
theorem PlanConfig.ownCount_eq_header (st : PlanConfig) :
    st.ownCount = (if st.header.1.Put ≠ "" ∨ st.header.2.1 = true ∨ st.header.2.2.2 = true
      then 2 else 1) := by
  simp [ownCount, header]

/-- The ids a step uses up itself are those of its own plan nodes and those it skips. -/
theorem PlanConfig.length_ownIds (st : PlanConfig) (hk : st.kindCount = 1) (hl : st.located) :
    st.ownIds.length
      + (if st.Do.isSome ∨ st.Aggregate.isSome then 2 else if st.Try.isSome then 1 else 0)
      = st.ownCount := by
  cases st with
  | mk a d ag t s f e =>
  rcases kindCount_cases a d ag t s f e hk with
    ⟨hput, rfl, rfl, rfl, _, _⟩ | ⟨hput, ⟨cs, rfl⟩, rfl, rfl, _, _⟩
    | ⟨hput, rfl, ⟨c, rfl⟩, rfl, hget, htask⟩ | ⟨hput, rfl, rfl, ⟨cs, rfl⟩, hget, htask⟩
    | ⟨hput, rfl, rfl, rfl, hgt⟩
  · cases hL : a.Location <;>
      simp [ownIds, ownCount, hput, hL, PlanConfig.Do, PlanConfig.Aggregate, PlanConfig.Try,
        PlanConfig.attrs]
  · simp [ownIds, ownCount, hput, PlanConfig.Do, PlanConfig.Aggregate, PlanConfig.Try,
      PlanConfig.attrs]
  · simp [ownIds, ownCount, hput, hget, htask, PlanConfig.Do, PlanConfig.Aggregate,
      PlanConfig.Try, PlanConfig.attrs]
  · simp [ownIds, ownCount, hput, hget, htask, PlanConfig.Do, PlanConfig.Aggregate,
      PlanConfig.Try, PlanConfig.attrs]
  · have hloc : a.Location.isSome = true := by
      simpa [located, PlanConfig.Do, PlanConfig.Try, PlanConfig.Aggregate, PlanConfig.attrs]
        using hl
    have h2 : ¬a.Get = "" ∨ ¬a.Task = "" := hgt
    cases hL : a.Location with
    | none => simp [hL] at hloc
    | some l =>
      simp [ownIds, ownCount, hput, h2, hL, PlanConfig.Do, PlanConfig.Aggregate, PlanConfig.Try,
        PlanConfig.attrs]

/-- The ids a job plan uses up are the ids of the plan nodes and the skipped ids. -/
theorem sum_idCount_eq (l : PlanSequence) (h : PlanSequence.wellKinded l) :
    (l.map idCount).sum
      = ((stepsSeq (populateLocations l)).flatMap ownIds).length + PlanSequence.skippedIds l := by
  have hp := populateLocations_populated l h
  have hk' := kindCount_of_populated hp h
  rw [← sum_ownCount_stepsSeq]
  rw [← sum_map_eq_of_map_header hp.1 ownCount
    (fun h => if h.1.Put ≠ "" ∨ h.2.1 = true ∨ h.2.2.2 = true then 2 else 1)
    ownCount_eq_header]
  have hskip : PlanSequence.skippedIds l
      = ((stepsSeq (populateLocations l)).map (fun st =>
          if st.Do.isSome ∨ st.Aggregate.isSome then 2 else if st.Try.isSome then 1 else 0)).sum := by
    rw [PlanSequence.skippedIds]
    exact (sum_map_eq_of_map_header hp.1 _
      (fun h => if h.2.1 = true ∨ h.2.2.2 = true then 2 else if h.2.2.1 = true then 1 else 0)
      (fun st => by simp [header])).symm
  rw [hskip, List.length_flatMap]
  generalize stepsSeq (populateLocations l) = L at hk' hp ⊢
  have hl := hp.2.1
  clear hp
  induction L with
  | nil => simp
  | cons st L ih =>
      have h1 := length_ownIds st (hk' st (List.mem_cons_self _ _)) (hl st (List.mem_cons_self _ _))
      have h2 := ih (fun x hx => hk' x (List.mem_cons_of_mem _ hx))
        (fun x hx => hl x (List.mem_cons_of_mem _ hx))
      simp only [List.map_cons, List.sum_cons, Function.comp_apply] at h2 ⊢
      omega

/-- C6: when every step is exactly one of get, put, task, try, aggregate, do, the location
ids carried by the get, put, dependent-get and task nodes of the plan that `Create`
returns strictly increase in pre-order, so they are pairwise distinct, and they start
from 1, the location id at which `populateLocations` places the first top-level step
(`Create` numbers with unbounded sums, which is what a `uint` of `bits` bits gives for
a job plan whose ids stay below `2 ^ bits`); and `populatePlanLocations`, in the
arithmetic of a `uint` of `bits` bits, called on a step tree with location id `n`
returns a count `N` such that the ids it assigns in that tree, which are the ids of the
plan nodes built from it, strictly increase in pre-order within `[n, n + N)`, provided
the numbering fits in the machine word (`n + N` is below `2 ^ bits`, so that no sum
wraps around).  Locations preset in the input play no part. -/
theorem locationIds_strictly_increasing (factory : BuildFactory) (job : JobConfig)
    (resources : ResourceConfigs) (inputs : List BuildInput) (pc : PlanConfig)
    (loc : Location) (bits : Nat) (hjob : PlanSequence.wellKinded job.Plan)
    (hpc : PlanSequence.wellKinded [pc]) (hfit : uint.Fits bits pc loc) :
    (Create factory job resources inputs).1.locationIds.Pairwise (fun x y => x < y)
    ∧ (Create factory job resources inputs).1.locationIds.Nodup
    ∧ (∀ i ∈ (Create factory job resources inputs).1.locationIds, 1 ≤ i)
    ∧ (∀ first rest, job.Plan = first :: rest →
        ∃ tail, populateLocations job.Plan
          = (populatePlanLocations first { ID := 1, ParentID := 0, ParallelGroup := 0 }).1
            :: tail)
    ∧ (1 + (job.Plan.map PlanConfig.idCount).sum < 2 ^ bits →
        uint.populateLocations bits job.Plan = populateLocations job.Plan)
    ∧ (uint.populatePlanLocations bits pc loc).1.configIds.Pairwise (fun x y => x < y)
    ∧ (∀ i ∈ (uint.populatePlanLocations bits pc loc).1.configIds,
        loc.ID ≤ i ∧ i < loc.ID + (uint.populatePlanLocations bits pc loc).2)
    ∧ loc.ID + (uint.populatePlanLocations bits pc loc).2 < 2 ^ bits
    ∧ (constructPlanFromConfig factory resources inputs
        (uint.populatePlanLocations bits pc loc).1 true).locationIds
          = (uint.populatePlanLocations bits pc loc).1.configIds := by
  have hall := idsWithin_Create factory job resources inputs hjob
  have hpc' : ∀ st ∈ steps pc, st.kindCount = 1 := fun st hst =>
    hpc st (by simp [stepsSeq, hst])
  have hp := populatePlanLocations_populatesWell pc loc hpc'
  have hfit' : loc.ID + (populatePlanLocations pc loc).2 < 2 ^ bits := hfit
  rw [populatePlanLocations_uint_eq bits pc loc hfit]
  refine ⟨hall.1, hall.1.imp (fun h => Nat.ne_of_lt h), fun i hi => (hall.2 i hi).1, ?_,
    populateLocations_uint_eq bits job.Plan hjob, hp.2.2.2.1, ?_, hfit', ?_⟩
  · intro first rest hj
    exact ⟨_, by rw [hj]; rfl⟩
  · intro i hi
    rw [hp.1]
    exact hp.2.2.2.2 i hi
  · have hb := constructPlanFromConfig_buildsWell collects_ownLocationIds factory resources
      inputs (populatePlanLocations pc loc).1 (kindCount_of_populated hp.2 hpc') hp.2.2.1
    have hfun : ownOf Plan.ownLocationIds factory resources inputs = ownIds :=
      funext (ownOf_ownLocationIds factory resources inputs)
    rw [Plan.locationIds, hb.2, hfun]
    rfl

/-- Witness of C6: a job of a task, a put with a failure hook, a do around a get and an
aggregate, and a try; the subtree is the do step, placed at location id 5 on a machine
whose `uint` has 64 bits. -/
theorem locationIds_strictly_increasing_witness :
    PlanSequence.wellKinded
        [taskStep "unit",
          PlanConfig.mk { Put := "image" } none none none none (some (taskStep "alert")) none,
          doStep [getStep "repo", aggregateStep [taskStep "lint", putStep "docs"]],
          tryStep (taskStep "smoke")]
    ∧ PlanSequence.wellKinded
        [doStep [getStep "repo", aggregateStep [taskStep "lint", putStep "docs"]]]
    ∧ uint.Fits 64 (doStep [getStep "repo", aggregateStep [taskStep "lint", putStep "docs"]])
        { ID := 5 }
    ∧ (Create ⟨"main"⟩
        { Plan := [taskStep "unit",
            PlanConfig.mk { Put := "image" } none none none none (some (taskStep "alert")) none,
            doStep [getStep "repo", aggregateStep [taskStep "lint", putStep "docs"]],
            tryStep (taskStep "smoke")] }
        noResources []).1.locationIds.Pairwise (fun x y => x < y)
    ∧ (uint.populatePlanLocations 64
        (doStep [getStep "repo", aggregateStep [taskStep "lint", putStep "docs"]])
        { ID := 5 }).1.configIds = [7, 10, 11, 12]
    ∧ ∀ i ∈ (uint.populatePlanLocations 64
        (doStep [getStep "repo", aggregateStep [taskStep "lint", putStep "docs"]])
        { ID := 5 }).1.configIds,
        5 ≤ i ∧ i < 5 + (uint.populatePlanLocations 64
          (doStep [getStep "repo", aggregateStep [taskStep "lint", putStep "docs"]])
          { ID := 5 }).2 :=
  have h1 : PlanSequence.wellKinded
      [taskStep "unit",
        PlanConfig.mk { Put := "image" } none none none none (some (taskStep "alert")) none,
        doStep [getStep "repo", aggregateStep [taskStep "lint", putStep "docs"]],
        tryStep (taskStep "smoke")] := by
    unfold PlanSequence.wellKinded
    decide
  have h2 : PlanSequence.wellKinded
      [doStep [getStep "repo", aggregateStep [taskStep "lint", putStep "docs"]]] := by
    unfold PlanSequence.wellKinded
    decide
  have h3 : uint.Fits 64
      (doStep [getStep "repo", aggregateStep [taskStep "lint", putStep "docs"]])
      { ID := 5 } := by
    unfold uint.Fits
    decide
  have h := locationIds_strictly_increasing ⟨"main"⟩
    { Plan := [taskStep "unit",
        PlanConfig.mk { Put := "image" } none none none none (some (taskStep "alert")) none,
        doStep [getStep "repo", aggregateStep [taskStep "lint", putStep "docs"]],
        tryStep (taskStep "smoke")] }
    noResources []
    (doStep [getStep "repo", aggregateStep [taskStep "lint", putStep "docs"]]) { ID := 5 } 64
    h1 h2 h3
  ⟨h1, h2, h3, h.1, by rfl, h.2.2.2.2.2.2.1⟩

/-- C7 (counterexample): the plan of the job `[do: [task unit]]` has one node with a
location and its id is 3, not 1: the do step and its serial group use up ids 1 and 2. -/
theorem locationIds_not_dense :
    (Create ⟨"main"⟩ { Plan := [doStep [taskStep "unit"]] } noResources []).1.locationIds = [3]
    ∧ ¬ ∀ i, i ∈ (Create ⟨"main"⟩ { Plan := [doStep [taskStep "unit"]] } noResources
          []).1.locationIds
        ↔ 1 ≤ i ∧ i ≤ (Create ⟨"main"⟩ { Plan := [doStep [taskStep "unit"]] } noResources
          []).1.locationIds.length := by
  have h : (Create ⟨"main"⟩ { Plan := [doStep [taskStep "unit"]] } noResources
      []).1.locationIds = [3] := by rfl
  refine ⟨h, ?_⟩
  rw [h]
  intro hall
  have := (hall 1).2 (by simp)
  simp at this

/-- C7 (amended): when every step is exactly one of get, put, task, try, aggregate, do, the
`k` location ids of the plan that `Create` returns are pairwise distinct and lie in
`{1, ..., k + s}`, where `s` counts two ids for every do and every aggregate step and
one for every try step of the job plan; so they are exactly `{1, ..., k}` when the job
plan has no do, aggregate or try step. -/
theorem locationIds_dense_up_to_skipped (factory : BuildFactory) (job : JobConfig)
    (resources : ResourceConfigs) (inputs : List BuildInput)
    (hjob : PlanSequence.wellKinded job.Plan) :
    (Create factory job resources inputs).1.locationIds.Nodup
    ∧ (∀ i ∈ (Create factory job resources inputs).1.locationIds,
        1 ≤ i ∧ i ≤ (Create factory job resources inputs).1.locationIds.length
          + PlanSequence.skippedIds job.Plan)
    ∧ (PlanSequence.skippedIds job.Plan = 0 →
        ∀ i, i ∈ (Create factory job resources inputs).1.locationIds
          ↔ 1 ≤ i ∧ i ≤ (Create factory job resources inputs).1.locationIds.length) := by
  have hall := idsWithin_Create factory job resources inputs hjob
  have hlen : ∀ i ∈ (Create factory job resources inputs).1.locationIds,
      1 ≤ i ∧ i ≤ (Create factory job resources inputs).1.locationIds.length
          + PlanSequence.skippedIds job.Plan := by
    cases hc : hasConditionals job.Plan with
    | true =>
        rw [Create_of_hasConditionals _ _ _ _ hc]
        simp [Plan.locationIds, Plan.empty, Plan.nodes_mk, Plan.ownLocationIds, Plan.leaf_mk]
    | false =>
        intro i hi
        have hb := hall.2 i hi
        rw [sum_idCount_eq _ hjob] at hb
        rw [Create_of_not_hasConditionals _ _ _ _ hc]
        simp only [Plan.locationIds]
        rw [flatMap_nodes_populated collects_ownLocationIds _ _ _ _ hjob]
        have hfun : ownOf Plan.ownLocationIds factory resources inputs = ownIds :=
          funext (ownOf_ownLocationIds factory resources inputs)
        rw [hfun]
        omega
  refine ⟨hall.1.imp (fun h => Nat.ne_of_lt h), hlen, ?_⟩
  intro hs i
  have := mem_iff_of_pairwise_lt_of_length 1 hall.1 (fun x hx => by
    have := hlen x hx
    omega) i
  rw [this]
  omega

/-- Witness of C7 (amended): a job of a task, a put with a failure hook and a get. -/
theorem locationIds_dense_up_to_skipped_witness :
    PlanSequence.wellKinded
        [taskStep "unit",
          PlanConfig.mk { Put := "image" } none none none none (some (taskStep "alert")) none,
          getStep "repo"]
    ∧ ∀ i, i ∈ (Create ⟨"main"⟩
          { Plan := [taskStep "unit",
              PlanConfig.mk { Put := "image" } none none none none (some (taskStep "alert"))
                none,
              getStep "repo"] }
          noResources []).1.locationIds
        ↔ 1 ≤ i ∧ i ≤ (Create ⟨"main"⟩
          { Plan := [taskStep "unit",
              PlanConfig.mk { Put := "image" } none none none none (some (taskStep "alert"))
                none,
              getStep "repo"] }
          noResources []).1.locationIds.length :=
  have h1 : PlanSequence.wellKinded
      [taskStep "unit",
        PlanConfig.mk { Put := "image" } none none none none (some (taskStep "alert")) none,
        getStep "repo"] := by
    unfold PlanSequence.wellKinded
    decide
  ⟨h1, (locationIds_dense_up_to_skipped ⟨"main"⟩
    { Plan := [taskStep "unit",
        PlanConfig.mk { Put := "image" } none none none none (some (taskStep "alert")) none,
        getStep "repo"] }
    noResources [] h1).2.2 (by decide)⟩

/-! ## Put expansion -/

/-- The loop body of `doesAnyStepMatch` finds nothing where the predicate holds of no step. -/
theorem doesAnyStepMatch_false (predicate : PlanConfig → Bool) :
    ∀ pc : PlanConfig, (∀ st ∈ steps pc, predicate st = false) →
      doesStepMatch predicate pc = false := by
  have hlist : ∀ l : List PlanConfig,
      (∀ c ∈ l, (∀ st ∈ steps c, predicate st = false) → doesStepMatch predicate c = false) →
      (∀ st ∈ stepsSeq l, predicate st = false) → doesAnyStepMatch predicate l = false := by
    intro l
    induction l with
    | nil => intro _ _; rw [doesAnyStepMatch.eq_def]
    | cons c rest ih =>
        intro hP hst
        rw [doesAnyStepMatch.eq_def]
        have h1 := hP c (List.mem_cons_self _ _) (fun st h => hst st (by simp [stepsSeq, h]))
        have h2 := ih (fun x hx => hP x (List.mem_cons_of_mem _ hx))
          (fun st h => hst st (by simp [stepsSeq, h]))
        simp [h1, h2]
  apply PlanConfig.induct
  intro pc ih hst
  cases pc with
  | mk a d ag t s f e =>
    rw [steps_eq] at hst
    have h0 := hst _ (List.mem_cons_self _ _)
    have hk : ∀ st ∈ stepsSeq (kids (PlanConfig.mk a d ag t s f e)), predicate st = false :=
      fun st h => hst st (List.mem_cons_of_mem _ h)
    rw [doesStepMatch.eq_def]
    have hag : ∀ l, ag = some l → doesAnyStepMatch predicate l = false := by
      rintro l rfl
      exact hlist l (fun c hc => ih c (by simp [kids, hc]))
        (fun st h => hk st (by simp [kids, stepsSeq_append, h]))
    have hd : ∀ l, d = some l → doesAnyStepMatch predicate l = false := by
      rintro l rfl
      exact hlist l (fun c hc => ih c (by simp [kids, hc]))
        (fun st h => hk st (by simp [kids, stepsSeq_append, h]))
    cases ag <;> cases d <;> simp [hag, hd, h0]

/-- A plan without conditions has no conditionals. -/
theorem hasConditionals_of_noConditions (l : PlanSequence) (h : PlanSequence.noConditions l) :
    hasConditionals l = false := by
  unfold hasConditionals
  induction l with
  | nil => rw [doesAnyStepMatch.eq_def]
  | cons c rest ih =>
      rw [doesAnyStepMatch.eq_def]
      have h1 := doesAnyStepMatch_false (fun step => step.attrs.Conditions.isSome) c
        (fun st hst => by simp [h st (by simp [stepsSeq, hst])])
      have h2 := ih (fun st hst => h st (by simp [stepsSeq, hst]))
      simp [h1, h2]

/-- Collecting one value for the members that pass a test is filtering and mapping. -/
theorem flatMap_ite_singleton {α β : Type} (L : List α) (p : α → Bool) (f : α → β) :
    L.flatMap (fun x => if p x = true then [f x] else []) = (L.filter p).map f := by
  induction L with
  | nil => rfl
  | cons x L ih =>
      by_cases hp : p x = true
      · simp [List.filter_cons, hp, ih]
      · simp [List.filter_cons, hp, ih]

/-- The put expansion built for a single step: none unless the step is a put, and then
one with the name and the resource of the put. -/
theorem ownOf_putNodeOf_names (factory : BuildFactory) (resources : ResourceConfigs)
    (inputs : List BuildInput) (st : PlanConfig) (hk : st.kindCount = 1) :
    (ownOf (fun p : Plan => p.putNodeOf.toList) factory resources inputs st).map
        (fun nd => (nd.put.Name, nd.put.Resource))
      = if st.header.1.Put ≠ "" then
          [(st.header.1.Put,
            if st.header.1.Resource = "" then st.header.1.Put else st.header.1.Resource)]
        else [] := by
  cases st with
  | mk a d ag t s f e =>
  rcases kindCount_cases a d ag t s f e hk with
    ⟨hput, rfl, rfl, rfl, _, _⟩ | ⟨hput, ⟨cs, rfl⟩, rfl, rfl, _, _⟩
    | ⟨hput, rfl, ⟨c, rfl⟩, rfl, hget, htask⟩ | ⟨hput, rfl, rfl, ⟨cs, rfl⟩, hget, htask⟩
    | ⟨hput, rfl, rfl, rfl, hgt⟩
  · simp [ownOf, hput, header, PlanConfig.attrs, constructPut, Plan.onSuccess, Plan.ofLeaf,
      Plan.nodes_mk, Plan.putNodeOf, Plan.OnSuccess, Plan.leaf_mk]
  · simp [ownOf, hput, header, PlanConfig.attrs]
  · simp [ownOf, hput, hget, htask, header, PlanConfig.attrs]
  · simp [ownOf, hput, hget, htask, header, PlanConfig.attrs]
  · by_cases hget : a.Get = ""
    · have htask : a.Task ≠ "" := by tauto
      simp [ownOf, hput, hget, htask, header, PlanConfig.attrs, constructTask, Plan.ofLeaf,
        Plan.putNodeOf, Plan.OnSuccess]
    · simp [ownOf, hput, hget, header, PlanConfig.attrs, constructGet, Plan.ofLeaf,
        Plan.putNodeOf, Plan.OnSuccess]

/-- The put expansion built for a located put step has the same name and resource on
both sides and consecutive ids. -/
theorem ownOf_putNodeOf_ids (factory : BuildFactory) (resources : ResourceConfigs)
    (inputs : List BuildInput) (st : PlanConfig) (hk : st.kindCount = 1) (hl : st.located) :
    ∀ nd ∈ ownOf (fun p : Plan => p.putNodeOf.toList) factory resources inputs st,
      nd.get.Name = nd.put.Name ∧ nd.get.Resource = nd.put.Resource
        ∧ ∃ l l', nd.putLocation = some l ∧ nd.getLocation = some l'
          ∧ l'.ID = l.ID + 1 ∧ l'.ParentID = l.ID := by
  cases st with
  | mk a d ag t s f e =>
  rcases kindCount_cases a d ag t s f e hk with
    ⟨hput, rfl, rfl, rfl, _, _⟩ | ⟨hput, ⟨cs, rfl⟩, rfl, rfl, _, _⟩
    | ⟨hput, rfl, ⟨c, rfl⟩, rfl, hget, htask⟩ | ⟨hput, rfl, rfl, ⟨cs, rfl⟩, hget, htask⟩
    | ⟨hput, rfl, rfl, rfl, hgt⟩
  · have hloc : a.Location.isSome = true := by
      simpa [located, PlanConfig.Do, PlanConfig.Try, PlanConfig.Aggregate, PlanConfig.attrs]
        using hl
    cases hL : a.Location with
    | none => simp [hL] at hloc
    | some l =>
      simp [ownOf, hput, constructPut, Plan.onSuccess, Plan.ofLeaf, Plan.nodes_mk,
        Plan.putNodeOf, Plan.OnSuccess, Plan.leaf_mk, hL]
  · simp [ownOf, hput]
  · simp [ownOf, hput, hget, htask]
  · simp [ownOf, hput, hget, htask]
  · by_cases hget : a.Get = ""
    · have htask : a.Task ≠ "" := by tauto
      simp [ownOf, hput, hget, htask, constructTask, Plan.ofLeaf, Plan.putNodeOf,
        Plan.OnSuccess]
    · simp [ownOf, hput, hget, constructGet, Plan.ofLeaf, Plan.putNodeOf, Plan.OnSuccess]

/-- C3: for a job plan without conditions in which every step is exactly one of get, put,
task, try, aggregate, do, `Create` returns a nil error and a plan whose nodes of the form
`OnSuccess{Step: Put, Next: DependentGet}` are, in pre-order, the put steps of the job
plan: one node for each put step, with the name and the resource of the put on both
sides, and in each node the dependent get has the location id of the put plus one and
the id of the put as its parent id. -/
theorem Create_put_expansion (factory : BuildFactory) (job : JobConfig)
    (resources : ResourceConfigs) (inputs : List BuildInput)
    (hc : PlanSequence.noConditions job.Plan) (hk : PlanSequence.wellKinded job.Plan) :
    (Create factory job resources inputs).2 = none
    ∧ (Create factory job resources inputs).1.putNodes.map
          (fun nd => (nd.put.Name, nd.put.Resource))
        = (PlanSequence.putSteps job.Plan).map (fun st => (st.attrs.Put, st.putResource))
    ∧ (Create factory job resources inputs).1.putNodes.length
        = (PlanSequence.putSteps job.Plan).length
    ∧ ∀ nd ∈ (Create factory job resources inputs).1.putNodes,
        nd.get.Name = nd.put.Name ∧ nd.get.Resource = nd.put.Resource
          ∧ ∃ l l', nd.putLocation = some l ∧ nd.getLocation = some l'
            ∧ l'.ID = l.ID + 1 ∧ l'.ParentID = l.ID := by
  have hcond := hasConditionals_of_noConditions _ hc
  have hp := populateLocations_populated job.Plan hk
  have hk' := kindCount_of_populated hp hk
  have hnodes : (Create factory job resources inputs).1.putNodes
      = (stepsSeq (populateLocations job.Plan)).flatMap
          (ownOf (fun p : Plan => p.putNodeOf.toList) factory resources inputs) := by
    rw [Create_of_not_hasConditionals _ _ _ _ hcond]
    exact flatMap_nodes_populated collects_putNodeOf _ _ _ _ hk
  have hnames : (Create factory job resources inputs).1.putNodes.map
        (fun nd => (nd.put.Name, nd.put.Resource))
      = (PlanSequence.putSteps job.Plan).map (fun st => (st.attrs.Put, st.putResource)) := by
    rw [hnodes, List.map_flatMap]
    rw [List.flatMap_congr (fun st hst =>
      ownOf_putNodeOf_names factory resources inputs st (hk' st hst))]
    rw [← List.flatMap_map header
      (fun h : StepAttrs × Bool × Bool × Bool =>
        if h.1.Put ≠ "" then [(h.1.Put, if h.1.Resource = "" then h.1.Put else h.1.Resource)]
        else []), hp.1, List.flatMap_map]
    rw [PlanSequence.putSteps, ← flatMap_ite_singleton]
    refine List.flatMap_congr (fun st _ => ?_)
    simp [header, putResource]
  refine ⟨by rw [Create_of_not_hasConditionals _ _ _ _ hcond], hnames, ?_, ?_⟩
  · have := congrArg List.length hnames
    simpa using this
  · intro nd hnd
    rw [hnodes] at hnd
    obtain ⟨st, hst, hmem⟩ := List.mem_flatMap.1 hnd
    exact ownOf_putNodeOf_ids factory resources inputs st (hk' st hst) (hp.2.1 st hst) nd hmem

/-- Witness of C3: a job with two put steps, one of them under a do and with its own
resource name. -/
theorem Create_put_expansion_witness :
    PlanSequence.noConditions
        [getStep "repo", putStep "image",
          doStep [taskStep "unit",
            PlanConfig.mk { Put := "docs", Resource := "site" } none none none none none none]]
    ∧ PlanSequence.wellKinded
        [getStep "repo", putStep "image",
          doStep [taskStep "unit",
            PlanConfig.mk { Put := "docs", Resource := "site" } none none none none none none]]
    ∧ (Create ⟨"main"⟩
        { Plan := [getStep "repo", putStep "image",
            doStep [taskStep "unit",
              PlanConfig.mk { Put := "docs", Resource := "site" } none none none none none
                none]] }
        noResources []).1.putNodes.map (fun nd => (nd.put.Name, nd.put.Resource))
      = [("image", "image"), ("docs", "site")] :=
  have h1 : PlanSequence.noConditions
      [getStep "repo", putStep "image",
        doStep [taskStep "unit",
          PlanConfig.mk { Put := "docs", Resource := "site" } none none none none none none]] := by
    unfold PlanSequence.noConditions
    decide
  have h2 : PlanSequence.wellKinded
      [getStep "repo", putStep "image",
        doStep [taskStep "unit",
          PlanConfig.mk { Put := "docs", Resource := "site" } none none none none none none]] := by
    unfold PlanSequence.wellKinded
    decide
  ⟨h1, h2, (Create_put_expansion ⟨"main"⟩
    { Plan := [getStep "repo", putStep "image",
        doStep [taskStep "unit",
          PlanConfig.mk { Put := "docs", Resource := "site" } none none none none none none]] }
    noResources [] h1 h2).2.1.trans (by decide)⟩

/-! ## Groups and hooks -/

/-- The step that the hook blocks return. -/
theorem populateHooks_fst (sw : Switched) (s f e : Option PlanConfig) (id : Nat) :
    (populateHooks sw s f e id).1
      = PlanConfig.mk sw.attrs sw.Do sw.Aggregate sw.Try
          (populateHook s id (populateHook f id sw.stepCount sw.parentID "failure").2
            sw.parentID "success").1
          (populateHook f id sw.stepCount sw.parentID "failure").1
          (populateHook e id
            (populateHook s id (populateHook f id sw.stepCount sw.parentID "failure").2
              sw.parentID "success").2 sw.parentID "ensure").1 := rfl

/-- A get, put or task step stores the location it is placed at, and then only its hooks
are numbered. -/
theorem populatePlanLocations_leaf (c : PlanConfig) (loc : Location)
    (h : c.isGetPutOrTask) :
    (populatePlanLocations c loc).1.attrs.Location = some loc
      ∧ ∃ sc, (sc = 0 ∨ sc = 1)
        ∧ populatePlanLocations c loc
          = populateHooks ⟨{ c.attrs with Location := some loc }, none, none, none, sc, loc.ID⟩
              c.Success c.Failure c.Ensure loc.ID := by
  cases c with
  | mk a d ag t s f e =>
    obtain ⟨_, hd, ht, hag⟩ := h
    simp only [PlanConfig.Do, PlanConfig.Try, PlanConfig.Aggregate] at hd ht hag
    subst hd ht hag
    by_cases hput : a.Put = ""
    · rw [populatePlanLocations_default _ _ _ _ _ hput]
      exact ⟨rfl, 0, Or.inl rfl, rfl⟩
    · rw [populatePlanLocations_put _ _ _ _ _ _ _ _ hput]
      exact ⟨rfl, 1, Or.inr rfl, rfl⟩

/-- The children loop places every child with `populatePlanLocations` at the location
literal of some running count, the first child at the initial count, and the count the
loop returns is above the counts the child used up. -/
theorem populateChildren_getElem (cl : PlanConfig → Nat → Location) :
    ∀ (children : PlanSequence) (sc i : Nat) (c : PlanConfig), children[i]? = some c →
      ∃ n, sc ≤ n ∧ (i = 0 → n = sc)
        ∧ n + (populatePlanLocations c (cl c n)).2 ≤ (populateChildren cl children sc).2
        ∧ (populateChildren cl children sc).1[i]?
            = some (populatePlanLocations c (cl c n)).1 := by
  intro children
  induction children with
  | nil => intro sc i c h; simp at h
  | cons x rest ih =>
      intro sc i c h
      rw [populateChildren_cons]
      cases i with
      | zero =>
          simp only [List.getElem?_cons_zero, Option.some.injEq] at h
          subst h
          exact ⟨sc, Nat.le_refl _, fun _ => rfl, populateChildren_le cl rest _, by simp⟩
      | succ j =>
          simp only [List.getElem?_cons_succ] at h
          obtain ⟨n, hn, _, hle, hget⟩ :=
            ih (sc + (populatePlanLocations x (cl x sc)).2) j c h
          exact ⟨n, by omega, by simp, hle, by simpa using hget⟩

/-- C8: on a machine whose `uint` has `bits` bits, an aggregate step placed at location id
`n` places each of its direct children at a location whose `ParallelGroup` is `n + 1` and
whose `SerialGroup` is that of the aggregate, and a do step placed at location id `n`
places each of its direct children at a location whose `SerialGroup` is `n + 1` and whose
`ParallelGroup` is that of the do; a child that is a get, put or task step receives
that location as its own.  In both cases the first child is placed at id `n + 2` (and
the later ones above it).  The numbering of the step is taken to fit in the machine
word, so that no sum wraps around. -/
theorem populatePlanLocations_groups (bits : Nat) (pc : PlanConfig)
    (children : PlanSequence) (loc : Location) (hk : pc.kindCount = 1)
    (hfit : uint.Fits bits pc loc) :
    (pc.Aggregate = some children →
      ∃ children', (uint.populatePlanLocations bits pc loc).1.Aggregate = some children'
        ∧ ∀ i c, children[i]? = some c → ∃ l : Location,
            l.ParallelGroup = loc.ID + 1 ∧ l.SerialGroup = loc.SerialGroup
              ∧ loc.ID + 2 ≤ l.ID ∧ l.ID < 2 ^ bits ∧ (i = 0 → l.ID = loc.ID + 2)
              ∧ children'[i]? = some (uint.populatePlanLocations bits c l).1
              ∧ (c.isGetPutOrTask →
                  (uint.populatePlanLocations bits c l).1.attrs.Location = some l))
    ∧ (pc.Do = some children →
      ∃ children', (uint.populatePlanLocations bits pc loc).1.Do = some children'
        ∧ ∀ i c, children[i]? = some c → ∃ l : Location,
            l.SerialGroup = loc.ID + 1 ∧ l.ParallelGroup = loc.ParallelGroup
              ∧ loc.ID + 2 ≤ l.ID ∧ l.ID < 2 ^ bits ∧ (i = 0 → l.ID = loc.ID + 2)
              ∧ children'[i]? = some (uint.populatePlanLocations bits c l).1
              ∧ (c.isGetPutOrTask →
                  (uint.populatePlanLocations bits c l).1.attrs.Location = some l)) := by
  have hfit' : loc.ID + (populatePlanLocations pc loc).2 < 2 ^ bits := hfit
  rw [populatePlanLocations_uint_eq bits pc loc hfit]
  cases pc with
  | mk a d ag t s f e =>
  constructor
  · intro hagg
    simp only [PlanConfig.Aggregate] at hagg
    subst hagg
    rcases kindCount_cases a d _ t s f e hk with
      ⟨_, _, _, h, _, _⟩ | ⟨_, _, _, h, _, _⟩ | ⟨_, _, _, h, _, _⟩
      | ⟨hput, rfl, rfl, _, _, _⟩ | ⟨_, _, _, h, _⟩
    · cases h
    · cases h
    · cases h
    · rw [populatePlanLocations_aggregate _ _ _ _ _ _ hput] at hfit' ⊢
      rw [populateHooks_fst]
      have hle := populateHooks_le
        ⟨a, none, some (populateChildren (aggregateChildLocation loc) children 1).1, none,
          (populateChildren (aggregateChildLocation loc) children 1).2, loc.ID + 1⟩
        s f e loc.ID
      simp only at hle
      refine ⟨_, rfl, ?_⟩
      intro i c hc
      obtain ⟨n, hn, h0, hcount, hget⟩ :=
        populateChildren_getElem (aggregateChildLocation loc) children 1 i c hc
      have hid : (aggregateChildLocation loc c n).ID = loc.ID + n + 1 := rfl
      have hchild := populatePlanLocations_uint_eq bits c (aggregateChildLocation loc c n)
        (by unfold uint.Fits; rw [hid]; omega)
      refine ⟨aggregateChildLocation loc c n, rfl, rfl, ?_, ?_, ?_, ?_, ?_⟩
      · rw [hid]; omega
      · rw [hid]; omega
      · intro hi; rw [hid, h0 hi]
      · rw [hchild]; exact hget
      · intro hleaf
        rw [hchild]
        exact (populatePlanLocations_leaf c _ hleaf).1
    · cases h
  · intro hdo
    simp only [PlanConfig.Do] at hdo
    subst hdo
    rcases kindCount_cases a _ ag t s f e hk with
      ⟨_, h, _, _, _, _⟩ | ⟨hput, _, rfl, rfl, _, _⟩ | ⟨_, h, _, _, _, _⟩
      | ⟨_, h, _, _, _, _⟩ | ⟨_, h, _, _, _⟩
    · cases h
    · rw [populatePlanLocations_do _ _ _ _ _ _ _ _ hput] at hfit' ⊢
      rw [populateHooks_fst]
      have hle := populateHooks_le
        ⟨a, some (populateChildren (doChildLocation loc) children 1).1, none, none,
          (populateChildren (doChildLocation loc) children 1).2, loc.ID + 1⟩ s f e loc.ID
      simp only at hle
      refine ⟨_, rfl, ?_⟩
      intro i c hc
      obtain ⟨n, hn, h0, hcount, hget⟩ :=
        populateChildren_getElem (doChildLocation loc) children 1 i c hc
      have hid : (doChildLocation loc c n).ID = loc.ID + n + 1 := rfl
      have hchild := populatePlanLocations_uint_eq bits c (doChildLocation loc c n)
        (by unfold uint.Fits; rw [hid]; omega)
      refine ⟨doChildLocation loc c n, rfl, rfl, ?_, ?_, ?_, ?_, ?_⟩
      · rw [hid]; omega
      · rw [hid]; omega
      · intro hi; rw [hid, h0 hi]
      · rw [hchild]; exact hget
      · intro hleaf
        rw [hchild]
        exact (populatePlanLocations_leaf c _ hleaf).1
    · cases h
    · cases h
    · cases h

/-- Witness of C8: on a machine whose `uint` has 64 bits, an aggregate of a get and a put
placed at location id 4 in serial group 3 places the get, its first child, at id 6 with
parallel group 5 and serial group 3, and the get receives that location. -/
theorem populatePlanLocations_groups_witness :
    (aggregateStep [getStep "repo", putStep "image"]).kindCount = 1
    ∧ uint.Fits 64 (aggregateStep [getStep "repo", putStep "image"])
        { ID := 4, SerialGroup := 3 }
    ∧ ∃ children',
        (uint.populatePlanLocations 64 (aggregateStep [getStep "repo", putStep "image"])
          { ID := 4, SerialGroup := 3 }).1.Aggregate = some children'
        ∧ ∃ l : Location, l.ParallelGroup = 5 ∧ l.SerialGroup = 3 ∧ l.ID = 6
          ∧ children'[0]? = some (uint.populatePlanLocations 64 (getStep "repo") l).1
          ∧ (uint.populatePlanLocations 64 (getStep "repo") l).1.attrs.Location = some l := by
  have hk : (aggregateStep [getStep "repo", putStep "image"]).kindCount = 1 := by decide
  have hfit : uint.Fits 64 (aggregateStep [getStep "repo", putStep "image"])
      { ID := 4, SerialGroup := 3 } := by
    unfold uint.Fits
    decide
  obtain ⟨children', h1, h2⟩ :=
    (populatePlanLocations_groups 64 (aggregateStep [getStep "repo", putStep "image"])
      [getStep "repo", putStep "image"] { ID := 4, SerialGroup := 3 } hk hfit).1 rfl
  obtain ⟨l, hp, hs, _, _, h0, hget, hleaf⟩ := h2 0 (getStep "repo") rfl
  exact ⟨hk, hfit, children', h1, l, hp, hs, h0 rfl, hget, hleaf ⟨by decide, rfl, rfl, rfl⟩⟩

/-- C9: when a get, put or task step is placed at location id `n`, each of its failure,
success and ensure hooks that is itself a get, put or task step receives a location
whose `Hook` is `failure`, `success` or `ensure` respectively, whose `ParentID` is `n` and
whose `ParallelGroup` is 0. -/
theorem populatePlanLocations_hook_locations (pc h : PlanConfig) (loc : Location)
    (hpc : pc.isGetPutOrTask) (hh : h.isGetPutOrTask) :
    (pc.Failure = some h →
      ∃ h' l, (populatePlanLocations pc loc).1.Failure = some h' ∧ h'.attrs.Location = some l
        ∧ l.Hook = "failure" ∧ l.ParentID = loc.ID ∧ l.ParallelGroup = 0)
    ∧ (pc.Success = some h →
      ∃ h' l, (populatePlanLocations pc loc).1.Success = some h' ∧ h'.attrs.Location = some l
        ∧ l.Hook = "success" ∧ l.ParentID = loc.ID ∧ l.ParallelGroup = 0)
    ∧ (pc.Ensure = some h →
      ∃ h' l, (populatePlanLocations pc loc).1.Ensure = some h' ∧ h'.attrs.Location = some l
        ∧ l.Hook = "ensure" ∧ l.ParentID = loc.ID ∧ l.ParallelGroup = 0) := by
  obtain ⟨_, sc, _, heq⟩ := populatePlanLocations_leaf pc loc hpc
  rw [heq, populateHooks_fst]
  refine ⟨?_, ?_, ?_⟩
  · intro hf
    rw [hf, populateHook_some]
    exact ⟨_, _, rfl, (populatePlanLocations_leaf h _ hh).1, rfl, rfl, rfl⟩
  · intro hs
    rw [hs, populateHook_some]
    exact ⟨_, _, rfl, (populatePlanLocations_leaf h _ hh).1, rfl, rfl, rfl⟩
  · intro he
    rw [he, populateHook_some]
    exact ⟨_, _, rfl, (populatePlanLocations_leaf h _ hh).1, rfl, rfl, rfl⟩

/-- Witness of C9: the failure hook `alert` of the task `unit` placed at location id 4. -/
theorem populatePlanLocations_hook_locations_witness :
    (PlanConfig.mk { Task := "unit" } none none none none (some (taskStep "alert"))
        none).isGetPutOrTask
    ∧ (taskStep "alert").isGetPutOrTask
    ∧ ∃ h' l,
        (populatePlanLocations
          (PlanConfig.mk { Task := "unit" } none none none none (some (taskStep "alert")) none)
          { ID := 4 }).1.Failure = some h'
        ∧ h'.attrs.Location = some l ∧ l.Hook = "failure" ∧ l.ParentID = 4
        ∧ l.ParallelGroup = 0 :=
  have hpc : (PlanConfig.mk { Task := "unit" } none none none none (some (taskStep "alert"))
      none).isGetPutOrTask := ⟨by decide, rfl, rfl, rfl⟩
  have hh : (taskStep "alert").isGetPutOrTask := ⟨by decide, rfl, rfl, rfl⟩
  ⟨hpc, hh, (populatePlanLocations_hook_locations _ (taskStep "alert") { ID := 4 } hpc hh).1
    rfl⟩

/-! ## Build sets: equality and the empty set -/

/-- `Equal` is the cardinality test followed by the membership test. -/
theorem BuildSet.Equal_eq_true_iff (a b : BuildSet) :
    a.Equal b = true ↔ (a.card = b.card ∧ ∀ x ∈ a, b.Contains x = true) := by
  unfold BuildSet.Equal
  by_cases h : a.card = b.card <;> simp [h]

/-- Same cardinality and inclusion give equal sets. -/
theorem BuildSet.eq_of_card_of_subset (a b : BuildSet)
    (h : a.card = b.card ∧ ∀ x ∈ a, b.Contains x = true) : a = b := by
  apply Finset.eq_of_subset_of_card_le
  · intro x hx
    simpa [BuildSet.Contains] using h.2 x hx
  · exact h.1.ge

/-- C11: `Equal` decides set equality. -/
theorem BuildSet.Equal_decides_equality (a b : BuildSet) :
    (a.Equal b = true ↔ (a.card = b.card ∧ ∀ x ∈ a, b.Contains x = true))
    ∧ ((a.card = b.card ∧ ∀ x ∈ a, b.Contains x = true)
        ↔ ∀ x : Int, a.Contains x = b.Contains x)
    ∧ a.Equal a = true
    ∧ a.Equal b = b.Equal a := by
  have key : ∀ c d : BuildSet, (c.card = d.card ∧ ∀ x ∈ c, d.Contains x = true)
      ↔ ∀ x : Int, c.Contains x = d.Contains x := by
    intro c d
    constructor
    · intro h x
      rw [BuildSet.eq_of_card_of_subset c d h]
    · intro h
      have hcd : c = d := by
        ext x
        simpa [BuildSet.Contains] using h x
      subst hcd
      simp [BuildSet.Contains]
  refine ⟨BuildSet.Equal_eq_true_iff a b, key a b, ?_, ?_⟩
  · rw [BuildSet.Equal_eq_true_iff]
    simp [BuildSet.Contains]
  · rw [Bool.eq_iff_iff, BuildSet.Equal_eq_true_iff, BuildSet.Equal_eq_true_iff, key, key]
    exact ⟨fun h x => (h x).symm, fun h x => (h x).symm⟩

/-- C12: intersecting with the empty set, on either side, yields a set with no elements. -/
theorem BuildSet.Intersect_empty (a : BuildSet) :
    (a.Intersect (∅ : BuildSet)).card = 0 ∧ ((∅ : BuildSet).Intersect a).card = 0
    ∧ a.Intersect (∅ : BuildSet) = ∅ ∧ (∅ : BuildSet).Intersect a = ∅
    ∧ ∀ x : Int, (a.Intersect (∅ : BuildSet)).Contains x = false
        ∧ ((∅ : BuildSet).Intersect a).Contains x = false := by
  have h1 : a.Intersect (∅ : BuildSet) = ∅ := by simp [BuildSet.Intersect]
  have h2 : (∅ : BuildSet).Intersect a = ∅ := by simp [BuildSet.Intersect]
  rw [h1, h2]
  simp [BuildSet.Contains]

/-! ## Pipeline syncer -/

namespace pipelines
open Syncer

/-- The inner loop of `Sync` looks for an unpaused pipeline with the id. -/
theorem findPipeline_eq (id : Int) (pipelines : List SavedPipeline) (found : Bool) :
    findPipeline id pipelines found
      = (found || pipelines.any (fun p => !p.Paused && decide (p.ID = id))) := by
  induction pipelines generalizing found with
  | nil => simp [findPipeline]
  | cons p rest ih =>
    rw [findPipeline]
    by_cases hp : p.Paused = true
    · simp [hp, ih]
    · by_cases hid : p.ID = id
      · simp [hp, hid, ih]
      · simp [hp, hid, ih]

/-- An id is found by the inner loop exactly when it is the id of an unpaused pipeline. -/
theorem mem_unpausedIds (id : Int) (pipelines : List SavedPipeline) :
    id ∈ unpausedIds pipelines ↔ findPipeline id pipelines false = true := by
  rw [findPipeline_eq]
  simp [unpausedIds, and_assoc]

/-- Being a key of the running map. -/
theorem mem_runningIds (syncer : Syncer) (id : Int) :
    id ∈ syncer.runningIds ↔ id ∈ syncer.runningPipelines := by
  simp [Syncer.runningIds, AList.mem_keys]

/-- Method `isPipelineRunning` tests the keys. -/
theorem isPipelineRunning_iff (syncer : Syncer) (id : Int) :
    syncer.isPipelineRunning id = true ↔ id ∈ syncer.runningPipelines := by
  simp [Syncer.isPipelineRunning, AList.lookup_isSome]

/-- The first loop starts no process. -/
theorem stopLoop_invoked (answers : Answers) (pipelines : List SavedPipeline)
    (entries : List (Sigma fun _ : Int => runningProcess)) (syncer : Syncer) :
    (stopLoop answers pipelines entries syncer).1.invoked = syncer.invoked := by
  induction entries generalizing syncer with
  | nil => rfl
  | cons e rest ih =>
    obtain ⟨id, rp⟩ := e
    simp only [stopLoop]
    rw [ih]
    by_cases h1 : answers.Exited rp.Process = true <;>
      by_cases h2 : findPipeline id pipelines false = true <;>
      simp [h1, h2, removePipeline]

/-- The events of the first loop, entry by entry. -/
theorem stopLoop_events (answers : Answers) (pipelines : List SavedPipeline)
    (entries : List (Sigma fun _ : Int => runningProcess)) (syncer : Syncer) :
    (stopLoop answers pipelines entries syncer).2
      = entries.flatMap (stopEvents answers pipelines) := by
  induction entries generalizing syncer with
  | nil => rfl
  | cons e rest ih =>
    obtain ⟨id, rp⟩ := e
    simp only [stopLoop, List.flatMap_cons]
    rw [ih]
    by_cases h1 : answers.Exited rp.Process = true <;>
      by_cases h2 : findPipeline id pipelines false = true <;>
      simp [h1, h2, stopEvents]

/-- The running map after the first loop: an entry of the map is kept unless the loop
visits an entry with its id whose process has exited or whose pipeline is not found. -/
theorem stopLoop_lookup (answers : Answers) (pipelines : List SavedPipeline)
    (entries : List (Sigma fun _ : Int => runningProcess)) (syncer : Syncer) (id : Int) :
    (stopLoop answers pipelines entries syncer).1.runningPipelines.lookup id
      = if entries.any (fun e => decide (e.1 = id)
            && (answers.Exited e.2.Process || !findPipeline id pipelines false))
        then none else syncer.runningPipelines.lookup id := by
  induction entries generalizing syncer with
  | nil => simp [stopLoop]
  | cons e rest ih =>
    obtain ⟨id', rp⟩ := e
    simp only [stopLoop]
    rw [ih, List.any_cons]
    generalize (rest.any fun e => decide (e.1 = id)
      && (answers.Exited e.2.Process || !findPipeline id pipelines false)) = later
    by_cases hid : id' = id
    · subst hid
      cases later <;> cases h1 : answers.Exited rp.Process <;>
        cases h2 : findPipeline id' pipelines false <;>
        simp [removePipeline]
    · have hne : id ≠ id' := fun h => hid h.symm
      cases later <;> cases h1 : answers.Exited rp.Process <;>
        cases h2 : findPipeline id' pipelines false <;>
        simp [removePipeline, hid, AList.lookup_erase_ne hne]

/-- When every visited entry is still running and still wanted, the first loop changes
nothing and does nothing. -/
theorem stopLoop_keep (answers : Answers) (pipelines : List SavedPipeline)
    (entries : List (Sigma fun _ : Int => runningProcess)) (syncer : Syncer)
    (h : ∀ e ∈ entries, answers.Exited e.2.Process = false
        ∧ findPipeline e.1 pipelines false = true) :
    stopLoop answers pipelines entries syncer = (syncer, []) := by
  induction entries generalizing syncer with
  | nil => rfl
  | cons e rest ih =>
    obtain ⟨id, rp⟩ := e
    have h0 := h ⟨id, rp⟩ (List.mem_cons_self _ _)
    simp only [stopLoop]
    simp only [h0.1, h0.2]
    simp [ih syncer (fun e he => h e (List.mem_cons_of_mem _ he))]

/-- The second loop changes nothing and does nothing when every unpaused pipeline is
running. -/
theorem startLoop_keep (pipelines : List SavedPipeline) (syncer : Syncer)
    (h : ∀ p ∈ pipelines, p.Paused = false → p.ID ∈ syncer.runningPipelines) :
    startLoop pipelines syncer = (syncer, []) := by
  induction pipelines with
  | nil => rfl
  | cons p rest ih =>
    rw [startLoop]
    have hp := h p (List.mem_cons_self _ _)
    have hrun : (p.Paused || syncer.isPipelineRunning p.ID) = true := by
      by_cases hpa : p.Paused = true
      · simp [hpa]
      · simp only [Bool.not_eq_true] at hpa
        simp [hpa, (isPipelineRunning_iff syncer p.ID).2 (hp hpa)]
    rw [if_pos hrun]
    exact ih (fun q hq => h q (List.mem_cons_of_mem _ hq))

/-- The keys of the running map after the second loop. -/
theorem startLoop_mem (pipelines : List SavedPipeline) (syncer : Syncer) (id : Int) :
    id ∈ (startLoop pipelines syncer).1.runningPipelines
      ↔ id ∈ syncer.runningPipelines ∨ id ∈ unpausedIds pipelines := by
  induction pipelines generalizing syncer with
  | nil => simp [startLoop, unpausedIds]
  | cons p rest ih =>
    rw [startLoop]
    have hun : id ∈ unpausedIds (p :: rest)
        ↔ (p.Paused = false ∧ p.ID = id) ∨ id ∈ unpausedIds rest := by
      by_cases hpa : p.Paused = true
      · simp [unpausedIds, hpa]
      · simp only [Bool.not_eq_true] at hpa
        simp only [unpausedIds, hpa, List.filter_cons, Bool.not_false, if_true, List.map_cons,
          List.toFinset_cons, Finset.mem_insert, true_and]
        exact or_congr_left eq_comm
    by_cases hrun : (p.Paused || syncer.isPipelineRunning p.ID) = true
    · rw [if_pos hrun, ih, hun]
      constructor
      · rintro (h | h)
        · exact Or.inl h
        · exact Or.inr (Or.inr h)
      · rintro (h | ⟨hpa, hid⟩ | h)
        · exact Or.inl h
        · simp only [hpa, Bool.false_or] at hrun
          exact Or.inl (hid ▸ (isPipelineRunning_iff syncer p.ID).1 hrun)
        · exact Or.inr h
    · rw [if_neg hrun]
      simp only [Bool.or_eq_true, not_or, Bool.not_eq_true] at hrun
      simp only [ih, hun, AList.mem_insert, hrun.1, true_and]
      constructor
      · rintro ((h | h) | h)
        · exact Or.inr (Or.inl h.symm)
        · exact Or.inl h
        · exact Or.inr (Or.inr h)
      · rintro (h | h | h)
        · exact Or.inl (Or.inr h)
        · exact Or.inl (Or.inl h.symm)
        · exact Or.inr h

/-- The entries `range` visits are the entries of the map. -/
theorem mem_Range (answers : Answers) (syncer : Syncer)
    (e : Sigma fun _ : Int => runningProcess) :
    e ∈ (answers.Range syncer.runningPipelines.entries).1
      ↔ e ∈ syncer.runningPipelines.entries :=
  (answers.Range syncer.runningPipelines.entries).2.mem_iff

/-- The visited entries with a given key are the one entry the lookup returns. -/
theorem any_entries (answers : Answers) (pipelines : List SavedPipeline) (syncer : Syncer)
    (id : Int) (rp : runningProcess) (hl : syncer.runningPipelines.lookup id = some rp) :
    (answers.Range syncer.runningPipelines.entries).1.any (fun e => decide (e.1 = id)
        && (answers.Exited e.2.Process || !findPipeline id pipelines false))
      = (answers.Exited rp.Process || !findPipeline id pipelines false) := by
  have hmem : (⟨id, rp⟩ : Sigma fun _ : Int => runningProcess)
      ∈ (answers.Range syncer.runningPipelines.entries).1 :=
    (mem_Range answers syncer _).2 (AList.mem_lookup_iff.1 (by simp [hl]))
  rw [Bool.eq_iff_iff, List.any_eq_true]
  constructor
  · rintro ⟨⟨id', rp'⟩, he, hb⟩
    simp only [Bool.and_eq_true, decide_eq_true_eq] at hb
    obtain ⟨hid, hb⟩ := hb
    subst hid
    have h2 : rp' ∈ syncer.runningPipelines.lookup id' :=
      AList.mem_lookup_iff.2 ((mem_Range answers syncer _).1 he)
    rw [hl] at h2
    have : rp = rp' := by simpa using h2
    rw [this]
    exact hb
  · intro hb
    exact ⟨⟨id, rp⟩, hmem, by simpa using hb⟩

/-- The keys of the running map after the first loop over the entries of the map. -/
theorem stopLoop_mem (answers : Answers) (pipelines : List SavedPipeline) (syncer : Syncer)
    (id : Int) :
    id ∈ (stopLoop answers pipelines (answers.Range syncer.runningPipelines.entries).1
        syncer).1.runningPipelines
      ↔ ∃ rp, syncer.runningPipelines.lookup id = some rp
          ∧ answers.Exited rp.Process = false ∧ id ∈ unpausedIds pipelines := by
  rw [← AList.lookup_isSome, stopLoop_lookup, mem_unpausedIds]
  cases hl : syncer.runningPipelines.lookup id with
  | none => simp
  | some rp =>
    rw [any_entries answers pipelines syncer id rp hl]
    cases h1 : answers.Exited rp.Process <;>
      cases h2 : findPipeline id pipelines false <;>
      simp [h1, h2]

/-- The keys of the running map after a `Sync` in which `GetAllPipelines` succeeds. -/
theorem Sync_mem_running (syncer : Syncer) (answers : Answers)
    (pipelines : List SavedPipeline) (hget : answers.GetAllPipelines = (pipelines, none))
    (id : Int) :
    id ∈ (syncer.Sync answers).1.runningPipelines ↔ id ∈ unpausedIds pipelines := by
  simp only [Sync, hget]
  rw [startLoop_mem, stopLoop_mem]
  constructor
  · rintro (⟨_, _, _, h⟩ | h) <;> exact h
  · exact Or.inr

/-- C13: after a `Sync` in which `GetAllPipelines` succeeds, the ids held in
`runningPipelines` are the ids of the unpaused pipelines that were returned, whatever
the running map was before and whichever processes had exited. -/
theorem Sync_running_eq_unpaused (syncer : Syncer) (answers : Answers)
    (pipelines : List SavedPipeline) (hget : answers.GetAllPipelines = (pipelines, none)) :
    (syncer.Sync answers).1.runningIds = unpausedIds pipelines := by
  ext id
  rw [mem_runningIds]
  exact Sync_mem_running syncer answers pipelines hget id

/-- Witness for C13: one unpaused and one paused pipeline, from the empty syncer. -/
theorem Sync_running_eq_unpaused_witness :
    (NewSyncer.Sync
        { GetAllPipelines := ([{ ID := 1, Paused := false }, { ID := 2, Paused := true }], none),
          Exited := fun _ => false,
          ResetBuildPreparationsWithPipelinePaused := fun _ => none,
          Range := fun entries => ⟨entries, List.Perm.refl entries⟩ }).1.runningIds
      = unpausedIds [{ ID := 1, Paused := false }, { ID := 2, Paused := true }] :=
  Sync_running_eq_unpaused NewSyncer _ _ rfl

/-- C14: `Sync` is idempotent when nothing changes: when a second `Sync` gets the same
pipeline list and none of the running processes has exited, it does nothing (its list
of events is empty: no process is invoked, none is signalled, no call to
`ResetBuildPreparationsWithPipelinePaused` is made) and the syncer, with its
`runningPipelines`, is as the first call left it. -/
theorem Sync_idempotent (syncer : Syncer) (first second : Answers)
    (pipelines : List SavedPipeline)
    (hfirst : first.GetAllPipelines = (pipelines, none))
    (hsecond : second.GetAllPipelines = (pipelines, none))
    (hrunning : ∀ e ∈ (syncer.Sync first).1.runningPipelines.entries,
      second.Exited e.2.Process = false) :
    ((syncer.Sync first).1.Sync second).2 = []
    ∧ ((syncer.Sync first).1.Sync second).1 = (syncer.Sync first).1 := by
  have hids := Sync_mem_running syncer first pipelines hfirst
  generalize (syncer.Sync first).1 = s1 at hrunning hids ⊢
  have hstop : stopLoop second pipelines (second.Range s1.runningPipelines.entries).1 s1
      = (s1, []) := by
    apply stopLoop_keep
    intro e he
    rw [mem_Range] at he
    refine ⟨hrunning e he, ?_⟩
    rw [← mem_unpausedIds, ← hids]
    exact AList.mem_keys.1 (List.mem_map_of_mem Sigma.fst he)
  have hstart : startLoop pipelines s1 = (s1, []) := by
    apply startLoop_keep
    intro p hp hpa
    rw [hids]
    simp only [unpausedIds, List.mem_toFinset, List.mem_map, List.mem_filter]
    exact ⟨p, ⟨hp, by simp [hpa]⟩, rfl⟩
  simp only [Sync, hsecond, hstop, hstart]
  simp

/-- Witness for C14: two calls with one unpaused and one paused pipeline. -/
theorem Sync_idempotent_witness :
    ((NewSyncer.Sync
        { GetAllPipelines := ([{ ID := 1, Paused := false }, { ID := 2, Paused := true }], none),
          Exited := fun _ => false,
          ResetBuildPreparationsWithPipelinePaused := fun _ => none,
          Range := fun entries => ⟨entries, List.Perm.refl entries⟩ }).1.Sync
        { GetAllPipelines := ([{ ID := 1, Paused := false }, { ID := 2, Paused := true }], none),
          Exited := fun _ => false,
          ResetBuildPreparationsWithPipelinePaused := fun _ => none,
          Range := fun entries => ⟨entries, List.Perm.refl entries⟩ }).2 = []
    ∧ ((NewSyncer.Sync
        { GetAllPipelines := ([{ ID := 1, Paused := false }, { ID := 2, Paused := true }], none),
          Exited := fun _ => false,
          ResetBuildPreparationsWithPipelinePaused := fun _ => none,
          Range := fun entries => ⟨entries, List.Perm.refl entries⟩ }).1.Sync
        { GetAllPipelines := ([{ ID := 1, Paused := false }, { ID := 2, Paused := true }], none),
          Exited := fun _ => false,
          ResetBuildPreparationsWithPipelinePaused := fun _ => none,
          Range := fun entries => ⟨entries, List.Perm.refl entries⟩ }).1
      = (NewSyncer.Sync
        { GetAllPipelines := ([{ ID := 1, Paused := false }, { ID := 2, Paused := true }], none),
          Exited := fun _ => false,
          ResetBuildPreparationsWithPipelinePaused := fun _ => none,
          Range := fun entries => ⟨entries, List.Perm.refl entries⟩ }).1 :=
  Sync_idempotent NewSyncer _ _ _ rfl rfl (fun _ _ => rfl)


/-- The second loop only logs and invokes. -/
theorem startLoop_events (pipelines : List SavedPipeline) (syncer : Syncer) (ev : Event)
    (h : ev ∈ (startLoop pipelines syncer).2) :
    ev = Event.Log "debug" "starting-pipeline" ∨ ∃ p process, ev = Event.Invoke p process := by
  induction pipelines generalizing syncer with
  | nil => simp [startLoop] at h
  | cons p rest ih =>
    rw [startLoop] at h
    by_cases hrun : (p.Paused || syncer.isPipelineRunning p.ID) = true
    · rw [if_pos hrun] at h
      exact ih _ h
    · rw [if_neg hrun] at h
      simp only [List.cons_append, List.nil_append, List.mem_cons] at h
      rcases h with h | h | h
      · exact Or.inl h
      · exact Or.inr ⟨_, _, h⟩
      · exact ih _ h

/-- The first loop signals the process of an entry whose pipeline is not found. -/
theorem mem_stopEvents_signal (answers : Answers) (pipelines : List SavedPipeline)
    (e : Sigma fun _ : Int => runningProcess) (id : Int) (process : Nat) :
    Event.Signal id process ∈ stopEvents answers pipelines e
      ↔ e = ⟨id, ⟨process⟩⟩ ∧ findPipeline id pipelines false = false := by
  obtain ⟨id', ⟨process'⟩⟩ := e
  by_cases hid : id' = id
  · subst hid
    by_cases hp : process' = process
    · subst hp
      cases h1 : answers.Exited process' <;>
        cases h2 : findPipeline id' pipelines false <;>
        cases h3 : answers.ResetBuildPreparationsWithPipelinePaused id' <;>
        simp [stopEvents, h1, h2, h3]
    · have hp' : process ≠ process' := fun h => hp h.symm
      cases h1 : answers.Exited process' <;>
        cases h2 : findPipeline id' pipelines false <;>
        cases h3 : answers.ResetBuildPreparationsWithPipelinePaused id' <;>
        simp [stopEvents, h1, h2, h3, hp, hp']
  · have hid' : id ≠ id' := fun h => hid h.symm
    cases h1 : answers.Exited process' <;>
      cases h2 : findPipeline id' pipelines false <;>
      cases h3 : answers.ResetBuildPreparationsWithPipelinePaused id' <;>
      simp [stopEvents, h1, h2, h3, hid, hid']

/-- The first loop resets the build preparations of an entry whose pipeline is not
found. -/
theorem mem_stopEvents_reset (answers : Answers) (pipelines : List SavedPipeline)
    (e : Sigma fun _ : Int => runningProcess) (id : Int) :
    Event.ResetBuildPreparationsWithPipelinePaused id ∈ stopEvents answers pipelines e
      ↔ e.1 = id ∧ findPipeline id pipelines false = false := by
  obtain ⟨id', ⟨process'⟩⟩ := e
  by_cases hid : id' = id
  · subst hid
    cases h1 : answers.Exited process' <;>
      cases h2 : findPipeline id' pipelines false <;>
      cases h3 : answers.ResetBuildPreparationsWithPipelinePaused id' <;>
      simp [stopEvents, h1, h2, h3]
  · have hid' : id ≠ id' := fun h => hid h.symm
    cases h1 : answers.Exited process' <;>
      cases h2 : findPipeline id' pipelines false <;>
      cases h3 : answers.ResetBuildPreparationsWithPipelinePaused id' <;>
      simp [stopEvents, h1, h2, h3, hid, hid']

/-- The first loop reports the exit of the process of an entry when it is seen. -/
theorem mem_stopEvents_exited (answers : Answers) (pipelines : List SavedPipeline)
    (e : Sigma fun _ : Int => runningProcess) (h : answers.Exited e.2.Process = true) :
    Event.Exited e.1 e.2.Process ∈ stopEvents answers pipelines e := by
  simp [stopEvents, h]

/-- The first loop invokes no process. -/
theorem not_mem_stopEvents_invoke (answers : Answers) (pipelines : List SavedPipeline)
    (e : Sigma fun _ : Int => runningProcess) (p : SavedPipeline) (process : Nat) :
    Event.Invoke p process ∉ stopEvents answers pipelines e := by
  obtain ⟨id', ⟨process'⟩⟩ := e
  cases h1 : answers.Exited process' <;>
    cases h2 : findPipeline id' pipelines false <;>
    cases h3 : answers.ResetBuildPreparationsWithPipelinePaused id' <;>
    simp [stopEvents, h1, h2, h3]

/-- An entry is signalled at most once by its own visit. -/
theorem count_stopEvents_signal (answers : Answers) (pipelines : List SavedPipeline)
    (e : Sigma fun _ : Int => runningProcess)
    (h : findPipeline e.1 pipelines false = false) :
    (stopEvents answers pipelines e).count (Event.Signal e.1 e.2.Process) = 1
    ∧ (stopEvents answers pipelines e).count
        (Event.ResetBuildPreparationsWithPipelinePaused e.1) = 1 := by
  obtain ⟨id', ⟨process'⟩⟩ := e
  simp only at h
  cases h1 : answers.Exited process' <;>
    cases h3 : answers.ResetBuildPreparationsWithPipelinePaused id' <;>
    simp [stopEvents, h1, h, h3, List.count_cons]


/-- Counting an event that only one element of a duplicate-free list produces. -/
theorem count_flatMap_unique {α β : Type} [DecidableEq β] (f : α → List β) (x : β) (e0 : α)
    (l : List α) (hnd : l.Nodup) (hmem : e0 ∈ l) (hother : ∀ e ∈ l, e ≠ e0 → x ∉ f e) :
    (l.flatMap f).count x = (f e0).count x := by
  induction l with
  | nil => simp at hmem
  | cons a rest ih =>
    rw [List.nodup_cons] at hnd
    rw [List.flatMap_cons, List.count_append]
    by_cases ha : a = e0
    · subst ha
      have hzero : (rest.flatMap f).count x = 0 := by
        apply List.count_eq_zero_of_not_mem
        rw [List.mem_flatMap]
        rintro ⟨e, he, hx⟩
        exact hother e (List.mem_cons_of_mem _ he) (fun h => hnd.1 (h ▸ he)) hx
      rw [hzero, Nat.add_zero]
    · have hzero : (f a).count x = 0 :=
        List.count_eq_zero_of_not_mem (hother a (List.mem_cons_self _ _) ha)
      have hmem' : e0 ∈ rest := by
        rcases List.mem_cons.1 hmem with h | h
        · exact absurd h.symm ha
        · exact h
      rw [hzero, Nat.zero_add]
      exact ih hnd.2 hmem' (fun e he => hother e (List.mem_cons_of_mem _ he))

/-- The events of a `Sync` in which `GetAllPipelines` succeeds. -/
theorem Sync_events (syncer : Syncer) (answers : Answers) (pipelines : List SavedPipeline)
    (hget : answers.GetAllPipelines = (pipelines, none)) :
    (syncer.Sync answers).2
      = (answers.Range syncer.runningPipelines.entries).1.flatMap
          (stopEvents answers pipelines)
        ++ (startLoop pipelines
            (stopLoop answers pipelines (answers.Range syncer.runningPipelines.entries).1
              syncer).1).2 := by
  simp only [Sync, hget, stopLoop_events]

/-- Two entries of the running map with the same key are the same entry. -/
theorem entry_unique (syncer : Syncer) (e e' : Sigma fun _ : Int => runningProcess)
    (he : e ∈ syncer.runningPipelines.entries) (he' : e' ∈ syncer.runningPipelines.entries)
    (hkey : e.1 = e'.1) : e = e' := by
  obtain ⟨id, rp⟩ := e
  obtain ⟨id', rp'⟩ := e'
  simp only at hkey
  subst hkey
  have h1 : rp ∈ syncer.runningPipelines.lookup id := AList.mem_lookup_iff.2 he
  have h2 : rp' ∈ syncer.runningPipelines.lookup id := AList.mem_lookup_iff.2 he'
  rw [Option.mem_def] at h1 h2
  rw [h1] at h2
  simp only [Option.some.injEq] at h2
  rw [h2]

/-- With distinct pipeline ids, no unpaused pipeline has the id exactly when the id is
absent from the list or is the id of a paused pipeline. -/
theorem not_mem_unpausedIds_iff (pipelines : List SavedPipeline)
    (hnd : (pipelines.map SavedPipeline.ID).Nodup) (id : Int) :
    id ∉ unpausedIds pipelines
      ↔ ((∀ p ∈ pipelines, p.ID ≠ id) ∨ ∃ p ∈ pipelines, p.ID = id ∧ p.Paused = true) := by
  simp only [unpausedIds, List.mem_toFinset, List.mem_map, List.mem_filter, not_exists, not_and,
    Bool.not_eq_true', and_imp]
  constructor
  · intro h
    by_cases hex : ∃ p ∈ pipelines, p.ID = id
    · obtain ⟨p, hp, hid⟩ := hex
      refine Or.inr ⟨p, hp, hid, ?_⟩
      by_contra hpa
      exact h p hp (by simpa using hpa) hid
    · exact Or.inl (fun p hp hid => hex ⟨p, hp, hid⟩)
  · rintro (h | ⟨p, hp, hid, hpa⟩) q hq hqa hqid
    · exact h q hq hqid
    · have : q = p := List.inj_on_of_nodup_map hnd hq hp (hqid.trans hid.symm)
      subst this
      simp [hpa] at hqa

/-- C16: in a `Sync` in which `GetAllPipelines` succeeds, the processes that are sent
the interrupt, and the ids for which `ResetBuildPreparationsWithPipelinePaused` is
called, are exactly those of the entries of `runningPipelines` whose id is not the id of
an unpaused returned pipeline (with distinct pipeline ids: whose id is absent from the
list or is that of a paused pipeline); each such process is signalled once, its id is
reset once, and the id is no longer in the running map afterwards. -/
theorem Sync_stops_exactly (syncer : Syncer) (answers : Answers)
    (pipelines : List SavedPipeline) (hget : answers.GetAllPipelines = (pipelines, none)) :
    (∀ id process, Event.Signal id process ∈ (syncer.Sync answers).2
        ↔ (syncer.runningPipelines.lookup id = some ⟨process⟩ ∧ id ∉ unpausedIds pipelines))
    ∧ (∀ id, Event.ResetBuildPreparationsWithPipelinePaused id ∈ (syncer.Sync answers).2
        ↔ (id ∈ syncer.runningIds ∧ id ∉ unpausedIds pipelines))
    ∧ (∀ id process, syncer.runningPipelines.lookup id = some ⟨process⟩ →
        id ∉ unpausedIds pipelines →
        (syncer.Sync answers).2.count (Event.Signal id process) = 1
        ∧ (syncer.Sync answers).2.count (Event.ResetBuildPreparationsWithPipelinePaused id) = 1
        ∧ id ∉ (syncer.Sync answers).1.runningIds)
    ∧ ((pipelines.map SavedPipeline.ID).Nodup → ∀ id, id ∉ unpausedIds pipelines
        ↔ ((∀ p ∈ pipelines, p.ID ≠ id) ∨ ∃ p ∈ pipelines, p.ID = id ∧ p.Paused = true)) := by
  have hsig : ∀ id process, Event.Signal id process
      ∉ (startLoop pipelines
          (stopLoop answers pipelines (answers.Range syncer.runningPipelines.entries).1
            syncer).1).2 := by
    intro id process h
    rcases startLoop_events _ _ _ h with h | ⟨_, _, h⟩ <;> simp at h
  have hres : ∀ id, Event.ResetBuildPreparationsWithPipelinePaused id
      ∉ (startLoop pipelines
          (stopLoop answers pipelines (answers.Range syncer.runningPipelines.entries).1
            syncer).1).2 := by
    intro id h
    rcases startLoop_events _ _ _ h with h | ⟨_, _, h⟩ <;> simp at h
  have hfound : ∀ id, id ∉ unpausedIds pipelines ↔ findPipeline id pipelines false = false := by
    intro id
    rw [mem_unpausedIds, Bool.not_eq_true]
  refine ⟨?_, ?_, ?_, not_mem_unpausedIds_iff pipelines⟩
  · intro id process
    rw [Sync_events syncer answers pipelines hget, List.mem_append, List.mem_flatMap, hfound]
    constructor
    · rintro (⟨e, he, hev⟩ | h)
      · rw [mem_stopEvents_signal] at hev
        refine ⟨?_, hev.2⟩
        rw [hev.1, mem_Range] at he
        exact Option.mem_def.1 (AList.mem_lookup_iff.2 he)
      · exact absurd h (hsig id process)
    · rintro ⟨hl, hf⟩
      exact Or.inl ⟨⟨id, ⟨process⟩⟩,
        (mem_Range answers syncer _).2 (AList.mem_lookup_iff.1 (Option.mem_def.2 hl)),
        (mem_stopEvents_signal _ _ _ _ _).2 ⟨rfl, hf⟩⟩
  · intro id
    rw [Sync_events syncer answers pipelines hget, List.mem_append, List.mem_flatMap, hfound,
      mem_runningIds]
    constructor
    · rintro (⟨e, he, hev⟩ | h)
      · rw [mem_stopEvents_reset] at hev
        refine ⟨?_, hev.2⟩
        rw [← hev.1]
        exact AList.mem_keys.1
          (List.mem_map_of_mem Sigma.fst ((mem_Range answers syncer _).1 he))
      · exact absurd h (hres id)
    · rintro ⟨hm, hf⟩
      obtain ⟨rp, hrp⟩ := Option.isSome_iff_exists.1 (AList.lookup_isSome.2 hm)
      exact Or.inl ⟨⟨id, rp⟩,
        (mem_Range answers syncer _).2 (AList.mem_lookup_iff.1 (Option.mem_def.2 hrp)),
        (mem_stopEvents_reset _ _ _ _).2 ⟨rfl, hf⟩⟩
  · intro id process hl hun
    have hf := (hfound id).1 hun
    have he0' : (⟨id, ⟨process⟩⟩ : Sigma fun _ : Int => runningProcess)
        ∈ syncer.runningPipelines.entries := AList.mem_lookup_iff.1 (Option.mem_def.2 hl)
    have he0 : (⟨id, ⟨process⟩⟩ : Sigma fun _ : Int => runningProcess)
        ∈ (answers.Range syncer.runningPipelines.entries).1 :=
      (mem_Range answers syncer _).2 he0'
    have hnd : (answers.Range syncer.runningPipelines.entries).1.Nodup :=
      (answers.Range syncer.runningPipelines.entries).2.nodup_iff.2
        (List.Nodup.of_map Sigma.fst syncer.runningPipelines.nodupKeys)
    have hcount := count_stopEvents_signal answers pipelines ⟨id, ⟨process⟩⟩ hf
    refine ⟨?_, ?_, ?_⟩
    · rw [Sync_events syncer answers pipelines hget, List.count_append,
        List.count_eq_zero_of_not_mem (hsig id process), Nat.add_zero,
        count_flatMap_unique _ _ ⟨id, ⟨process⟩⟩ _ hnd he0]
      · exact hcount.1
      · intro e he hne hev
        rw [mem_stopEvents_signal] at hev
        exact hne hev.1
    · rw [Sync_events syncer answers pipelines hget, List.count_append,
        List.count_eq_zero_of_not_mem (hres id), Nat.add_zero,
        count_flatMap_unique _ _ ⟨id, ⟨process⟩⟩ _ hnd he0]
      · exact hcount.2
      · intro e he hne hev
        rw [mem_stopEvents_reset] at hev
        exact hne (entry_unique syncer e _ ((mem_Range answers syncer _).1 he) he0' hev.1)
    · rw [mem_runningIds, Sync_mem_running syncer answers pipelines hget]
      exact hun


/-- The second loop keeps the entries that are in the map. -/
theorem startLoop_lookup_of_lookup (pipelines : List SavedPipeline) (syncer : Syncer)
    (id : Int) (rp : runningProcess) (h : syncer.runningPipelines.lookup id = some rp) :
    (startLoop pipelines syncer).1.runningPipelines.lookup id = some rp := by
  induction pipelines generalizing syncer with
  | nil => exact h
  | cons p rest ih =>
    rw [startLoop]
    by_cases hrun : (p.Paused || syncer.isPipelineRunning p.ID) = true
    · rw [if_pos hrun]
      exact ih syncer h
    · rw [if_neg hrun]
      apply ih
      simp only [Bool.or_eq_true, not_or, Bool.not_eq_true] at hrun
      have hne : id ≠ p.ID := by
        intro heq
        have hr : syncer.isPipelineRunning p.ID = true := by
          rw [← heq]
          simp [Syncer.isPipelineRunning, h]
        rw [hr] at hrun
        exact Bool.noConfusion hrun.2
      simp only
      rw [AList.lookup_insert_ne hne]
      exact h

/-- The second loop starts no process for an id that is in the map. -/
theorem startLoop_no_invoke (pipelines : List SavedPipeline) (syncer : Syncer)
    (id : Int) (rp : runningProcess) (h : syncer.runningPipelines.lookup id = some rp)
    (p : SavedPipeline) (process : Nat)
    (hev : Event.Invoke p process ∈ (startLoop pipelines syncer).2) : p.ID ≠ id := by
  induction pipelines generalizing syncer with
  | nil => simp [startLoop] at hev
  | cons q rest ih =>
    rw [startLoop] at hev
    by_cases hrun : (q.Paused || syncer.isPipelineRunning q.ID) = true
    · rw [if_pos hrun] at hev
      exact ih syncer h hev
    · rw [if_neg hrun] at hev
      simp only [Bool.or_eq_true, not_or, Bool.not_eq_true] at hrun
      have hne : id ≠ q.ID := by
        intro heq
        have hr : syncer.isPipelineRunning q.ID = true := by
          rw [← heq]
          simp [Syncer.isPipelineRunning, h]
        rw [hr] at hrun
        exact Bool.noConfusion hrun.2
      simp only [List.cons_append, List.nil_append, List.mem_cons, Event.Invoke.injEq] at hev
      rcases hev with hev | hev | hev
      · exact Event.noConfusion hev
      · rw [hev.1]
        exact fun heq => hne heq.symm
      · refine ih _ ?_ hev
        simp only
        rw [AList.lookup_insert_ne hne]
        exact h

/-- A process the second loop starts is the one the map holds for its pipeline id when
the loop ends. -/
theorem startLoop_lookup_of_invoke (pipelines : List SavedPipeline) (syncer : Syncer)
    (p : SavedPipeline) (process : Nat)
    (hev : Event.Invoke p process ∈ (startLoop pipelines syncer).2) :
    (startLoop pipelines syncer).1.runningPipelines.lookup p.ID = some ⟨process⟩ := by
  induction pipelines generalizing syncer with
  | nil => simp [startLoop] at hev
  | cons q rest ih =>
    rw [startLoop] at hev ⊢
    by_cases hrun : (q.Paused || syncer.isPipelineRunning q.ID) = true
    · rw [if_pos hrun] at hev ⊢
      exact ih syncer hev
    · rw [if_neg hrun] at hev ⊢
      simp only [List.cons_append, List.nil_append, List.mem_cons, Event.Invoke.injEq] at hev
      rcases hev with hev | hev | hev
      · exact Event.noConfusion hev
      · simp only
        apply startLoop_lookup_of_lookup
        rw [hev.1, hev.2]
        exact AList.lookup_insert _
      · exact ih _ hev

/-- A process `Sync` starts is the one the map holds for its pipeline id when `Sync`
returns. -/
theorem Sync_lookup_of_invoke (syncer : Syncer) (answers : Answers)
    (p : SavedPipeline) (process : Nat)
    (hev : Event.Invoke p process ∈ (syncer.Sync answers).2) :
    (syncer.Sync answers).1.runningPipelines.lookup p.ID = some ⟨process⟩ := by
  rcases hget : answers.GetAllPipelines with ⟨pipelines, err⟩
  cases err with
  | some err => simp [Sync, hget] at hev
  | none =>
    rw [Sync_events syncer answers pipelines hget, List.mem_append, List.mem_flatMap] at hev
    simp only [Sync, hget]
    rcases hev with ⟨e, _, hev⟩ | hev
    · exact absurd hev (not_mem_stopEvents_invoke _ _ _ _ _)
    · exact startLoop_lookup_of_invoke _ _ _ _ hev

/-- One `Sync` on a map that holds a process for an id: either the process is seen to
have exited or is signalled, or it stays in the map and no process is started for the
id. -/
theorem Sync_keeps_or_stops (syncer : Syncer) (answers : Answers) (id : Int) (process : Nat)
    (h : syncer.runningPipelines.lookup id = some ⟨process⟩) :
    (Event.Exited id process ∈ (syncer.Sync answers).2
      ∨ Event.Signal id process ∈ (syncer.Sync answers).2)
    ∨ ((syncer.Sync answers).1.runningPipelines.lookup id = some ⟨process⟩
      ∧ ∀ p process', Event.Invoke p process' ∈ (syncer.Sync answers).2 → p.ID ≠ id) := by
  rcases hget : answers.GetAllPipelines with ⟨pipelines, err⟩
  cases err with
  | some err =>
    right
    simp [Sync, hget, h]
  | none =>
    have he0 : (⟨id, ⟨process⟩⟩ : Sigma fun _ : Int => runningProcess)
        ∈ (answers.Range syncer.runningPipelines.entries).1 :=
      (mem_Range answers syncer _).2 (AList.mem_lookup_iff.1 (Option.mem_def.2 h))
    rw [Sync_events syncer answers pipelines hget]
    simp only [List.mem_append, List.mem_flatMap]
    cases h1 : answers.Exited process with
    | true =>
      exact Or.inl (Or.inl (Or.inl ⟨_, he0, mem_stopEvents_exited answers pipelines _ h1⟩))
    | false =>
      cases h2 : findPipeline id pipelines false with
      | false =>
        exact Or.inl (Or.inr (Or.inl ⟨_, he0, (mem_stopEvents_signal _ _ _ _ _).2 ⟨rfl, h2⟩⟩))
      | true =>
        right
        have hkeep : (stopLoop answers pipelines
            (answers.Range syncer.runningPipelines.entries).1
            syncer).1.runningPipelines.lookup id = some ⟨process⟩ := by
          rw [stopLoop_lookup, any_entries answers pipelines syncer id ⟨process⟩ h]
          simp [h1, h2, h]
        constructor
        · simp only [Sync, hget]
          exact startLoop_lookup_of_lookup _ _ _ _ hkeep
        · rintro p process' (⟨e, _, hev⟩ | hev)
          · exact absurd hev (not_mem_stopEvents_invoke _ _ _ _ _)
          · exact startLoop_no_invoke _ _ _ _ hkeep _ _ hev

/-- Over a sequence of `Sync` calls that begins with a process in the map for an id:
a call that starts a process for the id comes after, or is, a call that saw the first
process exit or signalled it. -/
theorem runSyncs_stop_before_start (calls : List Answers) (syncer : Syncer) (id : Int)
    (process : Nat) (h : syncer.runningPipelines.lookup id = some ⟨process⟩)
    (k : Nat) (evk : List Event) (hk : (runSyncs syncer calls)[k]? = some evk)
    (p : SavedPipeline) (process' : Nat) (hev : Event.Invoke p process' ∈ evk)
    (hid : p.ID = id) :
    ∃ i, i ≤ k ∧ ∃ evi, (runSyncs syncer calls)[i]? = some evi
      ∧ (Event.Exited id process ∈ evi ∨ Event.Signal id process ∈ evi) := by
  induction calls generalizing syncer k with
  | nil => simp [runSyncs] at hk
  | cons answers rest ih =>
    rw [runSyncs] at hk ⊢
    rcases Sync_keeps_or_stops syncer answers id process h with hstop | ⟨hkeep, hno⟩
    · exact ⟨0, Nat.zero_le _, _, List.getElem?_cons_zero, hstop⟩
    · cases k with
      | zero =>
        simp only [List.getElem?_cons_zero, Option.some.injEq] at hk
        rw [← hk] at hev
        exact absurd hid (hno p process' hev)
      | succ k =>
        simp only [List.getElem?_cons_succ] at hk
        obtain ⟨i, hi, evi, hevi, hstop⟩ := ih _ hkeep k hk
        exact ⟨i + 1, Nat.succ_le_succ hi, evi, by simpa using hevi, hstop⟩


/-- Witness for C16: the running pipeline 1 is paused. -/
theorem Sync_stops_exactly_witness :
    (quietAnswers [examplePausedPipeline]).GetAllPipelines = ([examplePausedPipeline], none)
    ∧ ((NewSyncer.Sync (quietAnswers [examplePipeline])).1.Sync
          (quietAnswers [examplePausedPipeline])).2.count (Event.Signal 1 0) = 1
    ∧ ((NewSyncer.Sync (quietAnswers [examplePipeline])).1.Sync
          (quietAnswers [examplePausedPipeline])).2.count
          (Event.ResetBuildPreparationsWithPipelinePaused 1) = 1
    ∧ (1 : Int) ∉ ((NewSyncer.Sync (quietAnswers [examplePipeline])).1.Sync
          (quietAnswers [examplePausedPipeline])).1.runningIds :=
  ⟨rfl, (Sync_stops_exactly (NewSyncer.Sync (quietAnswers [examplePipeline])).1
      (quietAnswers [examplePausedPipeline]) [examplePausedPipeline] rfl).2.2.1 1 0
      (by decide) (by decide)⟩

/-- C15, counterexample: the pipeline is started, paused and unpaused over three calls
of `Sync` while no process exits; the third call starts process 1 for pipeline 1
although process 0, started for pipeline 1 by the first call, was only signalled. -/
theorem Sync_restarts_before_exit :
    runSyncs NewSyncer pauseThenUnpause
      = [[Event.Log "debug" "starting-pipeline", Event.Invoke examplePipeline 0],
         [Event.Log "debug" "stopping-pipeline", Event.Signal 1 0,
          Event.ResetBuildPreparationsWithPipelinePaused 1],
         [Event.Log "debug" "starting-pipeline", Event.Invoke examplePipeline 1]]
    ∧ (∀ answers ∈ pauseThenUnpause, ∀ process, answers.Exited process = false)
    ∧ ¬ StartsOnlyAfterExit NewSyncer pauseThenUnpause := by
  have htrace : runSyncs NewSyncer pauseThenUnpause
      = [[Event.Log "debug" "starting-pipeline", Event.Invoke examplePipeline 0],
         [Event.Log "debug" "stopping-pipeline", Event.Signal 1 0,
          Event.ResetBuildPreparationsWithPipelinePaused 1],
         [Event.Log "debug" "starting-pipeline", Event.Invoke examplePipeline 1]] := by
    decide
  have hquiet : ∀ answers ∈ pauseThenUnpause, ∀ process, answers.Exited process = false := by
    intro answers h process
    simp only [pauseThenUnpause, List.mem_cons, List.mem_singleton, List.mem_nil_iff,
      or_false] at h
    rcases h with h | h | h <;> rw [h] <;> rfl
  refine ⟨htrace, hquiet, ?_⟩
  intro hspec
  obtain ⟨i, _, answers, hi, hexit⟩ :=
    hspec 0 2 _ _ examplePipeline examplePipeline 0 1 (by decide)
      (by rw [htrace]; rfl) (by simp) (by rw [htrace]; rfl) (by simp) rfl
  have hmem : answers ∈ pauseThenUnpause := by
    obtain ⟨hlt, heq⟩ := List.getElem?_eq_some.1 hi
    rw [← heq]
    apply List.getElem_mem
  rw [hquiet answers hmem 0] at hexit
  exact Bool.noConfusion hexit

/-- C15, amended: over any sequence of `Sync` calls from any syncer, when a call starts
a process for a pipeline id for which an earlier call had started a process, then in
some call after the earlier one, and not after the later one, the earlier process was
seen to have exited or was sent the interrupt (and dropped from the map, without
waiting for it to exit). -/
theorem Sync_starts_after_stop (calls : List Answers) (syncer : Syncer) (j k : Nat)
    (hjk : j < k) (evj evk : List Event) (p' p : SavedPipeline) (process' process : Nat)
    (hj : (runSyncs syncer calls)[j]? = some evj) (hevj : Event.Invoke p' process' ∈ evj)
    (hk : (runSyncs syncer calls)[k]? = some evk) (hevk : Event.Invoke p process ∈ evk)
    (hid : p.ID = p'.ID) :
    ∃ i, j < i ∧ i ≤ k ∧ ∃ evi, (runSyncs syncer calls)[i]? = some evi
      ∧ (Event.Exited p'.ID process' ∈ evi ∨ Event.Signal p'.ID process' ∈ evi) := by
  induction j generalizing syncer calls k with
  | zero =>
    cases calls with
    | nil => simp [runSyncs] at hj
    | cons answers rest =>
      rw [runSyncs] at hj hk ⊢
      simp only [List.getElem?_cons_zero, Option.some.injEq] at hj
      rw [← hj] at hevj
      have hl := Sync_lookup_of_invoke syncer answers p' process' hevj
      cases k with
      | zero => exact absurd hjk (Nat.lt_irrefl 0)
      | succ k =>
        simp only [List.getElem?_cons_succ] at hk
        obtain ⟨i, hi, evi, hevi, hstop⟩ :=
          runSyncs_stop_before_start rest _ p'.ID process' hl k evk hk p process hevk hid
        exact ⟨i + 1, Nat.succ_pos i, Nat.succ_le_succ hi, evi, by simpa using hevi, hstop⟩
  | succ j ih =>
    cases calls with
    | nil => simp [runSyncs] at hj
    | cons answers rest =>
      rw [runSyncs] at hj hk ⊢
      cases k with
      | zero => exact absurd hjk (Nat.not_lt_zero _)
      | succ k =>
        simp only [List.getElem?_cons_succ] at hj hk
        obtain ⟨i, hji, hik, evi, hevi, hstop⟩ :=
          ih rest _ k (Nat.lt_of_succ_lt_succ hjk) hj hk
        exact ⟨i + 1, Nat.succ_lt_succ hji, Nat.succ_le_succ hik, evi, by simpa using hevi,
          hstop⟩

/-- Witness for C15: the pause between the first and the third call. -/
theorem Sync_starts_after_stop_witness :
    ∃ i, 0 < i ∧ i ≤ 2 ∧ ∃ evi, (runSyncs NewSyncer pauseThenUnpause)[i]? = some evi
      ∧ (Event.Exited examplePipeline.ID 0 ∈ evi ∨ Event.Signal examplePipeline.ID 0 ∈ evi) :=
  Sync_starts_after_stop pauseThenUnpause NewSyncer 0 2 (by decide)
    [Event.Log "debug" "starting-pipeline", Event.Invoke examplePipeline 0]
    [Event.Log "debug" "starting-pipeline", Event.Invoke examplePipeline 1]
    examplePipeline examplePipeline 0 1 (by decide) (by decide) (by decide) (by decide) rfl

end pipelines

/-! ## Scheduler -/

namespace scheduler
open Scheduler

/-- `ScheduleAndResumePendingBuild` begins by asking for the lease and never creates a
build row or looks one up by inputs. -/
theorem ScheduleAndResumePendingBuild_calls (s : Scheduler)
    (versions : Option algorithm.VersionsDB) (build : db.Build) (job : JobConfig)
    (resources : ResourceConfigs) (resourceTypes : ResourceTypes) (jobService : JobService) :
    (∃ c ∈ (s.ScheduleAndResumePendingBuild versions build job resources resourceTypes
        jobService).2, c.isLeaseBuildScheduling = true)
    ∧ ∀ c ∈ (s.ScheduleAndResumePendingBuild versions build job resources resourceTypes
        jobService).2,
        c.isCreateJobBuildForCandidateInputs = false ∧ c.isGetJobBuildForInputs = false := by
  generalize hr : s.ScheduleAndResumePendingBuild versions build job resources resourceTypes
    jobService = r
  simp only [ScheduleAndResumePendingBuild, scheduleWithLease, updateBuildToScheduled] at hr
  repeat' split at hr
  all_goals subst hr
  all_goals simp_all [Call.isLeaseBuildScheduling, Call.isCreateJobBuildForCandidateInputs,
    Call.isGetJobBuildForInputs]

/-- The loop that fills `checkInputs` keeps, in order, the resolved inputs whose first
job input of the same name has `trigger: true`. -/
theorem collectCheckInputs_eq (inputs : List config.JobInput) (latestInputs : List BuildInput)
    (checkInputs : List BuildInput) :
    collectCheckInputs inputs latestInputs checkInputs
      = checkInputs ++ latestInputs.filter (fun input => isTriggered input.Name inputs) := by
  induction latestInputs generalizing checkInputs with
  | nil => simp [collectCheckInputs]
  | cons input rest ih =>
    rw [collectCheckInputs]
    cases h : isTriggered input.Name inputs <;> simp [h, ih]

/-- A name that the inner loop accepts is the name of a job input with `trigger: true`. -/
theorem isTriggered_exists (name : String) (inputs : List config.JobInput)
    (h : isTriggered name inputs = true) :
    ∃ ji ∈ inputs, ji.Name = name ∧ ji.Trigger = true := by
  induction inputs with
  | nil => simp [isTriggered] at h
  | cons ji rest ih =>
    rw [isTriggered] at h
    by_cases hn : ji.Name = name
    · rw [if_pos hn] at h
      exact ⟨ji, List.mem_cons_self _ _, hn, h⟩
    · rw [if_neg hn] at h
      obtain ⟨ji', hmem, hname, htrig⟩ := ih h
      exact ⟨ji', List.mem_cons_of_mem _ hmem, hname, htrig⟩

/-- When the job inputs have distinct names, the inner loop accepts exactly the names
of the job inputs with `trigger: true`. -/
theorem isTriggered_iff (name : String) (inputs : List config.JobInput)
    (hnd : (inputs.map config.JobInput.Name).Nodup) :
    isTriggered name inputs = true ↔ ∃ ji ∈ inputs, ji.Name = name ∧ ji.Trigger = true := by
  refine ⟨isTriggered_exists name inputs, ?_⟩
  induction inputs with
  | nil => simp
  | cons ji rest ih =>
    rw [List.map_cons, List.nodup_cons] at hnd
    rintro ⟨ji', hmem, hname, htrig⟩
    rw [isTriggered]
    by_cases hn : ji.Name = name
    · rw [if_pos hn]
      rcases List.mem_cons.1 hmem with heq | hrest
      · rw [← heq]
        exact htrig
      · exact absurd (List.mem_map_of_mem config.JobInput.Name hrest)
          (by rw [hname, ← hn]; exact hnd.1)
    · rw [if_neg hn]
      rcases List.mem_cons.1 hmem with heq | hrest
      · exact absurd (heq ▸ hname) hn
      · exact ih hnd.2 ⟨ji', hrest, hname, htrig⟩

/-- C17: `BuildLatestInputs` calls `CreateJobBuildForCandidateInputs` exactly when the job
has inputs, the resolver returned found without error, `checkInputs` (the resolved
inputs whose job input has `trigger: true`, in resolver order) is not empty, and
`GetJobBuildForInputs`, which is only ever queried with the job name and `checkInputs`,
reports without error that no build has those versions; `ScheduleAndResumePendingBuild`
is entered only when that call was made. -/
theorem BuildLatestInputs_creates_only_when_triggered (s : Scheduler) (helpers : Helpers)
    (versions : Option algorithm.VersionsDB) (job : JobConfig) (resources : ResourceConfigs)
    (resourceTypes : ResourceTypes) :
    ((∃ c ∈ (s.BuildLatestInputs helpers versions job resources resourceTypes).2,
        c.isCreateJobBuildForCandidateInputs = true)
      ↔ (helpers.JobInputs job ≠ []
        ∧ (s.PipelineDB.GetLatestInputVersions versions job.Name (helpers.JobInputs job)).2
            = (true, none)
        ∧ collectCheckInputs (helpers.JobInputs job)
            (s.PipelineDB.GetLatestInputVersions versions job.Name
              (helpers.JobInputs job)).1 [] ≠ []
        ∧ (s.PipelineDB.GetJobBuildForInputs job.Name
            (collectCheckInputs (helpers.JobInputs job)
              (s.PipelineDB.GetLatestInputVersions versions job.Name
                (helpers.JobInputs job)).1 [])).2 = (false, none)))
    ∧ (∀ c ∈ (s.BuildLatestInputs helpers versions job resources resourceTypes).2,
        c.isGetJobBuildForInputs = true →
        c = Call.GetJobBuildForInputs job.Name
          (collectCheckInputs (helpers.JobInputs job)
            (s.PipelineDB.GetLatestInputVersions versions job.Name
              (helpers.JobInputs job)).1 []))
    ∧ ((∃ c ∈ (s.BuildLatestInputs helpers versions job resources resourceTypes).2,
        c.isLeaseBuildScheduling = true) →
        ∃ c ∈ (s.BuildLatestInputs helpers versions job resources resourceTypes).2,
          c.isCreateJobBuildForCandidateInputs = true)
    ∧ (∀ latestInputs,
        (collectCheckInputs (helpers.JobInputs job) latestInputs [] ≠ [] →
          ∃ input ∈ latestInputs, ∃ ji ∈ helpers.JobInputs job,
            ji.Name = input.Name ∧ ji.Trigger = true)
        ∧ (((helpers.JobInputs job).map config.JobInput.Name).Nodup →
          collectCheckInputs (helpers.JobInputs job) latestInputs []
            = latestInputs.filter (fun input =>
                (helpers.JobInputs job).any (fun ji => ji.Name = input.Name && ji.Trigger)))) := by
  have hs := fun build jobService =>
    ScheduleAndResumePendingBuild_calls s versions build job resources resourceTypes jobService
  refine ⟨?_, ?_, ?_, ?_⟩
  · generalize hr : s.BuildLatestInputs helpers versions job resources resourceTypes = r
    simp only [BuildLatestInputs] at hr
    repeat' split at hr
    all_goals subst hr
    all_goals simp_all [Call.isLeaseBuildScheduling, Call.isCreateJobBuildForCandidateInputs,
      Call.isGetJobBuildForInputs]
  · generalize hr : s.BuildLatestInputs helpers versions job resources resourceTypes = r
    simp only [BuildLatestInputs] at hr
    repeat' split at hr
    all_goals subst hr
    all_goals simp_all [Call.isLeaseBuildScheduling, Call.isCreateJobBuildForCandidateInputs,
      Call.isGetJobBuildForInputs]
    intro a ha hm
    rw [((hs _ _).2 a ha).2] at hm
    exact absurd hm (by simp)
  · clear hs
    generalize hr : s.BuildLatestInputs helpers versions job resources resourceTypes = r
    simp only [BuildLatestInputs] at hr
    repeat' split at hr
    all_goals subst hr
    all_goals first
      | (intro _
         refine ⟨Call.CreateJobBuildForCandidateInputs job.Name, ?_, rfl⟩
         simp
         done)
      | simp [Call.isLeaseBuildScheduling]
  · intro latestInputs
    constructor
    · intro h
      rw [collectCheckInputs_eq, List.nil_append] at h
      obtain ⟨input, hmem⟩ := List.exists_mem_of_ne_nil _ h
      rw [List.mem_filter] at hmem
      exact ⟨input, hmem.1, isTriggered_exists _ _ hmem.2⟩
    · intro hnd
      rw [collectCheckInputs_eq, List.nil_append]
      apply List.filter_congr
      intro input _
      rw [Bool.eq_iff_iff, isTriggered_iff _ _ hnd]
      simp

/-- Witness for C17: one job input with `trigger: true`, resolved, and no build with its
version yet. -/
theorem BuildLatestInputs_creates_only_when_triggered_witness :
    ∃ c ∈ ((exampleScheduler true none).BuildLatestInputs (exampleHelpers true) none exampleJob
        exampleResources []).2, c.isCreateJobBuildForCandidateInputs = true :=
  (BuildLatestInputs_creates_only_when_triggered (exampleScheduler true none)
    (exampleHelpers true) none exampleJob exampleResources []).1.2
    ⟨by simp [exampleHelpers], rfl, by decide, rfl⟩


/-- C18: in `ScheduleAndResumePendingBuild`, when `Factory.Create` is called and returns
an error, the build had been updated to scheduled before the call, `FinishBuild(build.ID,
StatusErrored)` is called exactly once, `ErrorBuild` and `Engine.CreateBuild` are not
called, and nil is returned. -/
theorem ScheduleAndResumePendingBuild_create_error (s : Scheduler)
    (versions : Option algorithm.VersionsDB) (build : db.Build) (job : JobConfig)
    (resources : ResourceConfigs) (resourceTypes : ResourceTypes) (jobService : JobService)
    (inputs : List BuildInput)
    (hcall : Call.FactoryCreate job resources resourceTypes inputs
      ∈ (s.ScheduleAndResumePendingBuild versions build job resources resourceTypes
          jobService).2)
    (herr : (s.Factory.Create job resources resourceTypes inputs).2 ≠ none) :
    (s.ScheduleAndResumePendingBuild versions build job resources resourceTypes
        jobService).1 = none
    ∧ (s.ScheduleAndResumePendingBuild versions build job resources resourceTypes
        jobService).2.filter Call.isFinishBuild
        = [Call.FinishBuild build.ID db.Status.errored]
    ∧ (∀ c ∈ (s.ScheduleAndResumePendingBuild versions build job resources resourceTypes
        jobService).2, c.isErrorBuild = false ∧ c.isEngineCreateBuild = false)
    ∧ s.PipelineDB.UpdateBuildToScheduled build.ID = (true, none)
    ∧ onlyAfter Call.isUpdateBuildToScheduled Call.isFactoryCreate
        (s.ScheduleAndResumePendingBuild versions build job resources resourceTypes
          jobService).2 = true := by
  generalize hr : s.ScheduleAndResumePendingBuild versions build job resources resourceTypes
    jobService = r at hcall ⊢
  simp only [ScheduleAndResumePendingBuild, scheduleWithLease, updateBuildToScheduled] at hr
  repeat' split at hr
  all_goals subst hr
  all_goals simp_all [Call.isFinishBuild, Call.isErrorBuild, Call.isEngineCreateBuild,
    Call.isUpdateBuildToScheduled, Call.isFactoryCreate, onlyAfter]

/-- Witness for C18: the build factory fails with "boom". -/
theorem ScheduleAndResumePendingBuild_create_error_witness :
    (Call.FactoryCreate exampleJob exampleResources [] []
      ∈ ((exampleScheduler true (some "boom")).ScheduleAndResumePendingBuild none exampleBuild
          exampleJob exampleResources [] (exampleJobService true "" none)).2)
    ∧ ((exampleScheduler true (some "boom")).ScheduleAndResumePendingBuild none exampleBuild
          exampleJob exampleResources [] (exampleJobService true "" none)).1 = none
    ∧ ((exampleScheduler true (some "boom")).ScheduleAndResumePendingBuild none exampleBuild
          exampleJob exampleResources [] (exampleJobService true "" none)).2.filter
          Call.isFinishBuild = [Call.FinishBuild exampleBuild.ID db.Status.errored] :=
  have hcall : Call.FactoryCreate exampleJob exampleResources [] []
      ∈ ((exampleScheduler true (some "boom")).ScheduleAndResumePendingBuild none exampleBuild
          exampleJob exampleResources [] (exampleJobService true "" none)).2 := by
    simp [ScheduleAndResumePendingBuild, scheduleWithLease, updateBuildToScheduled,
      exampleScheduler, exampleJobService]
  have h := ScheduleAndResumePendingBuild_create_error (exampleScheduler true (some "boom"))
    none exampleBuild exampleJob exampleResources [] (exampleJobService true "" none) []
    hcall (by simp [exampleScheduler])
  ⟨hcall, h.1, h.2.1⟩

/-- C19: in `ScheduleAndResumePendingBuild`, (a) when `CanBuildBeScheduled` answers that
the build cannot be scheduled, `UpdateBuildToScheduled` is not called; (b) when
`UpdateBuildToScheduled` is called and does not update, or fails, then `Factory.Create`,
`Engine.CreateBuild`, `FinishBuild` and `ErrorBuild` are not called and nil is
returned; (c) when `Engine.CreateBuild` is called, `UpdateBuildToScheduled` has been
called before, for this build, and returned true. -/
theorem ScheduleAndResumePendingBuild_lost_race (s : Scheduler)
    (versions : Option algorithm.VersionsDB) (build : db.Build) (job : JobConfig)
    (resources : ResourceConfigs) (resourceTypes : ResourceTypes) (jobService : JobService) :
    (∀ buildPrep, Call.CanBuildBeScheduled build buildPrep versions
        ∈ (s.ScheduleAndResumePendingBuild versions build job resources resourceTypes
            jobService).2 →
      (jobService.CanBuildBeScheduled build buildPrep versions).2.1 = false →
      ∀ c ∈ (s.ScheduleAndResumePendingBuild versions build job resources resourceTypes
            jobService).2, c.isUpdateBuildToScheduled = false)
    ∧ ((∃ c ∈ (s.ScheduleAndResumePendingBuild versions build job resources resourceTypes
            jobService).2, c.isUpdateBuildToScheduled = true) →
      ((s.PipelineDB.UpdateBuildToScheduled build.ID).1 = false
        ∨ (s.PipelineDB.UpdateBuildToScheduled build.ID).2 ≠ none) →
      (s.ScheduleAndResumePendingBuild versions build job resources resourceTypes
          jobService).1 = none
      ∧ ∀ c ∈ (s.ScheduleAndResumePendingBuild versions build job resources resourceTypes
            jobService).2,
          c.isFactoryCreate = false ∧ c.isEngineCreateBuild = false
          ∧ c.isFinishBuild = false ∧ c.isErrorBuild = false)
    ∧ ((∃ c ∈ (s.ScheduleAndResumePendingBuild versions build job resources resourceTypes
            jobService).2, c.isEngineCreateBuild = true) →
      s.PipelineDB.UpdateBuildToScheduled build.ID = (true, none)
      ∧ Call.UpdateBuildToScheduled build.ID
          ∈ (s.ScheduleAndResumePendingBuild versions build job resources resourceTypes
              jobService).2
      ∧ onlyAfter Call.isUpdateBuildToScheduled Call.isEngineCreateBuild
          (s.ScheduleAndResumePendingBuild versions build job resources resourceTypes
            jobService).2 = true) := by
  generalize hr : s.ScheduleAndResumePendingBuild versions build job resources resourceTypes
    jobService = r
  simp only [ScheduleAndResumePendingBuild, scheduleWithLease, updateBuildToScheduled] at hr
  repeat' split at hr
  all_goals subst hr
  all_goals simp_all [Call.isFinishBuild, Call.isErrorBuild, Call.isEngineCreateBuild,
    Call.isUpdateBuildToScheduled, Call.isFactoryCreate, onlyAfter]


/-- Witness for C19: a build that cannot be scheduled, a lost race, and a build that is
handed to the engine. -/
theorem ScheduleAndResumePendingBuild_lost_race_witness :
    (∀ c ∈ ((exampleScheduler true none).ScheduleAndResumePendingBuild none exampleBuild
          exampleJob exampleResources [] (exampleJobService false "" none)).2,
        c.isUpdateBuildToScheduled = false)
    ∧ ((exampleScheduler false none).ScheduleAndResumePendingBuild none exampleBuild
          exampleJob exampleResources [] (exampleJobService true "" none)).1 = none
    ∧ (exampleScheduler true none).PipelineDB.UpdateBuildToScheduled exampleBuild.ID
        = (true, none) :=
  ⟨(ScheduleAndResumePendingBuild_lost_race (exampleScheduler true none) none exampleBuild
      exampleJob exampleResources [] (exampleJobService false "" none)).1
      { BuildID := 42 }
      (by simp [ScheduleAndResumePendingBuild, scheduleWithLease, updateBuildToScheduled,
        exampleScheduler, exampleJobService, exampleBuild])
      rfl,
   ((ScheduleAndResumePendingBuild_lost_race (exampleScheduler false none) none exampleBuild
      exampleJob exampleResources [] (exampleJobService true "" none)).2.1
      ⟨Call.UpdateBuildToScheduled 42,
        by simp [ScheduleAndResumePendingBuild, scheduleWithLease, updateBuildToScheduled,
          exampleScheduler, exampleJobService, exampleBuild],
        rfl⟩
      (Or.inl rfl)).1,
   ((ScheduleAndResumePendingBuild_lost_race (exampleScheduler true none) none exampleBuild
      exampleJob exampleResources [] (exampleJobService true "" none)).2.2
      ⟨Call.EngineCreateBuild exampleBuild Plan.empty,
        by simp [ScheduleAndResumePendingBuild, scheduleWithLease, updateBuildToScheduled,
          exampleScheduler, exampleJobService, exampleBuild],
        rfl⟩).1⟩

/-- C20: in `ScheduleAndResumePendingBuild`, `ErrorBuild(build.ID, err)` is called exactly
when `CanBuildBeScheduled` was called and returned the error `err` with the reason
"failed-to-scan", and `ErrorBuild` is called with no other build id; when
`CanBuildBeScheduled` returns an error with another reason, neither `ErrorBuild` nor
`FinishBuild` is called; and whenever it returns an error, `UpdateBuildToScheduled`,
`Factory.Create` and `Engine.CreateBuild` are not called and nil is returned. -/
theorem ScheduleAndResumePendingBuild_scan_error (s : Scheduler)
    (versions : Option algorithm.VersionsDB) (build : db.Build) (job : JobConfig)
    (resources : ResourceConfigs) (resourceTypes : ResourceTypes) (jobService : JobService) :
    (∀ err, Call.ErrorBuild build.ID err
        ∈ (s.ScheduleAndResumePendingBuild versions build job resources resourceTypes
            jobService).2
      ↔ ∃ buildPrep, Call.CanBuildBeScheduled build buildPrep versions
          ∈ (s.ScheduleAndResumePendingBuild versions build job resources resourceTypes
              jobService).2
        ∧ (jobService.CanBuildBeScheduled build buildPrep versions).2.2
            = ("failed-to-scan", some err))
    ∧ (∀ buildID err, Call.ErrorBuild buildID err
        ∈ (s.ScheduleAndResumePendingBuild versions build job resources resourceTypes
            jobService).2 → buildID = build.ID)
    ∧ (∀ buildPrep err, Call.CanBuildBeScheduled build buildPrep versions
        ∈ (s.ScheduleAndResumePendingBuild versions build job resources resourceTypes
            jobService).2 →
      (jobService.CanBuildBeScheduled build buildPrep versions).2.2.2 = some err →
      ((jobService.CanBuildBeScheduled build buildPrep versions).2.2.1 ≠ "failed-to-scan" →
        ∀ c ∈ (s.ScheduleAndResumePendingBuild versions build job resources resourceTypes
            jobService).2, c.isErrorBuild = false ∧ c.isFinishBuild = false)
      ∧ (∀ c ∈ (s.ScheduleAndResumePendingBuild versions build job resources resourceTypes
            jobService).2, c.isUpdateBuildToScheduled = false ∧ c.isFactoryCreate = false
          ∧ c.isEngineCreateBuild = false)
      ∧ (s.ScheduleAndResumePendingBuild versions build job resources resourceTypes
            jobService).1 = none) := by
  generalize hr : s.ScheduleAndResumePendingBuild versions build job resources resourceTypes
    jobService = r
  simp only [ScheduleAndResumePendingBuild, scheduleWithLease, updateBuildToScheduled] at hr
  repeat' split at hr
  all_goals subst hr
  all_goals simp_all [Call.isFinishBuild, Call.isErrorBuild, Call.isEngineCreateBuild,
    Call.isUpdateBuildToScheduled, Call.isFactoryCreate, onlyAfter]
  all_goals exact fun _ => eq_comm

/-- Witness for C20: the job service fails to scan. -/
theorem ScheduleAndResumePendingBuild_scan_error_witness :
    Call.ErrorBuild exampleBuild.ID "scan failed"
      ∈ ((exampleScheduler true none).ScheduleAndResumePendingBuild none exampleBuild
          exampleJob exampleResources []
          (exampleJobService false "failed-to-scan" (some "scan failed"))).2 :=
  ((ScheduleAndResumePendingBuild_scan_error (exampleScheduler true none) none exampleBuild
      exampleJob exampleResources []
      (exampleJobService false "failed-to-scan" (some "scan failed"))).1 "scan failed").2
    ⟨{ BuildID := 42 },
      by simp [ScheduleAndResumePendingBuild, scheduleWithLease, updateBuildToScheduled,
        exampleScheduler, exampleJobService, exampleBuild],
      rfl⟩

end scheduler

/-! ## Hook nesting -/

/-- C27: `constructPlanFromConfig` nests the hooks in a fixed order around `base`, the
node built for the step itself (the step without its hooks): the failure hook innermost,
then the success hook, the ensure hook outermost; an absent hook leaves its wrapper
out. With all three hooks the plan is
`Ensure{OnSuccess{OnFailure{base, failurePlan}, successPlan}, ensurePlan}`. -/
theorem constructPlanFromConfig_hook_nesting (factory : BuildFactory)
    (resources : ResourceConfigs) (inputs : List BuildInput) (a : StepAttrs)
    (d ag : Option PlanSequence) (t : Option PlanConfig) (hasHooks : Bool) :
    (∀ s f e : Option PlanConfig,
      constructPlanFromConfig factory resources inputs (PlanConfig.mk a d ag t s f e) hasHooks
        = wrapHook Plan.ensure
            (e.map (fun hook => constructPlanFromConfig factory resources inputs hook hasHooks))
            (wrapHook Plan.onSuccess
              (s.map (fun hook =>
                constructPlanFromConfig factory resources inputs hook hasHooks))
              (wrapHook Plan.onFailure
                (f.map (fun hook =>
                  constructPlanFromConfig factory resources inputs hook hasHooks))
                (constructPlanFromConfig factory resources inputs
                  (PlanConfig.mk a d ag t none none none) hasHooks))))
    ∧ (∀ s f e : PlanConfig,
      constructPlanFromConfig factory resources inputs
          (PlanConfig.mk a d ag t (some s) (some f) (some e)) hasHooks
        = Plan.ensure
            (Plan.onSuccess
              (Plan.onFailure
                (constructPlanFromConfig factory resources inputs
                  (PlanConfig.mk a d ag t none none none) hasHooks)
                (constructPlanFromConfig factory resources inputs f hasHooks))
              (constructPlanFromConfig factory resources inputs s hasHooks))
            (constructPlanFromConfig factory resources inputs e hasHooks)) := by
  have hbase : ∀ s f e : Option PlanConfig,
      constructPlanFromConfig factory resources inputs (PlanConfig.mk a d ag t s f e) hasHooks
        = ensureIfPresent factory resources inputs e
            (successIfPresent factory resources inputs s
              (failureIfPresent factory resources inputs f
                (constructPlanFromConfig factory resources inputs
                  (PlanConfig.mk a d ag t none none none) hasHooks) hasHooks) hasHooks)
            hasHooks := by
    intro s f e
    rw [constructPlanFromConfig.eq_def]
    conv_rhs => rw [constructPlanFromConfig.eq_def]
    simp only [failureIfPresent, successIfPresent, ensureIfPresent]
  constructor
  · intro s f e
    rw [hbase]
    cases s <;> cases f <;> cases e <;>
      simp [wrapHook, failureIfPresent, successIfPresent, ensureIfPresent]
  · intro s f e
    rw [hbase]
    simp [failureIfPresent, successIfPresent, ensureIfPresent]

/-! ## Build sets: union and intersection -/

/-- The filling loop adds the keys to the new map and writes nothing else. -/
theorem BuildSet.fill_eq (keys : List Int) (maps : BuildSet.Maps) :
    BuildSet.fill keys maps = { maps with result := maps.result ∪ keys.toFinset } := by
  induction keys generalizing maps with
  | nil => simp [BuildSet.fill]
  | cons key rest ih =>
    rw [BuildSet.fill, ih]
    congr 1
    ext x
    simp only [Finset.mem_union, Finset.mem_insert, List.toFinset_cons]
    tauto

/-- The loop of `Intersect` adds the keys found in the argument to the new map and
writes nothing else. -/
theorem BuildSet.keep_eq (keys : List Int) (maps : BuildSet.Maps) :
    BuildSet.keep keys maps
      = { maps with result := maps.result ∪ keys.toFinset.filter (fun key => key ∈ maps.otherSet) } := by
  induction keys generalizing maps with
  | nil => simp [BuildSet.keep]
  | cons key rest ih =>
    rw [BuildSet.keep]
    by_cases h : key ∈ maps.otherSet
    · rw [if_pos (by simpa [BuildSet.Contains] using h), ih]
      congr 1
      ext x
      simp only [Finset.mem_union, Finset.mem_insert, List.toFinset_cons, Finset.mem_filter]
      constructor
      · rintro ((hx | hx) | hx)
        · exact Or.inr ⟨Or.inl hx, hx ▸ h⟩
        · exact Or.inl hx
        · exact Or.inr ⟨Or.inr hx.1, hx.2⟩
      · rintro (hx | ⟨hx | hx, hm⟩)
        · exact Or.inl (Or.inr hx)
        · exact Or.inl (Or.inl hx)
        · exact Or.inr ⟨hx, hm⟩
    · rw [if_neg (by simpa [BuildSet.Contains] using h), ih]
      congr 1
      ext x
      simp only [Finset.mem_union, List.toFinset_cons, Finset.mem_filter, Finset.mem_insert]
      constructor
      · rintro (hx | hx)
        · exact Or.inl hx
        · exact Or.inr ⟨Or.inr hx.1, hx.2⟩
      · rintro (hx | ⟨hx | hx, hm⟩)
        · exact Or.inl hx
        · exact absurd (hx ▸ hm) h
        · exact Or.inr ⟨hx, hm⟩

/-- C28: `Union` and `Intersect` are union and intersection with respect to `Contains`,
and both fill a new map and leave the receiver and the argument as they were: run as
loops over the keys, in whatever order `range` yields them, they end with the receiver
and the argument unchanged and the new map equal to the set returned. -/
theorem BuildSet.Union_Intersect_Contains (a b : BuildSet) :
    (∀ x : Int, (a.Union b).Contains x = true ↔ (a.Contains x = true ∨ b.Contains x = true))
    ∧ (∀ x : Int,
        (a.Intersect b).Contains x = true ↔ (a.Contains x = true ∧ b.Contains x = true))
    ∧ (∀ keys otherKeys : List Int, keys.toFinset = a → otherKeys.toFinset = b →
        BuildSet.UnionLoops a b keys otherKeys
          = { set := a, otherSet := b, result := a.Union b })
    ∧ (∀ keys : List Int, keys.toFinset = a →
        BuildSet.IntersectLoop a b keys
          = { set := a, otherSet := b, result := a.Intersect b }) := by
  refine ⟨?_, ?_, ?_, ?_⟩
  · intro x
    simp [BuildSet.Union, BuildSet.Contains]
  · intro x
    simp [BuildSet.Intersect, BuildSet.Contains]
  · intro keys otherKeys hk ho
    simp [BuildSet.UnionLoops, BuildSet.fill_eq, hk, ho, BuildSet.Union]
  · intro keys hk
    simp [BuildSet.IntersectLoop, BuildSet.keep_eq, hk, BuildSet.Intersect]

/-- Witness for C28: the sets `{1, 2}` and `{2, 3}`. -/
theorem BuildSet.Union_Intersect_Contains_witness :
    BuildSet.UnionLoops {1, 2} {2, 3} [1, 2] [3, 2]
      = { set := {1, 2}, otherSet := {2, 3}, result := BuildSet.Union {1, 2} {2, 3} }
    ∧ BuildSet.IntersectLoop {1, 2} {2, 3} [2, 1]
      = { set := {1, 2}, otherSet := {2, 3}, result := BuildSet.Intersect {1, 2} {2, 3} } :=
  ⟨(BuildSet.Union_Intersect_Contains {1, 2} {2, 3}).2.2.1 [1, 2] [3, 2]
      (by decide) (by decide),
   (BuildSet.Union_Intersect_Contains {1, 2} {2, 3}).2.2.2 [2, 1] (by decide)⟩

/-! ## Scheduler: engine failure, lease, manual trigger -/

namespace scheduler
open Scheduler

/-- While the lease is held no call of `lease.Break` is made: the one call is the
deferred one. -/
theorem scheduleWithLease_no_break (s : Scheduler)
    (versions : Option algorithm.VersionsDB) (build : db.Build) (job : JobConfig)
    (resources : ResourceConfigs) (resourceTypes : ResourceTypes) (jobService : JobService) :
    ∀ c ∈ (s.scheduleWithLease versions build job resources resourceTypes jobService).2,
      c.isLeaseBreak = false := by
  generalize hr : s.scheduleWithLease versions build job resources resourceTypes
    jobService = r
  simp only [scheduleWithLease, updateBuildToScheduled] at hr
  repeat' split at hr
  all_goals subst hr
  all_goals simp_all [Call.isLeaseBreak]

/-- C22: lease contention is swallowed: when `LeaseBuildScheduling` answers that the lease
was not acquired, or fails, `ScheduleAndResumePendingBuild` returns nil and calls none
of `GetBuildPreparation`, `CanBuildBeScheduled`, `UpdateBuildToScheduled`,
`Factory.Create`, `Engine.CreateBuild`, `FinishBuild` and `ErrorBuild`: it makes the
lease call and at most a log call. -/
theorem ScheduleAndResumePendingBuild_lease_contention (s : Scheduler)
    (versions : Option algorithm.VersionsDB) (build : db.Build) (job : JobConfig)
    (resources : ResourceConfigs) (resourceTypes : ResourceTypes) (jobService : JobService)
    (h : (s.BuildsDB.LeaseBuildScheduling build.ID 10).2.1 = false
      ∨ (s.BuildsDB.LeaseBuildScheduling build.ID 10).2.2 ≠ none) :
    (s.ScheduleAndResumePendingBuild versions build job resources resourceTypes
        jobService).1 = none
    ∧ (∀ c ∈ (s.ScheduleAndResumePendingBuild versions build job resources resourceTypes
        jobService).2,
        c.isGetBuildPreparation = false ∧ c.isCanBuildBeScheduled = false
        ∧ c.isUpdateBuildToScheduled = false ∧ c.isFactoryCreate = false
        ∧ c.isEngineCreateBuild = false ∧ c.isFinishBuild = false
        ∧ c.isErrorBuild = false)
    ∧ (s.ScheduleAndResumePendingBuild versions build job resources resourceTypes
        jobService).2.filter (fun c => !c.isLog)
        = [Call.LeaseBuildScheduling build.ID 10] := by
  generalize hr : s.ScheduleAndResumePendingBuild versions build job resources resourceTypes
    jobService = r
  simp only [ScheduleAndResumePendingBuild] at hr
  split at hr
  all_goals subst hr
  all_goals simp_all [Call.isGetBuildPreparation, Call.isCanBuildBeScheduled,
    Call.isUpdateBuildToScheduled, Call.isFactoryCreate, Call.isEngineCreateBuild,
    Call.isFinishBuild, Call.isErrorBuild, Call.isLog]

/-- Witness for C22: another scheduler holds the lease. -/
theorem ScheduleAndResumePendingBuild_lease_contention_witness :
    ((contendedScheduler none).ScheduleAndResumePendingBuild none exampleBuild exampleJob
        exampleResources [] (exampleJobService true "" none)).1 = none
    ∧ ((contendedScheduler none).ScheduleAndResumePendingBuild none exampleBuild exampleJob
        exampleResources [] (exampleJobService true "" none)).2.filter (fun c => !c.isLog)
        = [Call.LeaseBuildScheduling exampleBuild.ID 10] :=
  have h := ScheduleAndResumePendingBuild_lease_contention (contendedScheduler none) none
    exampleBuild exampleJob exampleResources [] (exampleJobService true "" none)
    (Or.inl rfl)
  ⟨h.1, h.2.2⟩

/-- C29: `ScheduleAndResumePendingBuild` does not return holding the lease: when
`LeaseBuildScheduling` answered with a lease, acquired and without error, `Break` is
called on that lease exactly once, as the last call before the function returns; when
the lease was not acquired, or the call failed, `Break` is not called. -/
theorem ScheduleAndResumePendingBuild_breaks_lease (s : Scheduler)
    (versions : Option algorithm.VersionsDB) (build : db.Build) (job : JobConfig)
    (resources : ResourceConfigs) (resourceTypes : ResourceTypes) (jobService : JobService) :
    (∀ lease, s.BuildsDB.LeaseBuildScheduling build.ID 10 = (lease, true, none) →
      (s.ScheduleAndResumePendingBuild versions build job resources resourceTypes
          jobService).2.filter Call.isLeaseBreak = [Call.LeaseBreak lease]
      ∧ ∃ before, (s.ScheduleAndResumePendingBuild versions build job resources
          resourceTypes jobService).2 = before ++ [Call.LeaseBreak lease]
        ∧ ∀ c ∈ before, c.isLeaseBreak = false)
    ∧ ((s.BuildsDB.LeaseBuildScheduling build.ID 10).2 ≠ (true, none) →
      ∀ c ∈ (s.ScheduleAndResumePendingBuild versions build job resources resourceTypes
          jobService).2, c.isLeaseBreak = false) := by
  have hbody := scheduleWithLease_no_break s versions build job resources resourceTypes
    jobService
  constructor
  · intro lease hl
    have hfilter : (s.scheduleWithLease versions build job resources resourceTypes
        jobService).2.filter Call.isLeaseBreak = [] := by
      rw [List.filter_eq_nil_iff]
      intro c hc
      simp [hbody c hc]
    simp only [ScheduleAndResumePendingBuild, hl]
    refine ⟨?_, _, rfl, ?_⟩
    · simp [List.filter_append, hfilter, Call.isLeaseBreak]
    · intro c hc
      rcases List.mem_append.1 hc with hc | hc
      · simp only [List.mem_singleton] at hc
        rw [hc]
        rfl
      · exact hbody c hc
  · intro hne
    generalize hr : s.ScheduleAndResumePendingBuild versions build job resources
      resourceTypes jobService = r
    simp only [ScheduleAndResumePendingBuild] at hr
    split at hr
    all_goals subst hr
    all_goals simp_all [Call.isLeaseBreak]

/-- Witness for C29: the build is scheduled and handed to the engine. -/
theorem ScheduleAndResumePendingBuild_breaks_lease_witness :
    ((exampleScheduler true none).ScheduleAndResumePendingBuild none exampleBuild exampleJob
        exampleResources [] (exampleJobService true "" none)).2.filter Call.isLeaseBreak
      = [Call.LeaseBreak { BuildID := 42 }] :=
  ((ScheduleAndResumePendingBuild_breaks_lease (exampleScheduler true none) none
      exampleBuild exampleJob exampleResources [] (exampleJobService true "" none)).1
      { BuildID := 42 } rfl).1


/-- The engine-failure path of `ScheduleAndResumePendingBuild`: when `Engine.CreateBuild`
is called and returns an error, the function returns nil, calls neither `FinishBuild`
nor `ErrorBuild`, and from the failed call on only logs the failure and breaks the
lease; `UpdateBuildToScheduled` had answered true for the build before.  What the
store then holds for the build is decided by the store, outside the translated
files. -/
theorem ScheduleAndResumePendingBuild_engine_error_calls (s : Scheduler)
    (versions : Option algorithm.VersionsDB) (build : db.Build) (job : JobConfig)
    (resources : ResourceConfigs) (resourceTypes : ResourceTypes) (jobService : JobService)
    (plan : Plan)
    (hcall : Call.EngineCreateBuild build plan
      ∈ (s.ScheduleAndResumePendingBuild versions build job resources resourceTypes
          jobService).2)
    (herr : (s.Engine.CreateBuild build plan).2 ≠ none) :
    (s.ScheduleAndResumePendingBuild versions build job resources resourceTypes
        jobService).1 = none
    ∧ (∀ c ∈ (s.ScheduleAndResumePendingBuild versions build job resources resourceTypes
        jobService).2, c.isFinishBuild = false ∧ c.isErrorBuild = false)
    ∧ (∃ lease, (s.ScheduleAndResumePendingBuild versions build job resources
        resourceTypes jobService).2.dropWhile (fun c => !c.isEngineCreateBuild)
        = [Call.EngineCreateBuild build plan,
           Call.Log "error" "failed-to-create-build", Call.LeaseBreak lease])
    ∧ s.PipelineDB.UpdateBuildToScheduled build.ID = (true, none) := by
  generalize hr : s.ScheduleAndResumePendingBuild versions build job resources resourceTypes
    jobService = r at hcall ⊢
  simp only [ScheduleAndResumePendingBuild, scheduleWithLease, updateBuildToScheduled] at hr
  repeat' split at hr
  all_goals subst hr
  all_goals simp_all [Call.isFinishBuild, Call.isErrorBuild, Call.isEngineCreateBuild,
    List.dropWhile]

/-- C23, counterexample: `CreateJobBuild` produces build 42 and `NewJobService` fails:
`TriggerImmediately` returns the zero build and the error, and starts no scheduling. -/
theorem TriggerImmediately_job_service_error :
    (exampleScheduler true none).PipelineDB.CreateJobBuild exampleJob.Name
      = ({ ID := 42 }, none)
    ∧ ((exampleScheduler true none).TriggerImmediately failingHelpers exampleJob
        exampleResources []).Build = { ID := 0 }
    ∧ ((exampleScheduler true none).TriggerImmediately failingHelpers exampleJob
        exampleResources []).Build ≠ { ID := 42 }
    ∧ ((exampleScheduler true none).TriggerImmediately failingHelpers exampleJob
        exampleResources []).Err = some "no such job"
    ∧ ((exampleScheduler true none).TriggerImmediately failingHelpers exampleJob
        exampleResources []).Spawned = [] := by
  refine ⟨rfl, rfl, by decide, rfl, rfl⟩

/-- C23, amended: `TriggerImmediately` calls `CreateJobBuild(job.Name)` exactly once and
does not itself call `GetLatestInputVersions` or `GetJobBuildForInputs`. When
`CreateJobBuild` fails it returns the zero build, a nil waiter and that error, and
starts no goroutine; when `CreateJobBuild` succeeds and `NewJobService` fails it returns
the zero build, a nil waiter and the error of `NewJobService`, and starts no goroutine;
when both succeed it returns the build `CreateJobBuild` produced, a waiter and a nil
error, and starts one goroutine, which runs `ScheduleAndResumePendingBuild` on that
build with nil `versions`. -/
theorem TriggerImmediately_returns (s : Scheduler) (helpers : Helpers) (job : JobConfig)
    (resources : ResourceConfigs) (resourceTypes : ResourceTypes) :
    (s.TriggerImmediately helpers job resources resourceTypes).Calls.filter
        Call.isCreateJobBuild = [Call.CreateJobBuild job.Name]
    ∧ (∀ c ∈ (s.TriggerImmediately helpers job resources resourceTypes).Calls,
        c.isGetLatestInputVersions = false ∧ c.isGetJobBuildForInputs = false)
    ∧ (∀ err, (s.PipelineDB.CreateJobBuild job.Name).2 = some err →
        (s.TriggerImmediately helpers job resources resourceTypes).Build = { ID := 0 }
        ∧ (s.TriggerImmediately helpers job resources resourceTypes).Waiter = none
        ∧ (s.TriggerImmediately helpers job resources resourceTypes).Err = some err
        ∧ (s.TriggerImmediately helpers job resources resourceTypes).Spawned = [])
    ∧ (∀ err, (s.PipelineDB.CreateJobBuild job.Name).2 = none →
        (helpers.NewJobService job).2 = some err →
        (s.TriggerImmediately helpers job resources resourceTypes).Build = { ID := 0 }
        ∧ (s.TriggerImmediately helpers job resources resourceTypes).Waiter = none
        ∧ (s.TriggerImmediately helpers job resources resourceTypes).Err = some err
        ∧ (s.TriggerImmediately helpers job resources resourceTypes).Spawned = [])
    ∧ ((s.PipelineDB.CreateJobBuild job.Name).2 = none →
        (helpers.NewJobService job).2 = none →
        (s.TriggerImmediately helpers job resources resourceTypes).Build
          = (s.PipelineDB.CreateJobBuild job.Name).1
        ∧ (s.TriggerImmediately helpers job resources resourceTypes).Waiter
          = some { goroutines := 1 }
        ∧ (s.TriggerImmediately helpers job resources resourceTypes).Err = none
        ∧ (s.TriggerImmediately helpers job resources resourceTypes).Spawned
          = [(s.ScheduleAndResumePendingBuild none (s.PipelineDB.CreateJobBuild job.Name).1
                job resources resourceTypes (helpers.NewJobService job).1).2]) := by
  generalize hr : s.TriggerImmediately helpers job resources resourceTypes = r
  simp only [TriggerImmediately] at hr
  repeat' split at hr
  all_goals subst hr
  all_goals simp_all [Call.isCreateJobBuild, Call.isGetLatestInputVersions,
    Call.isGetJobBuildForInputs]

/-- Witness for C23: both `CreateJobBuild` and `NewJobService` succeed. -/
theorem TriggerImmediately_returns_witness :
    ((exampleScheduler true none).TriggerImmediately (exampleHelpers true) exampleJob
        exampleResources []).Build = { ID := 42 }
    ∧ ((exampleScheduler true none).TriggerImmediately (exampleHelpers true) exampleJob
        exampleResources []).Err = none :=
  have h := (TriggerImmediately_returns (exampleScheduler true none) (exampleHelpers true)
    exampleJob exampleResources []).2.2.2.2 rfl rfl
  ⟨h.1, h.2.2.1⟩

end scheduler

/-! ## Auth server -/

namespace authserver

/-- The loop over the providers adds methods of type oauth only. -/
theorem oauthMethods_types (s : Server) (providers : List (String × Provider))
    (acc methods : List AuthMethod) (h : oauthMethods s providers acc = some methods)
    (hacc : ∀ m ∈ acc, m.Type_ = AuthTypeOAuth) : ∀ m ∈ methods, m.Type_ = AuthTypeOAuth := by
  induction providers generalizing acc with
  | nil =>
    simp only [oauthMethods, Option.some.injEq] at h
    rw [← h]
    exact hacc
  | cons p rest ih =>
    obtain ⟨name, provider⟩ := p
    rw [oauthMethods] at h
    split at h
    · simp at h
    · refine ih _ h ?_
      intro m hm
      rcases List.mem_append.1 hm with hm | hm
      · exact hacc m hm
      · simp only [List.mem_singleton] at hm
        rw [hm]

/-- Every method the handler collects is of type oauth or of type basic. -/
theorem collectMethods_types (s : Server) (methods : List AuthMethod)
    (h : collectMethods s = Except.ok methods) :
    ∀ m ∈ methods, m.Type_ = AuthTypeOAuth ∨ m.Type_ = AuthTypeBasic := by
  simp only [collectMethods] at h
  repeat' split at h
  all_goals try (simp at h; done)
  · rename_i hoauth _ _ _ _
    simp only [Except.ok.injEq] at h
    rw [← h]
    intro m hm
    rcases List.mem_append.1 hm with hm | hm
    · exact Or.inl (oauthMethods_types s _ [] _ hoauth (by simp) m hm)
    · simp only [List.mem_singleton] at hm
      rw [hm]
      exact Or.inr rfl
  · rename_i hoauth _
    simp only [Except.ok.injEq] at h
    rw [← h]
    intro m hm
    exact Or.inl (oauthMethods_types s _ [] _ hoauth (by simp) m hm)

/-- On methods of type oauth or basic, `Less` is a strict weak ordering, what `sort.Sort`
asks of it. -/
theorem Less_strict_weak (a b c : AuthMethod)
    (ha : a.Type_ = AuthTypeOAuth ∨ a.Type_ = AuthTypeBasic)
    (hb : b.Type_ = AuthTypeOAuth ∨ b.Type_ = AuthTypeBasic)
    (hc : c.Type_ = AuthTypeOAuth ∨ c.Type_ = AuthTypeBasic) :
    Less a a = false
    ∧ (Less a b = true → Less b c = true → Less a c = true)
    ∧ (Less a c = true → Less a b = true ∨ Less b c = true) := by
  have hne : AuthTypeOAuth ≠ AuthTypeBasic := by decide
  have hne' : AuthTypeBasic ≠ AuthTypeOAuth := by decide
  refine ⟨?_, ?_, ?_⟩
  · rcases ha with ha | ha <;> simp [Less, ha, hne, hne']
  · rcases ha with ha | ha <;> rcases hb with hb | hb <;> rcases hc with hc | hc <;>
      simp only [Less, ha, hb, hc, hne, hne', and_self, and_true, and_false, true_and,
        false_and, if_true, if_false, decide_eq_true_eq, Bool.false_eq_true, false_implies,
        implies_true, imp_self] <;>
      exact fun h1 h2 => lt_trans h1 h2
  · rcases ha with ha | ha <;> rcases hb with hb | hb <;> rcases hc with hc | hc <;>
      simp only [Less, ha, hb, hc, hne, hne', and_self, and_true, and_false, true_and,
        false_and, if_true, if_false, decide_eq_true_eq, Bool.false_eq_true, false_implies,
        implies_true, imp_self, or_true, true_or, or_false, false_or] <;>
      (intro h
       rcases lt_or_le a.DisplayName b.DisplayName with h1 | h1
       · exact Or.inl h1
       · exact Or.inr (lt_of_le_of_lt h1 h))

/-- C25: when `ListAuthMethods` writes the list of methods, it writes what `sort.Sort`
made of the methods collected, whatever the order in which the providers map was
visited. Every method collected is of type oauth or basic, and on such methods `Less`
is a strict weak ordering; so `sort.Sort` leaves a rearrangement of the methods with no
pair out of order by `Less`, and in such a list no basic method comes before an oauth
method and methods of one type are in ascending order of display name. -/
theorem ListAuthMethods_order (s : Server) (sorted : List AuthMethod → List AuthMethod)
    (methods : List AuthMethod) (hcollect : collectMethods s = Except.ok methods)
    (hperm : (sorted methods).Perm methods)
    (hsorted : (sorted methods).Pairwise (fun a b => Less b a = false)) :
    ListAuthMethods s sorted
      = { effects := [http.Effect.SetHeader "Content-Type" "application/json",
                      http.Effect.Encode (Body.Methods (sorted methods))],
          panicked := false }
    ∧ (sorted methods).Pairwise (fun a b =>
        ¬ (a.Type_ = AuthTypeBasic ∧ b.Type_ = AuthTypeOAuth)
        ∧ (a.Type_ = b.Type_ → a.DisplayName ≤ b.DisplayName))
    ∧ (∀ m ∈ sorted methods, m.Type_ = AuthTypeOAuth ∨ m.Type_ = AuthTypeBasic)
    ∧ (∀ a ∈ methods, ∀ b ∈ methods, ∀ c ∈ methods,
        Less a a = false
        ∧ (Less a b = true → Less b c = true → Less a c = true)
        ∧ (Less a c = true → Less a b = true ∨ Less b c = true)) := by
  have htypes := collectMethods_types s methods hcollect
  have htypes' : ∀ m ∈ sorted methods, m.Type_ = AuthTypeOAuth ∨ m.Type_ = AuthTypeBasic :=
    fun m hm => htypes m (hperm.mem_iff.1 hm)
  have hne : AuthTypeOAuth ≠ AuthTypeBasic := by decide
  have hne' : AuthTypeBasic ≠ AuthTypeOAuth := by decide
  refine ⟨?_, ?_, htypes', ?_⟩
  · simp only [ListAuthMethods, hcollect]
  · refine hsorted.imp_of_mem ?_
    intro a b hma hmb hless
    have ha := htypes' a hma
    have hb := htypes' b hmb
    constructor
    · rintro ⟨hat, hbt⟩
      simp [Less, hat, hbt, hne, hne'] at hless
    · intro hsame
      rcases ha with ha | ha
      · have hb' : b.Type_ = AuthTypeOAuth := hsame ▸ ha
        simp only [Less, ha, hb', hne, hne', and_false, false_and, if_false,
          decide_eq_false_iff_not, not_lt] at hless
        exact hless
      · have hb' : b.Type_ = AuthTypeBasic := hsame ▸ ha
        simp only [Less, ha, hb', hne, hne', and_false, false_and, if_false,
          decide_eq_false_iff_not, not_lt] at hless
        exact hless
  · intro a ha b hb c hc
    exact Less_strict_weak a b c (htypes a ha) (htypes b hb) (htypes c hc)

/-- The example sort on the methods of the example server. -/
theorem exampleSort_eq :
    exampleSort
        [{ Type_ := "oauth", DisplayName := "OAuth Provider 2",
           AuthURL := "https://example.com/auth/oauth-provider-2" },
         { Type_ := "oauth", DisplayName := "OAuth Provider 1",
           AuthURL := "https://example.com/auth/oauth-provider-1" },
         { Type_ := "basic", DisplayName := "Basic Auth",
           AuthURL := "https://example.com/login/basic" }]
      = [{ Type_ := "oauth", DisplayName := "OAuth Provider 1",
           AuthURL := "https://example.com/auth/oauth-provider-1" },
         { Type_ := "oauth", DisplayName := "OAuth Provider 2",
           AuthURL := "https://example.com/auth/oauth-provider-2" },
         { Type_ := "basic", DisplayName := "Basic Auth",
           AuthURL := "https://example.com/login/basic" }] := by
  have h12 : ("OAuth Provider 1" : String) < "OAuth Provider 2" := by
    rw [String.lt_iff_toList_lt]
    decide
  have h21 : ¬ ("OAuth Provider 2" : String) < "OAuth Provider 1" := by
    rw [String.lt_iff_toList_lt]
    decide
  simp [exampleSort, List.insertionSort, List.orderedInsert, Less, AuthTypeOAuth,
    AuthTypeBasic, h12, h21]

/-- Witness for C25: two OAuth providers, visited second first, and basic auth. -/
theorem ListAuthMethods_order_witness :
    ListAuthMethods exampleServer exampleSort
      = { effects := [http.Effect.SetHeader "Content-Type" "application/json",
                      http.Effect.Encode (Body.Methods
                        [{ Type_ := "oauth", DisplayName := "OAuth Provider 1",
                           AuthURL := "https://example.com/auth/oauth-provider-1" },
                         { Type_ := "oauth", DisplayName := "OAuth Provider 2",
                           AuthURL := "https://example.com/auth/oauth-provider-2" },
                         { Type_ := "basic", DisplayName := "Basic Auth",
                           AuthURL := "https://example.com/login/basic" }])],
          panicked := false } :=
  (ListAuthMethods_order exampleServer exampleSort
    [{ Type_ := "oauth", DisplayName := "OAuth Provider 2",
       AuthURL := "https://example.com/auth/oauth-provider-2" },
     { Type_ := "oauth", DisplayName := "OAuth Provider 1",
       AuthURL := "https://example.com/auth/oauth-provider-1" },
     { Type_ := "basic", DisplayName := "Basic Auth",
       AuthURL := "https://example.com/login/basic" }]
    rfl
    (by rw [exampleSort_eq]; exact List.Perm.swap _ _ _)
    (by
      rw [exampleSort_eq]
      simp [Less, AuthTypeOAuth, AuthTypeBasic]
      decide)).1.trans
    (by rw [exampleSort_eq])

/-- C30: the header `Bearer`, without a space, makes `GetAuthToken` log the malformed
header, write 400 and then, not having returned, read `authSegs[1]` out of range: it
panics, whatever the server. With the empty header the handler writes 400 and goes on
to generate a token and to write it. -/
theorem GetAuthToken_malformed_header :
    (∀ s : Server, GetAuthToken s "Bearer"
      = { effects := [http.Effect.Log "debug" "malformed-authorization-header",
                      http.Effect.WriteHeader http.StatusBadRequest],
          panicked := true })
    ∧ SplitN2 "Bearer" = ["Bearer"]
    ∧ GetAuthToken exampleServer ""
      = { effects := [http.Effect.Log "debug" "malformed-authorization-header",
                      http.Effect.WriteHeader http.StatusBadRequest,
                      http.Effect.SetHeader "Content-Type" "application/json",
                      http.Effect.Encode
                        (Body.Token { Type_ := "Bearer", Value := "some-token" })],
          panicked := false } := by
  refine ⟨fun s => ?_, by decide, by decide⟩
  rfl

end authserver

/-! ## Build server -/

namespace buildserver

/-- C26: `CreateBuild` discards the error of `GetTeamByName`. For a body that is not a
plan it responds 400 and calls no collaborator. For a body that is a plan it calls
`CreateOneOffBuild` with the id of the team value `GetTeamByName` returned, and what it
does is the same whatever error `GetTeamByName` returned with that value; it responds
201, having handed the build to the engine and resumed it, when `CreateOneOffBuild` and
`Engine.CreateBuild` succeed, and it responds 500 exactly when one of the two fails. -/
theorem CreateBuild_discards_team_error (s : Server) (plan : Plan) :
    (∀ err, (CreateBuild s (plan, some err)).status = some http.StatusBadRequest
      ∧ http.callsOf (CreateBuild s (plan, some err)).effects = [])
    ∧ (∀ err, CreateBuild { s with GetTeamByName := fun name => ((s.GetTeamByName name).1, err) }
          (plan, none) = CreateBuild s (plan, none))
    ∧ (http.callsOf (CreateBuild s (plan, none)).effects).filter Call.isCreateOneOffBuild
        = [Call.CreateOneOffBuild (s.GetTeamByName DefaultTeamName).1.ID]
    ∧ (∀ build engineBuild,
        s.CreateOneOffBuild (s.GetTeamByName DefaultTeamName).1.ID = (build, none) →
        s.EngineCreateBuild build plan = (some engineBuild, none) →
        (CreateBuild s (plan, none)).status = some http.StatusCreated
        ∧ http.bodiesOf (CreateBuild s (plan, none)).effects = [build])
    ∧ ((CreateBuild s (plan, none)).status = some http.StatusInternalServerError
        ↔ ((s.CreateOneOffBuild (s.GetTeamByName DefaultTeamName).1.ID).2 ≠ none
          ∨ (s.EngineCreateBuild
              (s.CreateOneOffBuild (s.GetTeamByName DefaultTeamName).1.ID).1 plan).2
              ≠ none)) := by
  refine ⟨?_, ?_, ?_, ?_, ?_⟩
  · intro err
    simp [CreateBuild, http.Handled.status, http.statusOf, http.callsOf]
  · intro err
    simp only [CreateBuild]
  · generalize hr : CreateBuild s (plan, none) = r
    simp only [CreateBuild] at hr
    repeat' split at hr
    all_goals subst hr
    all_goals simp [http.callsOf, Call.isCreateOneOffBuild]
  · intro build engineBuild hb he
    simp [CreateBuild, hb, he, http.Handled.status, http.statusOf, http.bodiesOf,
      http.StatusCreated, http.StatusOK]
  · generalize hr : CreateBuild s (plan, none) = r
    simp only [CreateBuild] at hr
    repeat' split at hr
    all_goals subst hr
    all_goals simp_all [http.Handled.status, http.statusOf, http.StatusCreated,
      http.StatusInternalServerError, http.StatusOK]

/-- Witness for C26: `GetTeamByName` fails, the build is created for team 0 and the
response is 201. -/
theorem CreateBuild_discards_team_error_witness :
    (exampleServer.GetTeamByName DefaultTeamName).2 = some "no teams table"
    ∧ (CreateBuild exampleServer (Plan.empty, none)).status = some http.StatusCreated
    ∧ http.bodiesOf (CreateBuild exampleServer (Plan.empty, none)).effects = [{ ID := 7 }] :=
  ⟨rfl, (CreateBuild_discards_team_error exampleServer Plan.empty).2.2.2.1
    { ID := 7 } { ID := 7 } rfl rfl⟩

end buildserver

/-! ## Timeout step -/

namespace exec

/-- Firing keeps the clock; afterwards the timeout has tripped exactly when the clock
has reached the duration, and the child has been sent the interrupt exactly then. -/
theorem fire_spec (d elapsed : Nat) (timedOut : Bool) (sent : List Signal)
    (htrip : timedOut = true → d ≤ elapsed)
    (hsent : sent = if timedOut then [Signal.Interrupt] else []) :
    TimeoutState.fire d { elapsed := elapsed, timedOut := timedOut, sent := sent }
      = { elapsed := elapsed, timedOut := decide (d ≤ elapsed),
          sent := if d ≤ elapsed then [Signal.Interrupt] else [] } := by
  subst hsent
  unfold TimeoutState.fire
  cases timedOut <;> by_cases hd : d ≤ elapsed
  · simp [hd]
  · simp [hd]
  · simp [hd]
  · exact absurd (htrip rfl) hd

/-- The loop over clock advances followed by the child's return, from a state in which
the timeout has tripped exactly if the clock has reached the duration. -/
theorem timeoutLoop_clock (d : Nat) (events rest : List TimeoutEvent) (err : Option Error)
    (elapsed : Nat) (hclock : onlyClock events = true) :
    timeoutLoop d (events ++ TimeoutEvent.ChildReturned err :: rest)
        { elapsed := elapsed, timedOut := decide (d ≤ elapsed),
          sent := if d ≤ elapsed then [Signal.Interrupt] else [] }
      = { returned := some (if d ≤ elapsed + advanced events then none else err),
          state := { elapsed := elapsed + advanced events,
                     timedOut := decide (d ≤ elapsed + advanced events),
                     sent := if d ≤ elapsed + advanced events then [Signal.Interrupt]
                             else [] } } := by
  induction events generalizing elapsed with
  | nil => simp [timeoutLoop, advanced]
  | cons e events ih =>
    cases e with
    | Signalled signal => simp [onlyClock] at hclock
    | ChildReturned e => simp [onlyClock] at hclock
    | ClockAdvanced amount =>
      simp only [onlyClock] at hclock
      simp only [List.cons_append, timeoutLoop, advanced, List.append_eq]
      rw [fire_spec d (elapsed + amount) (decide (d ≤ elapsed))
        (if d ≤ elapsed then [Signal.Interrupt] else [])
        (by intro h; have := of_decide_eq_true h; omega)
        (by by_cases h : d ≤ elapsed <;> simp [h]),
        ih (elapsed + amount) hclock, Nat.add_assoc]

/-- C24: a timeout step with the valid duration `d` around a child whose `Run` returns
nil, with no signal arriving from outside. When the clock has advanced by `d` or more
before the child returns, the child is sent the interrupt, `Run` returns nil and the
`Success` result is false; when it has advanced by less, the child is sent no signal,
`Run` returns nil and the `Success` result is the child's. -/
theorem Timeout_success (d : Nat) (events rest : List TimeoutEvent) (childSuccess : Bool)
    (hclock : onlyClock events = true) :
    (d ≤ advanced events →
      (TimeoutRunStep (some d) (events ++ TimeoutEvent.ChildReturned none :: rest)).state.sent
        = [Signal.Interrupt]
      ∧ (TimeoutRunStep (some d) (events ++ TimeoutEvent.ChildReturned none :: rest)).returned
        = some none
      ∧ TimeoutResult
          (TimeoutRunStep (some d) (events ++ TimeoutEvent.ChildReturned none :: rest))
          childSuccess = (false, true))
    ∧ (advanced events < d →
      (TimeoutRunStep (some d) (events ++ TimeoutEvent.ChildReturned none :: rest)).state.sent
        = []
      ∧ (TimeoutRunStep (some d) (events ++ TimeoutEvent.ChildReturned none :: rest)).returned
        = some none
      ∧ TimeoutResult
          (TimeoutRunStep (some d) (events ++ TimeoutEvent.ChildReturned none :: rest))
          childSuccess = (childSuccess, true)) := by
  have hrun : TimeoutRunStep (some d) (events ++ TimeoutEvent.ChildReturned none :: rest)
      = { returned := some none,
          state := { elapsed := advanced events,
                     timedOut := decide (d ≤ advanced events),
                     sent := if d ≤ advanced events then [Signal.Interrupt] else [] } } := by
    simp only [TimeoutRunStep]
    rw [fire_spec d 0 false [] (by simp) (by simp)]
    have h := timeoutLoop_clock d events rest none 0 hclock
    simp only [Nat.zero_add, ite_self] at h
    exact h
  rw [hrun]
  constructor
  · intro h
    simp [TimeoutResult, h]
  · intro h
    simp [TimeoutResult, Nat.not_le.2 h]

/-- Witness for C24: the two runs of the test, with a timeout of one hour (in seconds)
and a child that advances the clock by an hour, or by half an hour, before it returns. -/
theorem Timeout_success_witness :
    TimeoutResult
        (TimeoutRunStep (some 3600)
          ([TimeoutEvent.ClockAdvanced 3600] ++ TimeoutEvent.ChildReturned none :: []))
        true = (false, true)
    ∧ TimeoutResult
        (TimeoutRunStep (some 3600)
          ([TimeoutEvent.ClockAdvanced 1800] ++ TimeoutEvent.ChildReturned none :: []))
        true = (true, true) :=
  ⟨((Timeout_success 3600 [TimeoutEvent.ClockAdvanced 3600] [] true rfl).1
      (by decide)).2.2,
   ((Timeout_success 3600 [TimeoutEvent.ClockAdvanced 1800] [] true rfl).2
      (by decide)).2.2⟩

end exec

end ATC
